import Mathlib

/-!
# GCPython: mark-sweep collector (`Python/marksweep.c`, `Include/marksweep.h`)

A shallow embedding of the collector engine and the properties proved about it.

* Addresses are natural numbers; a heap is a finite list of slots, slot `a`
  holding the object allocated at address `a` (or nothing once it is freed).
  A `NULL` pointer is `none : Option Addr`.
* The registry (`refchain`, the doubly linked list threaded through
  `_ob_next` / `_ob_prev`) is the list of its members from head to tail; the
  sentinel `&refchain` is the cursor value `none`.
* A C function that can dereference an invalid pointer returns `Res.segv`
  there; a recursion bounded by fuel returns `Res.timeout` when the fuel is
  exhausted.
-/

namespace GCPython

/-! ## Results of possibly faulting, fuel-bounded computations -/

/-- Outcome of a C routine: a value, an invalid memory access, or fuel exhausted. -/
inductive Res (α : Type) where
  | ok : α → Res α
  | segv : Res α
  | timeout : Res α
  deriving DecidableEq, Repr

/-- Sequencing of two routines: the second runs on the value of the first. -/
def Res.bind {α β : Type} (r : Res α) (f : α → Res β) : Res β :=
  match r with
  | Res.ok a => f a
  | Res.segv => Res.segv
  | Res.timeout => Res.timeout

/-! ## Object header, type descriptor and heap -/

/-- An object address (`PyObject *` that is not `NULL`). -/
abbrev Addr := Nat

/-- Modelled from the spec: the behaviour of a type's `tp_traverse` callback on
one object (the callbacks are defined outside `Python/marksweep.c`). It passes
each entry of `visits`, in order, to the visitor following the `Py_VISIT`
convention (a nonzero visitor result is returned at once), and returns
`result` when every visit returned zero; a nonzero `result` is the callback
reporting failure. -/
structure TraverseProc where
  visits : List Addr
  result : Int
  deriving DecidableEq, Repr

/-- The reference fields of a `PyCodeObject` that `code_traverse` marks. -/
structure PyCodeObject where
  co_code : Option Addr
  co_consts : Option Addr
  co_names : Option Addr
  co_varnames : Option Addr
  co_freevars : Option Addr
  co_cellvars : Option Addr
  co_filename : Option Addr
  co_name : Option Addr
  co_lnotab : Option Addr
  co_zombieframe : Option Addr
  deriving DecidableEq, Repr

/-- A managed object: header (`ob_refcnt`, the flag word read by `Py_MSFLAGS`),
what the marker asks of its type (`Py_TYPE(ob) == &PyCode_Type`,
`PyObject_IS_GC(ob)`, `Py_TYPE(ob)->tp_traverse`), the code-object fields, and
the references the object owns (`held`, released by its deallocator). -/
structure PyObject where
  ob_refcnt : Int
  ob_msflags : Nat
  is_code : Bool
  is_gc : Bool
  tp_traverse : Option TraverseProc
  code : PyCodeObject
  held : List Addr
  deriving DecidableEq, Repr

/-- The heap: slot `a` is the object at address `a`, `none` once freed. -/
abbrev Heap := List (Option PyObject)

/-- Dereference an address: `none` when nothing is allocated there. -/
def lookup (h : Heap) (a : Addr) : Option PyObject :=
  match h[a]? with
  | some (some o) => some o
  | _ => none

/-- Overwrite the object stored at address `a`. -/
def store (h : Heap) (a : Addr) (o : PyObject) : Heap := h.set a (some o)

/-- Release the memory at address `a`. -/
def free (h : Heap) (a : Addr) : Heap := h.set a none

/-! ## `Include/marksweep.h` -/

/-- The flag bit `#define Py_MSFLAGS_MARKED (1U << 0)`. -/
def Py_MSFLAGS_MARKED : Nat := 1 <<< 0

/-- Macro `#define PyMarkSweep_HasFlag(ob, f) ((Py_MSFLAGS(ob) & f) != 0)`. -/
def PyMarkSweep_HasFlag (o : PyObject) (f : Nat) : Bool := (o.ob_msflags &&& f) != 0

/-- Macro `#define PyMarkSweep_ClearFlag(ob) (Py_MSFLAGS(ob) &= 0)`. -/
def PyMarkSweep_ClearFlag (o : PyObject) : PyObject :=
  { o with ob_msflags := o.ob_msflags &&& 0 }

/-- Macro `#define PyMarkSweep_SetFlag(ob, f) (Py_MSFLAGS(ob) |= f)`. -/
def PyMarkSweep_SetFlag (o : PyObject) (f : Nat) : PyObject :=
  { o with ob_msflags := o.ob_msflags ||| f }

/-- Macro `#define PyMarkSweep_IsMarked(ob) (PyMarkSweep_HasFlag(ob, Py_MSFLAGS_MARKED))`. -/
def PyMarkSweep_IsMarked (o : PyObject) : Bool := PyMarkSweep_HasFlag o Py_MSFLAGS_MARKED

/-- The visitor type: `int (*visitproc)(PyObject *, void *)` acting on the heap. -/
abbrev Visit := Heap → Addr → Res (Heap × Int)

/-- Macro `Py_MARK(ob)`: mark `ob` if it is not `NULL`, discarding the result of
`mark_object`. -/
def Py_MARK (visit : Visit) (h : Heap) (ob : Option Addr) : Res Heap :=
  match ob with
  | none => Res.ok h
  | some a => (visit h a).bind fun p => Res.ok p.1

/-- A run of consecutive `Py_MARK(...)` statements, in source order. -/
def Py_MARK_seq (visit : Visit) : Heap → List (Option Addr) → Res Heap
  | h, [] => Res.ok h
  | h, ob :: rest => (Py_MARK visit h ob).bind fun h1 => Py_MARK_seq visit h1 rest

/-! ## `Python/marksweep.c`: the runtime structures walked by the root enumerator -/

/-- The `PyThreadState` fields read by `thread_traverse` and `mark_all`. -/
structure PyThreadState where
  dict : Option Addr
  async_exc : Option Addr
  curexc_type : Option Addr
  curexc_value : Option Addr
  curexc_traceback : Option Addr
  exc_type : Option Addr
  exc_value : Option Addr
  exc_traceback : Option Addr
  c_profileobj : Option Addr
  c_traceobj : Option Addr
  async_gen_firstiter : Option Addr
  async_gen_finalizer : Option Addr
  context : Option Addr
  frame : Option Addr
  deriving DecidableEq, Repr

/-- The `PyInterpreterState` fields read by `interpreter_traverse`, and the
thread list starting at `tstate_head`. -/
structure PyInterpreterState where
  audit_hooks : Option Addr
  codec_search_path : Option Addr
  codec_search_cache : Option Addr
  codec_error_registry : Option Addr
  modules : Option Addr
  modules_by_index : Option Addr
  sysdict : Option Addr
  builtins : Option Addr
  builtins_copy : Option Addr
  importlib : Option Addr
  import_func : Option Addr
  dict : Option Addr
  before_forkers : Option Addr
  after_forkers_parent : Option Addr
  after_forkers_child : Option Addr
  tstate_head : List PyThreadState
  deriving DecidableEq, Repr

/-- The `_PyRuntime` parts the collector reads: whether `HAVE_FORK` is defined,
the interpreter list from `interpreters.head`, and, modelled from the spec,
the entries each pool hook (`PyTuple_Traverse`, `PyList_Traverse`,
`PySet_Traverse`, `PyBytes_Traverse`, `PyLong_Traverse`, `PyFloat_Traverse`,
all defined outside `Python/marksweep.c`) hands to its `markproc`. -/
structure Runtime where
  have_fork : Bool
  interpreters : List PyInterpreterState
  tuple_pool : List (Option Addr)
  list_pool : List (Option Addr)
  set_pool : List (Option Addr)
  bytes_pool : List (Option Addr)
  long_pool : List (Option Addr)
  float_pool : List (Option Addr)
  deriving DecidableEq, Repr

/-- The collector's whole world: heap, registry and runtime. -/
structure State where
  heap : Heap
  refchain : List Addr
  runtime : Runtime
  deriving DecidableEq, Repr

/-! ## `reset_all_refchain` -/

/-- The loop of `reset_all_refchain` over the registry members from `cur` on:
`PyMarkSweep_ClearFlag(cur)` on each. -/
def reset_loop : Heap → List Addr → Res Heap
  | h, [] => Res.ok h
  | h, cur :: rest =>
    match lookup h cur with
    | none => Res.segv
    | some o => reset_loop (store h cur (PyMarkSweep_ClearFlag o)) rest

/-- Function `static void reset_all_refchain(void)`. -/
def reset_all_refchain (s : State) : Res State :=
  (reset_loop s.heap s.refchain).bind fun h => Res.ok { s with heap := h }

/-! ## The marker -/

/-- The fields `interpreter_traverse` marks, in source order (the last three
only under `HAVE_FORK`). -/
def interpreter_fields (have_fork : Bool) (interp : PyInterpreterState) : List (Option Addr) :=
  [interp.audit_hooks, interp.codec_search_path, interp.codec_search_cache,
   interp.codec_error_registry, interp.modules, interp.modules_by_index,
   interp.sysdict, interp.builtins, interp.builtins_copy, interp.importlib,
   interp.import_func, interp.dict] ++
  (if have_fork then
    [interp.before_forkers, interp.after_forkers_parent, interp.after_forkers_child]
   else [])

/-- Function `static void interpreter_traverse(PyInterpreterState *interp)`. -/
def interpreter_traverse (visit : Visit) (have_fork : Bool) (h : Heap)
    (interp : PyInterpreterState) : Res Heap :=
  Py_MARK_seq visit h (interpreter_fields have_fork interp)

/-- The fields `thread_traverse` marks, in source order. -/
def thread_fields (tstate : PyThreadState) : List (Option Addr) :=
  [tstate.dict, tstate.async_exc, tstate.curexc_type, tstate.curexc_value,
   tstate.curexc_traceback, tstate.exc_type, tstate.exc_value, tstate.exc_traceback,
   tstate.c_profileobj, tstate.c_traceobj, tstate.async_gen_firstiter,
   tstate.async_gen_finalizer, tstate.context]

/-- Function `static void thread_traverse(PyThreadState *tstate)`. -/
def thread_traverse (visit : Visit) (h : Heap) (tstate : PyThreadState) : Res Heap :=
  Py_MARK_seq visit h (thread_fields tstate)

/-- The fields `code_traverse` marks, in source order. -/
def code_fields (co : PyCodeObject) : List (Option Addr) :=
  [co.co_code, co.co_consts, co.co_names, co.co_varnames, co.co_freevars,
   co.co_cellvars, co.co_filename, co.co_name, co.co_lnotab, co.co_zombieframe]

/-- Function `static void code_traverse(PyCodeObject *co)`. -/
def code_traverse (visit : Visit) (h : Heap) (co : PyCodeObject) : Res Heap :=
  Py_MARK_seq visit h (code_fields co)

/-- Modelled from the spec: running a `tp_traverse` callback with visitor
`visit` over the remaining referents `todo` (`Py_VISIT` on each: a nonzero
visitor result is returned immediately), then returning the callback's own
result. -/
def tp_traverse_run (visit : Visit) (t : TraverseProc) : Heap → List Addr → Res (Heap × Int)
  | h, [] => Res.ok (h, t.result)
  | h, a :: todo =>
    (visit h a).bind fun p =>
      if p.2 ≠ 0 then Res.ok (p.1, p.2) else tp_traverse_run visit t p.1 todo

/-- Function `int mark_object(PyObject *ob, void *sarisia)`; `fuel` bounds the depth of
the recursion through the traversal callbacks. -/
def mark_object : Nat → Heap → Addr → Res (Heap × Int)
  | 0, _, _ => Res.timeout
  | fuel + 1, h, ob =>
    match lookup h ob with
    | none => Res.segv
    | some o =>
      if PyMarkSweep_IsMarked o then Res.ok (h, 0)
      else
        let h1 := store h ob (PyMarkSweep_SetFlag o Py_MSFLAGS_MARKED)
        if o.is_code then
          (code_traverse (mark_object fuel) h1 o.code).bind fun h2 => Res.ok (h2, 0)
        else if !o.is_gc then Res.ok (h1, 0)
        else
          match o.tp_traverse with
          | none => Res.ok (h1, 0)
          | some t =>
            (tp_traverse_run (mark_object fuel) t h1 t.visits).bind fun p =>
              if p.2 ≠ 0 then Res.ok (p.1, 1) else Res.ok (p.1, 0)

/-- Function `static void marker(void *ob)`: the `markproc` handed to the pool hooks. -/
def marker (visit : Visit) (h : Heap) (ob : Option Addr) : Res Heap := Py_MARK visit h ob

/-- Modelled from the spec: a pool hook `Py*_Traverse(marker)` calls the
`markproc` once on each entry of its pool. -/
def pool_traverse (visit : Visit) : Heap → List (Option Addr) → Res Heap
  | h, [] => Res.ok h
  | h, ob :: rest => (marker visit h ob).bind fun h1 => pool_traverse visit h1 rest

/-- The inner loop of `mark_all` over the threads of one interpreter:
`thread_traverse(tstate); Py_MARK(tstate->frame);`. -/
def mark_threads (visit : Visit) : Heap → List PyThreadState → Res Heap
  | h, [] => Res.ok h
  | h, tstate :: rest =>
    (thread_traverse visit h tstate).bind fun h1 =>
      (Py_MARK visit h1 tstate.frame).bind fun h2 => mark_threads visit h2 rest

/-- The outer loop of `mark_all` over the interpreters. -/
def mark_interpreters (visit : Visit) (have_fork : Bool) :
    Heap → List PyInterpreterState → Res Heap
  | h, [] => Res.ok h
  | h, interp :: rest =>
    (interpreter_traverse visit have_fork h interp).bind fun h1 =>
      (mark_threads visit h1 interp.tstate_head).bind fun h2 =>
        mark_interpreters visit have_fork h2 rest

/-- Function `static void mark_all(void)` acting on the heap. -/
def mark_all_heap (fuel : Nat) (rt : Runtime) (h : Heap) : Res Heap :=
  (mark_interpreters (mark_object fuel) rt.have_fork h rt.interpreters).bind fun h1 =>
  (pool_traverse (mark_object fuel) h1 rt.tuple_pool).bind fun h2 =>
  (pool_traverse (mark_object fuel) h2 rt.list_pool).bind fun h3 =>
  (pool_traverse (mark_object fuel) h3 rt.set_pool).bind fun h4 =>
  (pool_traverse (mark_object fuel) h4 rt.bytes_pool).bind fun h5 =>
  (pool_traverse (mark_object fuel) h5 rt.long_pool).bind fun h6 =>
  pool_traverse (mark_object fuel) h6 rt.float_pool

/-- Function `static void mark_all(void)`. -/
def mark_all (fuel : Nat) (s : State) : Res State :=
  (mark_all_heap fuel s.runtime s.heap).bind fun h => Res.ok { s with heap := h }

/-! ## Deallocation (outside `Python/marksweep.c`) -/

/-- Modelled from the spec: `_Py_ForgetReference(op)` unlinks `op` from the
registry ("`unregister(object)` removes it"); the function is defined in
`Objects/object.c`, not in this file. -/
def _Py_ForgetReference (s : State) (op : Addr) : State :=
  { s with refchain := s.refchain.filter fun x => x != op }

/-- Macro `Py_DECREF(op)` with deallocator `dealloc`: decrement the reference count
and deallocate when it becomes zero. -/
def Py_DECREF (dealloc : State → Addr → Res State) (s : State) (op : Addr) : Res State :=
  match lookup s.heap op with
  | none => Res.segv
  | some o =>
    let s1 : State :=
      { s with heap := store s.heap op { o with ob_refcnt := o.ob_refcnt - 1 } }
    if o.ob_refcnt - 1 ≠ 0 then Res.ok s1 else dealloc s1 op

/-- Release the references in `refs` one after the other. -/
def decref_all (dealloc : State → Addr → Res State) : State → List Addr → Res State
  | s, [] => Res.ok s
  | s, r :: rest => (Py_DECREF dealloc s r).bind fun s1 => decref_all dealloc s1 rest

/-- Modelled from the spec: `_Py_Dealloc(op)` (defined in `Objects/object.c`)
"simultaneously removes it from the registry and releases resources;
deallocation may itself decrement other objects' reference counts and trigger
further, ordinary reference-counting-driven deallocations": the object is
unlinked from the registry, each reference it holds is released (cascading
when a count reaches zero), and its memory is freed. `fuel` bounds the depth
of the cascade. -/
def _Py_Dealloc : Nat → State → Addr → Res State
  | 0, _, _ => Res.timeout
  | fuel + 1, s, op =>
    match lookup s.heap op with
    | none => Res.segv
    | some o =>
      (decref_all (_Py_Dealloc fuel) (_Py_ForgetReference s op) o.held).bind fun s2 =>
        match lookup s2.heap op with
        | none => Res.segv
        | some _ => Res.ok { s2 with heap := free s2.heap op }

/-! ## The sweeper -/

/-- What the sweeper did with a node (the three commented-out diagnostics of
`sweep`: `dealloc`, `UNSAFE`, `skip (has mark)`). -/
inductive SweepAction where
  | dealloc
  | referenced
  | skip
  deriving DecidableEq, Repr

/-- One visit of the sweep cursor: the node, its header as read at the visit,
and the branch taken. -/
structure SweepEvent where
  ob : Addr
  seen : PyObject
  action : SweepAction
  deriving DecidableEq, Repr

/-- Reading `cur->_ob_next` in registry `chain`: `none` when `cur` is not
linked in the registry, `some none` when the successor is the sentinel. -/
def ob_next : List Addr → Addr → Option (Option Addr)
  | [], _ => none
  | x :: rest, cur => if x = cur then some rest.head? else ob_next rest cur

/-- The body of the `while` loop of `sweep` for the node `cur` whose header
reads `o`: the state afterwards and the branch taken. -/
def sweep_visit (dfuel : Nat) (s : State) (cur : Addr) (o : PyObject) :
    Res (State × SweepEvent) :=
  if !PyMarkSweep_IsMarked o then
    if o.ob_refcnt ≠ 0 then
      Res.ok (s, ⟨cur, o, SweepAction.referenced⟩)
    else
      (_Py_Dealloc dfuel s cur).bind fun s1 => Res.ok (s1, ⟨cur, o, SweepAction.dealloc⟩)
  else
    Res.ok ({ s with heap := store s.heap cur (PyMarkSweep_ClearFlag o) },
      ⟨cur, o, SweepAction.skip⟩)

/-- The `while (cur != &refchain)` loop of `sweep`: `next = cur->_ob_next`
is read before the node is processed, then `cur = next`. `fuel` bounds the
number of iterations, `dfuel` the depth of a deallocation cascade. The second
component lists the visits in order. -/
def sweep_loop (dfuel : Nat) : Nat → State → Option Addr → Res (State × List SweepEvent)
  | _, s, none => Res.ok (s, [])
  | 0, _, some _ => Res.timeout
  | fuel + 1, s, some cur =>
    match ob_next s.refchain cur, lookup s.heap cur with
    | some next, some o =>
      (sweep_visit dfuel s cur o).bind fun p =>
        (sweep_loop dfuel fuel p.1 next).bind fun q => Res.ok (q.1, p.2 :: q.2)
    | _, _ => Res.segv

/-- Function `static void sweep(void)`, with the list of visits. -/
def sweep_trace (fuel : Nat) (s : State) : Res (State × List SweepEvent) :=
  sweep_loop fuel fuel s s.refchain.head?

/-- Function `static void sweep(void)`. -/
def sweep (fuel : Nat) (s : State) : Res State :=
  (sweep_trace fuel s).bind fun p => Res.ok p.1

/-- Function `static void run(void)`: `mark_all(); sweep();`. -/
def run (fuel : Nat) (s : State) : Res State :=
  (mark_all fuel s).bind fun s1 => sweep fuel s1


/-! ## Specification vocabulary for the marker -/

/-- The outgoing references of an object as the marker follows them: the
non-null fields of `code_traverse` for a code object, nothing for an object
that is not GC-eligible or whose type has no traversal callback, and the
referents visited by the type's traversal callback otherwise. -/
def out_refs (o : PyObject) : List Addr :=
  if o.is_code then (code_fields o.code).filterMap id
  else if !o.is_gc then []
  else
    match o.tp_traverse with
    | none => []
    | some t => t.visits

/-- There is an outgoing reference from the object at `a` to address `b`. -/
def edge (h : Heap) (a b : Addr) : Prop := ∃ o, lookup h a = some o ∧ b ∈ out_refs o

/-- A path of outgoing references leads from `a` to `b` (possibly of length zero). -/
def Reach (h : Heap) (a b : Addr) : Prop := Relation.ReflTransGen (edge h) a b

/-- The object at `a` exists and has its `MARKED` bit set. -/
def marked (h : Heap) (a : Addr) : Bool :=
  match lookup h a with
  | some o => PyMarkSweep_IsMarked o
  | none => false

/-- Every allocated object of the heap passes the check `p`. -/
def all_objects (p : PyObject → Bool) (h : Heap) : Bool :=
  h.all fun slot =>
    match slot with
    | some o => p o
    | none => true

/-- No object of the heap has its mark flag set. -/
def no_flags_set (h : Heap) : Bool :=
  all_objects (fun o => !PyMarkSweep_IsMarked o) h

/-- The traversal callback the marker would run on `o` (if any) does not
report failure. -/
def traverse_succeeds (o : PyObject) : Bool :=
  o.is_code || !o.is_gc ||
    match o.tp_traverse with
    | none => true
    | some t => t.result == 0

/-- No traversal callback of the heap reports failure. -/
def no_traverse_failure (h : Heap) : Bool :=
  all_objects traverse_succeeds h

/-- Every outgoing reference of every object points to an allocated object. -/
def refs_valid (h : Heap) : Bool :=
  all_objects (fun o => (out_refs o).all fun r => (lookup h r).isSome) h

/-- The roots one thread contributes, in the order `mark_all` marks them. -/
def thread_roots (tstate : PyThreadState) : List (Option Addr) :=
  thread_fields tstate ++ [tstate.frame]

/-- The roots one interpreter contributes, in the order `mark_all` marks them. -/
def interpreter_roots (have_fork : Bool) (interp : PyInterpreterState) : List (Option Addr) :=
  interpreter_fields have_fork interp ++ (interp.tstate_head.map thread_roots).flatten

/-- Every pointer `mark_all` passes to `Py_MARK`, in order: interpreter
fields, thread fields and innermost frames, then the pool entries. -/
def root_slots (rt : Runtime) : List (Option Addr) :=
  (rt.interpreters.map (interpreter_roots rt.have_fork)).flatten ++
    (rt.tuple_pool ++ (rt.list_pool ++ (rt.set_pool ++ (rt.bytes_pool ++
      (rt.long_pool ++ rt.float_pool)))))

/-- The root set: the non-null root pointers. -/
def roots (rt : Runtime) : List Addr := (root_slots rt).filterMap id

/-- Every root points to an allocated object. -/
def roots_valid (h : Heap) (rt : Runtime) : Bool :=
  (roots rt).all fun r => (lookup h r).isSome

/-- Number of allocated objects passing the check `p`. -/
def count_objects (p : PyObject → Bool) (h : Heap) : Nat :=
  h.countP fun slot =>
    match slot with
    | some o => p o
    | none => false

/-- Number of allocated objects whose mark flag is clear. -/
def unmarked_count (h : Heap) : Nat :=
  count_objects (fun o => !PyMarkSweep_IsMarked o) h

/-- Number of allocated objects whose reference count is positive. -/
def positive_count (h : Heap) : Nat :=
  count_objects (fun o => decide (0 < o.ob_refcnt)) h

/-- The heap `h'` differs from `h` at most by `MARKED` bits that were set:
same addresses, and every object is either untouched or has had
`PyMarkSweep_SetFlag(ob, Py_MSFLAGS_MARKED)` applied. -/
def FlagStep (h h' : Heap) : Prop :=
  h'.length = h.length ∧
    ∀ a, (lookup h a = none → lookup h' a = none) ∧
      ∀ o, lookup h a = some o →
        lookup h' a = some o ∨ lookup h' a = some (PyMarkSweep_SetFlag o Py_MSFLAGS_MARKED)

/-- Every object marked in `h'` was already marked in `h` or has all its
outgoing references marked in `h'`. -/
def ClosedNew (h h' : Heap) : Prop :=
  ∀ x o, lookup h' x = some o → PyMarkSweep_IsMarked o = true →
    marked h x = true ∨ ∀ c ∈ out_refs o, marked h' c = true

/-- What every call of a marking visitor guarantees: only `MARKED` bits are
set, the visited object ends up marked, every newly marked object is reachable
from the visited one, and, when no callback fails, the result is zero and
every newly marked object has all its outgoing references marked. -/
def VisitSpec (visit : Visit) : Prop :=
  ∀ h a h' r, visit h a = Res.ok (h', r) →
    FlagStep h h' ∧ marked h' a = true ∧
      (∀ x, marked h' x = true → marked h x = true ∨ Reach h a x) ∧
      (no_traverse_failure h = true → r = 0 ∧ ClosedNew h h')

/-- The visitor returns on every heap with valid references, an allocated
target and fewer than `n` unmarked objects. -/
def VisitTotal (visit : Visit) (n : Nat) : Prop :=
  ∀ h a, refs_valid h = true → (lookup h a).isSome = true → unmarked_count h < n →
    ∃ h' r, visit h a = Res.ok (h', r)

/-- Every marked object has all its outgoing references marked. -/
def marks_closed (h : Heap) : Bool :=
  all_objects (fun o => !PyMarkSweep_IsMarked o || (out_refs o).all (marked h)) h

/-- A `PyCodeObject` part with every field `NULL` (for objects that are not code). -/
def no_code : PyCodeObject := ⟨none, none, none, none, none, none, none, none, none, none⟩

/-- A GC-eligible container whose traversal callback visits `refs` and succeeds;
it owns the references it visits. -/
def container (refcnt : Int) (flags : Nat) (refs : List Addr) : PyObject :=
  ⟨refcnt, flags, false, true, some ⟨refs, 0⟩, no_code, refs⟩

/-- An interpreter whose only non-null field is `modules`. -/
def interp_with_modules (m : Option Addr) : PyInterpreterState :=
  ⟨none, none, none, none, m, none, none, none, none, none, none, none, none, none, none, []⟩

/-- A runtime with the given interpreters and empty pools. -/
def runtime_of (is : List PyInterpreterState) : Runtime := ⟨true, is, [], [], [], [], [], []⟩

/-- The synthetic graph of the reachability test: root `R` (address 0), chain
`R → A → B` (addresses 1, 2), and the unreachable cycle `C ↔ D` (addresses 3, 4),
each of `C` and `D` with reference count 1, held only by the other. -/
def chain_and_cycle : State :=
  { heap := [some (container 1 0 [1]), some (container 1 0 [2]), some (container 1 0 []),
             some (container 1 0 [4]), some (container 1 0 [3])]
    refchain := [0, 1, 2, 3, 4]
    runtime := runtime_of [interp_with_modules (some 0)] }

/-- A GC-eligible object whose traversal callback visits nothing and reports
failure (returns 1). -/
def failing_container (refcnt : Int) : PyObject :=
  ⟨refcnt, 0, false, true, some ⟨[], 1⟩, no_code, []⟩

/-- A code object whose only non-null field is `co_consts`. -/
def code_object (refcnt : Int) (consts : Option Addr) : PyObject :=
  ⟨refcnt, 0, true, false, none,
    ⟨none, consts, none, none, none, none, none, none, none, none⟩, consts.toList⟩

/-- A heap with a residual flag: the object at 0 is already marked, its
referent at 1 is not. -/
def residual_flag_heap : Heap := [some (container 1 1 [1]), some (container 1 0 [])]

/-- A heap with all flags clear in which a callback fails: the code object at 0
holds the container at 1, whose callback visits 2 (whose own callback fails)
and then 3. -/
def failing_callback_heap : Heap :=
  [some (code_object 1 (some 1)), some (container 1 0 [2, 3]), some (failing_container 1),
   some (container 1 0 [])]

/-- A registry whose members carry flag bits: members 1 and 0 (in this order),
and an object at 2 outside the registry. -/
def flagged_registry : State :=
  { heap := [some (container 1 1 []), some (container 2 3 [0]), some (container 1 1 [])]
    refchain := [1, 0]
    runtime := runtime_of [] }

/-! ## Specification vocabulary for deallocation and the sweeper -/

/-- The set `T` of addresses is closed under held references: every reference
held by an object of `T` points into `T`. -/
def HeldClosed (T : Addr → Prop) (h : Heap) : Prop :=
  ∀ x o, T x → lookup h x = some o → ∀ r ∈ o.held, T r

/-- The state `s'` results from `s` by reference-count deallocations confined
to the addresses of `T`: the registry lost some members, all of `T` and all
freed; objects outside `T` are untouched; an object of `T` was freed or lost
reference counts, its other fields (flags included) unchanged. -/
def DStep (T : Addr → Prop) (s s' : State) : Prop :=
  s'.runtime = s.runtime ∧ s'.heap.length = s.heap.length ∧
  (∃ q : Addr → Bool, s'.refchain = s.refchain.filter q) ∧
  (∀ x ∈ s.refchain, x ∉ s'.refchain → T x ∧ lookup s'.heap x = none) ∧
  ∀ a, (¬ T a → lookup s'.heap a = lookup s.heap a) ∧
    (lookup s.heap a = none → lookup s'.heap a = none) ∧
    ∀ o, lookup s.heap a = some o →
      lookup s'.heap a = none ∨
        ∃ rc, rc ≤ o.ob_refcnt ∧ lookup s'.heap a = some { o with ob_refcnt := rc }

/-- A completed run of the sweep loop: `SweepRun dfuel s pre todo s' log` says
that from state `s`, whose registry is `pre ++ todo` with the cursor on the
head of `todo`, the loop visits the nodes recorded in `log` and ends in `s'`.
After each visit the registry is the previous one filtered by some `q` that
keeps the captured successor. -/
inductive SweepRun (dfuel : Nat) :
    State → List Addr → List Addr → State → List SweepEvent → Prop where
  | done {s : State} {pre : List Addr} (hreg : s.refchain = pre) :
      SweepRun dfuel s pre [] s []
  | visit {s s1 s' : State} {pre rest : List Addr} {cur : Addr} {o : PyObject}
      {e : SweepEvent} {log : List SweepEvent} (q : Addr → Bool)
      (hreg : s.refchain = pre ++ cur :: rest)
      (hnd : s.refchain.Nodup)
      (ho : lookup s.heap cur = some o)
      (hvisit : sweep_visit dfuel s cur o = Res.ok (s1, e))
      (hq : s1.refchain = s.refchain.filter q)
      (hnext : ∀ n, rest.head? = some n → q n = true)
      (hrest : SweepRun dfuel s1 ((pre ++ [cur]).filter q) (rest.filter q) s' log) :
      SweepRun dfuel s pre (cur :: rest) s' (e :: log)

/-- Every allocated object passes the address-aware check `p`. -/
def all_indexed (p : Addr → PyObject → Bool) (h : Heap) : Bool :=
  (List.range h.length).all fun a =>
    match lookup h a with
    | some o => p a o
    | none => true

/-- The set `T` is closed under held references (executable form of `HeldClosed`). -/
def held_closed (T : Addr → Bool) (h : Heap) : Bool :=
  all_indexed (fun a o => !T a || o.held.all T) h

/-- Every object whose reference count is zero belongs to `T`. -/
def zero_refcnt_within (T : Addr → Bool) (h : Heap) : Bool :=
  all_indexed (fun a o => T a || o.ob_refcnt != 0) h

/-- An object that is not GC-eligible, with the given reference count, flag
word and held references. -/
def plain_object (refcnt : Int) (flags : Nat) (held : List Addr) : PyObject :=
  ⟨refcnt, flags, false, false, none, no_code, held⟩

/-- A state with the given heap and registry and no roots. -/
def rootless (heap : Heap) (refchain : List Addr) : State :=
  ⟨heap, refchain, runtime_of []⟩

/-- Registry `[X, Z]`: `X` (address 0) is unmarked with reference count 1, held
by the unmarked `Z` (address 1) whose reference count is 0. -/
def late_release : State :=
  rootless [some (plain_object 1 0 []), some (plain_object 0 0 [0])] [0, 1]

/-- Registry `[X, Y]`: `X` (address 0) is unmarked with reference count 0 and
holds the only reference to its successor `Y` (address 1, reference count 1). -/
def successor_freed : State :=
  rootless [some (plain_object 0 0 [1]), some (plain_object 1 0 [])] [0, 1]

/-- Registry `[X]`: `X` is not GC-eligible, unmarked, with reference count 0. -/
def ineligible_garbage : State :=
  rootless [some (plain_object 0 0 [])] [0]

/-- Registry `[M, Z]`: `M` (address 0) is marked with reference count 2; the
unmarked `Z` (address 1), reference count 0, holds one of the references to `M`. -/
def marked_then_released : State :=
  rootless [some (plain_object 2 1 []), some (plain_object 0 0 [0])] [0, 1]

/-- Registry `[S, G]`: `S` (address 0) has reference count 1 and the given flag
word; the garbage `G` (address 1) is unmarked with reference count 0 and holds
nothing. -/
def survivor_and_garbage (flags : Nat) : State :=
  rootless [some (plain_object 1 flags []), some (plain_object 0 0 [])] [0, 1]

/-! ## Specification vocabulary for reference counts -/

/-- The references held by the object at `y` (none when nothing is allocated there). -/
def held_of (h : Heap) (y : Addr) : List Addr :=
  match lookup h y with
  | some o => o.held
  | none => []

/-- The reference count stored at `x`, when an object is allocated there. -/
def rc_of (h : Heap) (x : Addr) : Option Int := (lookup h x).map PyObject.ob_refcnt

/-- Number of references to `x` held by registry members. -/
def holders (s : State) (x : Addr) : Nat :=
  (s.refchain.map fun y => (held_of s.heap y).count x).sum

/-- Number of references held to `x`: by registry members, by roots, and in
the list `pend` of references a running deallocation has yet to release. -/
def incoming (s : State) (pend : List Addr) (x : Addr) : Nat :=
  holders s x + (roots s.runtime).count x + pend.count x

/-- Every object's reference count is at least the number of references held
to it by roots and by registry members. -/
def refcounts_cover (s : State) : Bool :=
  all_indexed (fun x o => decide ((incoming s [] x : Int) ≤ o.ob_refcnt)) s.heap

/-- Every allocated object is a registry member. -/
def all_registered (s : State) : Bool :=
  all_indexed (fun x _ => s.refchain.contains x) s.heap

/-- The reference-count invariant of a cycle started in `s0`, with `pend` the
references still to be released by running deallocations: reference counts
cover the references held, an allocated object outside the registry has a count
of at most zero, and nothing holds a reference to an object freed since `s0`. -/
def RCInv (s0 s : State) (pend : List Addr) : Prop :=
  s.refchain.Nodup ∧ s.runtime = s0.runtime ∧
  (∀ x rc, rc_of s.heap x = some rc → (incoming s pend x : Int) ≤ rc) ∧
  (∀ x rc, rc_of s.heap x = some rc → x ∉ s.refchain → rc ≤ 0) ∧
  (∀ x, (lookup s0.heap x).isSome = true → rc_of s.heap x = none → incoming s pend x = 0)

/-- A consistent heap with garbage: the root `R` (address 0), `X` (address 1,
reference count 1) and the garbage `G` (address 2, reference count 0) that
holds the only reference to `X`; registry order `R, X, G`. -/
def garbage_chain : State :=
  { heap := [some (plain_object 1 0 []), some (plain_object 1 0 []), some (plain_object 0 0 [1])]
    refchain := [0, 1, 2]
    runtime := runtime_of [interp_with_modules (some 0)] }

/-- Every registry member is an allocated object that is unmarked and has a
nonzero reference count. -/
def members_unmarked_referenced (s : State) : Bool :=
  s.refchain.all fun x =>
    match lookup s.heap x with
    | some o => !PyMarkSweep_IsMarked o && o.ob_refcnt != 0
    | none => false

/-- A consistent registry without marks: three members with reference counts
1, 2 and 1, flags clear, the second holding the first. -/
def consistent_unmarked : State :=
  rootless [some (plain_object 1 0 []), some (plain_object 2 0 [0]), some (container 1 0 [1])]
    [2, 0, 1]

/-- Function `PyObject *Marksweep_mark(PyObject *module, PyObject *ob)`:
`mark_object(ob, NULL)` on the collector's state, its result discarded. -/
def Marksweep_mark (fuel : Nat) (s : State) (ob : Addr) : Res State :=
  (mark_object fuel s.heap ob).bind fun p => Res.ok { s with heap := p.1 }

/-- A diamond closed into a cycle, with residual flag bits: `R` (address 0)
visits `A` and `B` (1, 2), both visit `C` (3), `C` visits `R`; `B` carries the
residual flag word 2 and the unreachable object at 4 is already marked. -/
def diamond_cycle : State :=
  { heap := [some (container 1 0 [1, 2]), some (container 1 0 [3]), some (container 1 2 [3]),
             some (container 2 0 [0]), some (container 1 1 [])]
    refchain := [4, 3, 2, 1, 0]
    runtime := runtime_of [interp_with_modules (some 0)] }

/-- A thread whose only non-null fields are `curexc_value` and `frame`. -/
def thread_with (exc frame : Option Addr) : PyThreadState :=
  ⟨none, none, none, exc, none, none, none, none, none, none, none, none, none, frame⟩

/-- A runtime state with residual flags: one interpreter holding `modules = 0`
and one thread with `curexc_value = 1` and innermost frame 2 (which visits the
parent frame 3); the long pool holds 4 and a null slot; 5 is unreachable. The
objects at 1 and 5 carry residual flag words. -/
def rooted_runtime : State :=
  { heap := [some (container 1 0 []), some (plain_object 1 2 []), some (container 1 0 [3]),
             some (container 1 0 []), some (plain_object 1 0 []), some (plain_object 1 1 [])]
    refchain := [0, 1, 2, 3, 4, 5]
    runtime :=
      { have_fork := true
        interpreters :=
          [⟨none, none, none, none, some 0, none, none, none, none, none, none, none,
            none, none, none, [thread_with (some 1) (some 2)]⟩]
        tuple_pool := []
        list_pool := []
        set_pool := []
        bytes_pool := []
        long_pool := [some 4, none]
        float_pool := [] } }

/-! ## Diagnostics: `dry_run`, `Marksweep__sancheck`, `Marksweep__unsafe_sanitize` -/

/-- The value of a C `int` expression: the mathematical result `n` reduced to
32-bit two's complement. -/
def int_wrap (n : Int) : Int := (n + 2147483648) % 4294967296 - 2147483648

/-- The three `int` counters of `dry_run` (`referenced` is the C variable
`unsafe`, a reserved word here). -/
structure DryRunReport where
  total : Int
  marked : Int
  referenced : Int
  deriving DecidableEq, Repr

/-- The `for` loop of `dry_run` over the registry members from `cur` on, with
the counters so far. -/
def dry_run_loop (h : Heap) : List Addr → DryRunReport → Res DryRunReport
  | [], rep => Res.ok rep
  | cur :: rest, rep =>
    match lookup h cur with
    | none => Res.segv
    | some o =>
      if PyMarkSweep_IsMarked o then
        dry_run_loop h rest
          { rep with total := int_wrap (rep.total + 1), marked := int_wrap (rep.marked + 1) }
      else if o.ob_refcnt ≠ 0 then
        dry_run_loop h rest
          { rep with total := int_wrap (rep.total + 1),
                     referenced := int_wrap (rep.referenced + 1) }
      else
        dry_run_loop h rest { rep with total := int_wrap (rep.total + 1) }

/-- Function `static void dry_run(void)`: `mark_all()`, then the counting loop;
the result is the state and the three counters. -/
def dry_run (fuel : Nat) (s : State) : Res (State × DryRunReport) :=
  (mark_all fuel s).bind fun s1 =>
    (dry_run_loop s1.heap s1.refchain ⟨0, 0, 0⟩).bind fun rep => Res.ok (s1, rep)

/-- The four integers printed by `dry_run`:
`printf("marked %d/%d (unsafe %d/%d)\n", marked, total, unsafe, total-marked)`. -/
def dry_run_printed (rep : DryRunReport) : List Int :=
  [rep.marked, rep.total, rep.referenced, int_wrap (rep.total - rep.marked)]

/-- The loop of `Marksweep__sancheck`: the members whose flag word is nonzero,
with that word, in the order printed. -/
def sancheck_loop (h : Heap) : List Addr → Res (List (Addr × Nat))
  | [] => Res.ok []
  | cur :: rest =>
    match lookup h cur with
    | none => Res.segv
    | some o =>
      (sancheck_loop h rest).bind fun out =>
        Res.ok (if o.ob_msflags ≠ 0 then (cur, o.ob_msflags) :: out else out)

/-- Function `PyObject *Marksweep__sancheck(PyObject *module, PyObject *args)`:
it only reads the registry and prints. -/
def Marksweep__sancheck (s : State) : Res (List (Addr × Nat)) :=
  sancheck_loop s.heap s.refchain

/-- The `while` loop of `Marksweep__unsafe_sanitize`: `next = cur->_ob_next` is
read first; a node with a nonzero flag word is unlinked with
`_Py_ForgetReference` and counted in the `int removed`. -/
def sanitize_loop : Nat → State → Option Addr → Int → Res (State × Int)
  | _, s, none, removed => Res.ok (s, removed)
  | 0, _, some _, _ => Res.timeout
  | fuel + 1, s, some cur, removed =>
    match ob_next s.refchain cur, lookup s.heap cur with
    | some next, some o =>
      if o.ob_msflags ≠ 0 then
        sanitize_loop fuel (_Py_ForgetReference s cur) next (int_wrap (removed + 1))
      else sanitize_loop fuel s next removed
    | _, _ => Res.segv

/-- Function `PyObject *Marksweep__unsafe_sanitize(PyObject *module, PyObject *args)`:
the state afterwards and the count it prints. -/
def Marksweep__unsafe_sanitize (fuel : Nat) (s : State) : Res (State × Int) :=
  sanitize_loop fuel s s.refchain.head? 0

/-- Every registry member is an allocated object. -/
def members_allocated (s : State) : Bool :=
  s.refchain.all fun x => (lookup s.heap x).isSome

/-- Number of entries of `l` that are objects of `h` passing the check `p`. -/
def count_members (p : PyObject → Bool) (h : Heap) (l : List Addr) : Nat :=
  l.countP fun x =>
    match lookup h x with
    | some o => p o
    | none => false

/-- The object at `x` exists and its flag word is zero. -/
def flag_word_zero (h : Heap) (x : Addr) : Bool :=
  match lookup h x with
  | some o => o.ob_msflags == 0
  | none => false

/-- The flags of the reachability graph after a first marking plus a node that
is garbage by count: `R → A → B` reachable, `C ↔ D` unreachable, and `E`
(address 5) unmarked with reference count 0. -/
def graph_with_garbage : State :=
  { heap := [some (container 1 0 [1]), some (container 1 0 [2]), some (container 1 0 []),
             some (container 1 0 [4]), some (container 1 0 [3]), some (plain_object 0 0 [])]
    refchain := [0, 1, 2, 3, 4, 5]
    runtime := runtime_of [interp_with_modules (some 0)] }

/-- The state `graph_with_garbage` after `mark_all()`: `R`, `A`, `B` marked. -/
def graph_with_garbage_marked : State :=
  { graph_with_garbage with
    heap := [some (container 1 1 [1]), some (container 1 1 [2]), some (container 1 1 []),
             some (container 1 0 [4]), some (container 1 0 [3]), some (plain_object 0 0 [])] }

/-- Some object reachable from `a` (`a` itself included) has a traversal
callback that reports failure. -/
def Faulty (h : Heap) (a : Addr) : Prop :=
  ∃ y o, Reach h a y ∧ lookup h y = some o ∧ traverse_succeeds o = false

/-- Every object marked in `h'` was already marked in `h`, or reaches a failing
callback, or has all its outgoing references marked in `h'`. -/
def ClosedGood (h h' : Heap) : Prop :=
  ∀ x o, lookup h' x = some o → PyMarkSweep_IsMarked o = true →
    marked h x = true ∨ Faulty h x ∨ ∀ c ∈ out_refs o, marked h' c = true

/-- What a call of a marking visitor guarantees in the presence of failing
callbacks: the result is zero when no failing callback is reachable from the
visited object, and every newly marked object that reaches no failing callback
has all its outgoing references marked. -/
def VisitSpecGood (visit : Visit) : Prop :=
  ∀ h a h' r, visit h a = Res.ok (h', r) → (¬Faulty h a → r = 0) ∧ ClosedGood h h'

/-- A fault below a root: the root at 0 is a container visiting 1 (whose
callback fails) and then 2; the root at 3 is a container visiting 4. -/
def fault_under_root : State :=
  { heap := [some (container 1 0 [1, 2]), some (failing_container 1), some (container 1 0 []),
             some (container 1 0 [4]), some (container 1 0 [])]
    refchain := [0, 1, 2, 3, 4]
    runtime := runtime_of [interp_with_modules (some 0), interp_with_modules (some 3)] }

/-! ## The marker instrumented with a trace of the traversals it starts -/

/-- Which traversal of an object's outgoing references `mark_object` starts:
`code_traverse((PyCodeObject *)ob)` or `traverse(ob, (visitproc)mark_object, NULL)`. -/
inductive TraverseKind where
  | code_traverse
  | tp_traverse
  deriving DecidableEq, Repr

/-- Trace event: `mark_object(ob)` started the traversal `kind` of `ob`. -/
structure MarkEvent where
  ob : Addr
  kind : TraverseKind
  deriving DecidableEq, Repr

/-- A visitor that also reports the traversals started during the call, in order. -/
abbrev TracedVisit := Heap → Addr → Res ((Heap × Int) × List MarkEvent)

/-- Macro `Py_MARK(ob)` with the trace of the call. -/
def Py_MARK_traced (visit : TracedVisit) (h : Heap) (ob : Option Addr) :
    Res (Heap × List MarkEvent) :=
  match ob with
  | none => Res.ok (h, [])
  | some a => (visit h a).bind fun p => Res.ok (p.1.1, p.2)

/-- A run of consecutive `Py_MARK(...)` statements with its trace. -/
def Py_MARK_seq_traced (visit : TracedVisit) :
    Heap → List (Option Addr) → Res (Heap × List MarkEvent)
  | h, [] => Res.ok (h, [])
  | h, ob :: rest =>
    (Py_MARK_traced visit h ob).bind fun p1 =>
      (Py_MARK_seq_traced visit p1.1 rest).bind fun p2 => Res.ok (p2.1, p1.2 ++ p2.2)

/-- Modelled from the spec: a `tp_traverse` callback run (see `tp_traverse_run`)
with its trace. -/
def tp_traverse_run_traced (visit : TracedVisit) (t : TraverseProc) :
    Heap → List Addr → Res ((Heap × Int) × List MarkEvent)
  | h, [] => Res.ok ((h, t.result), [])
  | h, a :: todo =>
    (visit h a).bind fun p =>
      if p.1.2 ≠ 0 then Res.ok ((p.1.1, p.1.2), p.2)
      else (tp_traverse_run_traced visit t p.1.1 todo).bind fun q => Res.ok (q.1, p.2 ++ q.2)

/-- Function `int mark_object(PyObject *ob, void *sarisia)` with its trace: an
event is recorded where the source calls `code_traverse` and where it calls
the type's `tp_traverse`. -/
def mark_object_traced : Nat → Heap → Addr → Res ((Heap × Int) × List MarkEvent)
  | 0, _, _ => Res.timeout
  | fuel + 1, h, ob =>
    match lookup h ob with
    | none => Res.segv
    | some o =>
      if PyMarkSweep_IsMarked o then Res.ok ((h, 0), [])
      else
        let h1 := store h ob (PyMarkSweep_SetFlag o Py_MSFLAGS_MARKED)
        if o.is_code then
          (Py_MARK_seq_traced (mark_object_traced fuel) h1 (code_fields o.code)).bind fun p =>
            Res.ok ((p.1, 0), ⟨ob, TraverseKind.code_traverse⟩ :: p.2)
        else if !o.is_gc then Res.ok ((h1, 0), [])
        else
          match o.tp_traverse with
          | none => Res.ok ((h1, 0), [])
          | some t =>
            (tp_traverse_run_traced (mark_object_traced fuel) t h1 t.visits).bind fun p =>
              if p.1.2 ≠ 0 then Res.ok ((p.1.1, 1), ⟨ob, TraverseKind.tp_traverse⟩ :: p.2)
              else Res.ok ((p.1.1, 0), ⟨ob, TraverseKind.tp_traverse⟩ :: p.2)

/-- Function `static void mark_all(void)` with its trace. The statements of
`mark_all` are `Py_MARK` on each entry of `root_slots`, in that order (the
loops and pool hooks are unfolded by `mark_all_heap_eq`), so the traced run is
the traced sequence over `root_slots`. -/
def mark_all_traced (fuel : Nat) (s : State) : Res (State × List MarkEvent) :=
  (Py_MARK_seq_traced (mark_object_traced fuel) s.heap (root_slots s.runtime)).bind fun p =>
    Res.ok ({ s with heap := p.1 }, p.2)

/-- Forgetting the trace of `vt` gives the visitor `v`. -/
def Erases (vt : TracedVisit) (v : Visit) : Prop :=
  ∀ h a, (vt h a).bind (fun p => Res.ok p.1) = v h a

/-- Every traversal recorded by a call is that of an object unmarked before the
call and marked after it, and no object is recorded twice. -/
def TraceSpec (visit : TracedVisit) : Prop :=
  ∀ h a h' r log, visit h a = Res.ok ((h', r), log) →
    (log.map MarkEvent.ob).Nodup ∧
      ∀ e ∈ log, marked h e.ob = false ∧ marked h' e.ob = true

/-- An unmarked object of the code type that is also GC-eligible with a
traversal callback: it holds 1 in `co_consts`, and its callback would visit 2. -/
def gc_code_object : PyObject :=
  ⟨1, 0, true, true, some ⟨[2], 0⟩,
    ⟨none, some 1, none, none, none, none, none, none, none, none⟩, [1]⟩

/-- A heap with `gc_code_object` at 0 and two empty containers at 1 and 2. -/
def gc_code_heap : Heap :=
  [some gc_code_object, some (container 1 0 []), some (container 1 0 [])]

/-! ## Heap access lemmas -/

theorem lookup_lt {h : Heap} {a : Addr} {o : PyObject} (hl : lookup h a = some o) :
    a < h.length := by
  unfold lookup at hl
  by_contra hc
  rw [List.getElem?_eq_none (not_lt.mp hc)] at hl
  simp at hl

theorem lookup_eq_some {h : Heap} {a : Addr} {o : PyObject} :
    lookup h a = some o ↔ h[a]? = some (some o) := by
  unfold lookup
  split
  · next o1 heq => simp [heq]
  · next hne =>
    constructor
    · intro hh; simp at hh
    · intro hh; exact absurd hh (hne o)

theorem lookup_eq_none {h : Heap} {a : Addr} :
    lookup h a = none ↔ ∀ o, h[a]? ≠ some (some o) := by
  constructor
  · intro hn o ho
    rw [lookup_eq_some.mpr ho] at hn
    simp at hn
  · intro hh
    cases hl : lookup h a with
    | none => rfl
    | some o => exact absurd (lookup_eq_some.mp hl) (hh o)

theorem lookup_mem {h : Heap} {a : Addr} {o : PyObject} (hl : lookup h a = some o) :
    some o ∈ h :=
  List.getElem?_mem (lookup_eq_some.mp hl)

theorem lookup_set_ne (h : Heap) {a b : Addr} (v : Option PyObject) (hne : a ≠ b) :
    lookup (h.set a v) b = lookup h b := by
  unfold lookup
  rw [List.getElem?_set_ne hne]

theorem lookup_store_ne (h : Heap) {a b : Addr} (o : PyObject) (hne : a ≠ b) :
    lookup (store h a o) b = lookup h b :=
  lookup_set_ne h _ hne

theorem lookup_store_eq {h : Heap} {a : Addr} (o : PyObject) (hlt : a < h.length) :
    lookup (store h a o) a = some o := by
  unfold lookup store
  rw [List.getElem?_set_self hlt]

theorem lookup_free_ne (h : Heap) {a b : Addr} (hne : a ≠ b) :
    lookup (free h a) b = lookup h b :=
  lookup_set_ne h _ hne

theorem lookup_free_eq (h : Heap) (a : Addr) : lookup (free h a) a = none := by
  rw [lookup_eq_none]
  intro o ho
  unfold free at ho
  by_cases hlt : a < h.length
  · rw [List.getElem?_set_self hlt] at ho
    simp at ho
  · rw [List.getElem?_eq_none (by simpa using hlt)] at ho
    simp at ho

theorem length_store (h : Heap) (a : Addr) (o : PyObject) : (store h a o).length = h.length := by
  simp [store]

theorem length_free (h : Heap) (a : Addr) : (free h a).length = h.length := by
  simp [free]

theorem clearFlag_flags (o : PyObject) : (PyMarkSweep_ClearFlag o).ob_msflags = 0 := by
  simp [PyMarkSweep_ClearFlag]

theorem clearFlag_eq (o : PyObject) : PyMarkSweep_ClearFlag o = { o with ob_msflags := 0 } := by
  simp [PyMarkSweep_ClearFlag]

theorem clearFlag_idem (o : PyObject) :
    PyMarkSweep_ClearFlag (PyMarkSweep_ClearFlag o) = PyMarkSweep_ClearFlag o := by
  simp [PyMarkSweep_ClearFlag]

/-! ## `reset_all_refchain` -/

/-- The reset loop succeeds when every node it walks is allocated, and clears
exactly the flag words of those nodes. -/
theorem reset_loop_spec (l : List Addr) :
    ∀ h : Heap, (∀ a ∈ l, (lookup h a).isSome = true) →
      ∃ h', reset_loop h l = Res.ok h' ∧
        ∀ a, lookup h' a =
          if a ∈ l then (lookup h a).map PyMarkSweep_ClearFlag else lookup h a := by
  induction l with
  | nil => intro h _; exact ⟨h, rfl, by simp⟩
  | cons c rest ih =>
    intro h hall
    have hc := hall c (List.mem_cons_self _ _)
    obtain ⟨o, ho⟩ := Option.isSome_iff_exists.mp hc
    have hlt := lookup_lt ho
    have hall1 : ∀ a ∈ rest,
        (lookup (store h c (PyMarkSweep_ClearFlag o)) a).isSome = true := by
      intro a ha
      by_cases hac : c = a
      · subst hac; rw [lookup_store_eq _ hlt]; rfl
      · rw [lookup_store_ne _ _ hac]; exact hall a (List.mem_cons_of_mem _ ha)
    obtain ⟨h', hrun, hspec⟩ := ih _ hall1
    refine ⟨h', ?_, ?_⟩
    · simp only [reset_loop, ho]; exact hrun
    · intro a
      rw [hspec a]
      by_cases hac : c = a
      · subst hac
        rw [lookup_store_eq _ hlt, ho]
        by_cases hr : c ∈ rest
        · simp [hr, clearFlag_idem]
        · simp [hr]
      · rw [lookup_store_ne _ _ hac]
        have : (a ∈ c :: rest) ↔ a ∈ rest := by
          simp [List.mem_cons, Ne.symm hac]
        simp only [this]

/-- C10: `reset_all_refchain` succeeds on every state whose registry members
are allocated objects; afterwards every registry member has all flag bits zero
and is otherwise (reference count included) the object it was, objects outside
the registry are untouched, and the registry (membership and order) and the
runtime are unchanged. -/
theorem reset_all_clears_every_member (s : State)
    (hreg : ∀ a ∈ s.refchain, (lookup s.heap a).isSome = true) :
    ∃ s', reset_all_refchain s = Res.ok s' ∧
      s'.refchain = s.refchain ∧ s'.runtime = s.runtime ∧
      (∀ a ∈ s.refchain, ∃ o, lookup s.heap a = some o ∧
        lookup s'.heap a = some { o with ob_msflags := 0 }) ∧
      (∀ a, a ∉ s.refchain → lookup s'.heap a = lookup s.heap a) := by
  obtain ⟨h', hrun, hspec⟩ := reset_loop_spec s.refchain s.heap hreg
  refine ⟨{ s with heap := h' }, ?_, rfl, rfl, ?_, ?_⟩
  · simp [reset_all_refchain, hrun, Res.bind]
  · intro a ha
    obtain ⟨o, ho⟩ := Option.isSome_iff_exists.mp (hreg a ha)
    refine ⟨o, ho, ?_⟩
    show lookup h' a = _
    rw [hspec a, if_pos ha, ho]
    simp [clearFlag_eq]
  · intro a ha
    show lookup h' a = _
    rw [hspec a, if_neg ha]

theorem lor_one_land_one (x : Nat) : (x ||| 1) &&& 1 = 1 := by
  rw [Nat.and_one_is_mod]
  exact Nat.or_mod_two_eq_one.mpr (Or.inr rfl)

theorem isMarked_setFlag (o : PyObject) :
    PyMarkSweep_IsMarked (PyMarkSweep_SetFlag o Py_MSFLAGS_MARKED) = true := by
  simp [PyMarkSweep_IsMarked, PyMarkSweep_HasFlag, PyMarkSweep_SetFlag, Py_MSFLAGS_MARKED,
    lor_one_land_one]

theorem isMarked_clearFlag (o : PyObject) :
    PyMarkSweep_IsMarked (PyMarkSweep_ClearFlag o) = false := by
  simp [PyMarkSweep_IsMarked, PyMarkSweep_HasFlag, PyMarkSweep_ClearFlag]

theorem setFlag_idem (o : PyObject) :
    PyMarkSweep_SetFlag (PyMarkSweep_SetFlag o Py_MSFLAGS_MARKED) Py_MSFLAGS_MARKED =
      PyMarkSweep_SetFlag o Py_MSFLAGS_MARKED := by
  simp [PyMarkSweep_SetFlag, Nat.or_assoc]

theorem out_refs_setFlag (o : PyObject) (f : Nat) :
    out_refs (PyMarkSweep_SetFlag o f) = out_refs o := rfl

theorem traverse_succeeds_setFlag (o : PyObject) (f : Nat) :
    traverse_succeeds (PyMarkSweep_SetFlag o f) = traverse_succeeds o := rfl

/-! ## Slot-wise checks read pointwise -/

theorem all_objects_iff (p : PyObject → Bool) (h : Heap) :
    all_objects p h = true ↔ ∀ a o, lookup h a = some o → p o = true := by
  unfold all_objects
  rw [List.all_eq_true]
  constructor
  · intro hall a o hl
    exact hall (some o) (lookup_mem hl)
  · intro hpt slot hmem
    cases slot with
    | none => rfl
    | some o =>
      obtain ⟨n, hn⟩ := List.mem_iff_getElem?.mp hmem
      exact hpt n o (lookup_eq_some.mpr hn)

theorem no_traverse_failure_iff (h : Heap) :
    no_traverse_failure h = true ↔ ∀ a o, lookup h a = some o → traverse_succeeds o = true :=
  all_objects_iff traverse_succeeds h

theorem no_flags_set_iff (h : Heap) :
    no_flags_set h = true ↔ ∀ a, marked h a = false := by
  unfold no_flags_set
  rw [all_objects_iff]
  constructor
  · intro hh a
    unfold marked
    cases hl : lookup h a with
    | none => rfl
    | some o => simpa using hh a o hl
  · intro hh a o hl
    have := hh a
    unfold marked at this
    rw [hl] at this
    simpa using this

theorem refs_valid_iff (h : Heap) :
    refs_valid h = true ↔
      ∀ a o, lookup h a = some o → ∀ r ∈ out_refs o, (lookup h r).isSome = true := by
  unfold refs_valid
  rw [all_objects_iff]
  simp only [List.all_eq_true]

/-! ## `FlagStep` -/

theorem FlagStep.flag_refl (h : Heap) : FlagStep h h :=
  ⟨rfl, fun _ => ⟨fun hn => hn, fun _ ho => Or.inl ho⟩⟩

theorem FlagStep.flag_trans {h1 h2 h3 : Heap} (h12 : FlagStep h1 h2) (h23 : FlagStep h2 h3) :
    FlagStep h1 h3 := by
  refine ⟨h23.1.trans h12.1, fun a => ⟨fun hn => (h23.2 a).1 ((h12.2 a).1 hn), ?_⟩⟩
  intro o ho
  rcases (h12.2 a).2 o ho with h2 | h2
  · exact (h23.2 a).2 o h2
  · rcases (h23.2 a).2 _ h2 with h3 | h3
    · exact Or.inr h3
    · rw [setFlag_idem] at h3; exact Or.inr h3

theorem FlagStep.store_setFlag {h : Heap} {a : Addr} {o : PyObject} (ho : lookup h a = some o) :
    FlagStep h (store h a (PyMarkSweep_SetFlag o Py_MSFLAGS_MARKED)) := by
  refine ⟨length_store _ _ _, fun b => ?_⟩
  by_cases hab : a = b
  · subst hab
    refine ⟨fun hn => ?_, fun o' ho' => ?_⟩
    · rw [ho] at hn; cases hn
    · rw [ho] at ho'; cases ho'
      exact Or.inr (lookup_store_eq _ (lookup_lt ho))
  · rw [lookup_store_ne _ _ hab]
    exact ⟨fun hn => hn, fun _ ho' => Or.inl ho'⟩

/-- Reading `h'` back: every object of `h'` comes from an object of `h` with the
same fields up to the `MARKED` bit. -/
theorem FlagStep.back {h h' : Heap} (hs : FlagStep h h') {a : Addr} {o' : PyObject}
    (ho' : lookup h' a = some o') :
    ∃ o, lookup h a = some o ∧
      (o' = o ∨ o' = PyMarkSweep_SetFlag o Py_MSFLAGS_MARKED) := by
  cases hl : lookup h a with
  | none => rw [(hs.2 a).1 hl] at ho'; cases ho'
  | some o =>
    refine ⟨o, rfl, ?_⟩
    rcases (hs.2 a).2 o hl with h1 | h1
    · rw [h1] at ho'; cases ho'; exact Or.inl rfl
    · rw [h1] at ho'; cases ho'; exact Or.inr rfl

theorem FlagStep.isSome {h h' : Heap} (hs : FlagStep h h') (a : Addr) :
    (lookup h' a).isSome = (lookup h a).isSome := by
  cases hl : lookup h a with
  | none => rw [(hs.2 a).1 hl]
  | some o => rcases (hs.2 a).2 o hl with h1 | h1 <;> simp [h1]

theorem FlagStep.marked_mono {h h' : Heap} (hs : FlagStep h h') {a : Addr}
    (hm : marked h a = true) : marked h' a = true := by
  unfold marked at hm ⊢
  cases hl : lookup h a with
  | none => rw [hl] at hm; cases hm
  | some o =>
    rw [hl] at hm
    rcases (hs.2 a).2 o hl with h1 | h1
    · rw [h1]; exact hm
    · rw [h1]; exact isMarked_setFlag o

theorem FlagStep.edge_iff {h h' : Heap} (hs : FlagStep h h') (a b : Addr) :
    edge h' a b ↔ edge h a b := by
  constructor
  · rintro ⟨o', ho', hb⟩
    obtain ⟨o, ho, heq⟩ := hs.back ho'
    refine ⟨o, ho, ?_⟩
    rcases heq with rfl | rfl
    · exact hb
    · exact hb
  · rintro ⟨o, ho, hb⟩
    rcases (hs.2 a).2 o ho with h1 | h1
    · exact ⟨o, h1, hb⟩
    · exact ⟨_, h1, hb⟩

theorem FlagStep.reach_iff {h h' : Heap} (hs : FlagStep h h') (a b : Addr) :
    Reach h' a b ↔ Reach h a b := by
  have heq : edge h' = edge h := by
    funext x y; exact propext (hs.edge_iff x y)
  unfold Reach; rw [heq]

theorem FlagStep.no_traverse_failure {h h' : Heap} (hs : FlagStep h h')
    (hf : no_traverse_failure h = true) : no_traverse_failure h' = true := by
  rw [no_traverse_failure_iff] at hf ⊢
  intro a o' ho'
  obtain ⟨o, ho, heq⟩ := hs.back ho'
  rcases heq with rfl | rfl
  · exact hf a _ ho
  · exact hf a o ho

theorem FlagStep.refs_valid {h h' : Heap} (hs : FlagStep h h')
    (hf : refs_valid h = true) : refs_valid h' = true := by
  rw [refs_valid_iff] at hf ⊢
  intro a o' ho' r hr
  obtain ⟨o, ho, heq⟩ := hs.back ho'
  rw [hs.isSome]
  rcases heq with rfl | rfl
  · exact hf a _ ho r hr
  · exact hf a o ho r hr

/-! ## Counting unmarked objects -/

theorem countP_le_of_pointwise {α : Type} (p : α → Bool) :
    ∀ (l' l : List α), l'.length = l.length →
      (∀ (i : Nat) x', l'[i]? = some x' → p x' = true → ∃ x, l[i]? = some x ∧ p x = true) →
      l'.countP p ≤ l.countP p := by
  intro l'
  induction l' with
  | nil => intro l _ _; simp
  | cons x' t' ih =>
    intro l hlen hpt
    cases l with
    | nil => simp at hlen
    | cons x t =>
      have hlen' : t'.length = t.length := by simpa using hlen
      have htail := ih t hlen' (fun i y hy hp => by
        have := hpt (i + 1) y (by simpa using hy) hp
        simpa using this)
      rw [List.countP_cons, List.countP_cons]
      by_cases hx' : p x' = true
      · obtain ⟨y, hy, hpy⟩ := hpt 0 x' (by simp) hx'
        simp at hy
        subst hy
        simp [hx', hpy, htail]
      · simp [hx']
        omega

theorem countP_set_lt {α : Type} (p : α → Bool) :
    ∀ (l : List α) (i : Nat) (x v : α), l[i]? = some x → p x = true → p v = false →
      (l.set i v).countP p < l.countP p := by
  intro l
  induction l with
  | nil => intro i x v hx; simp at hx
  | cons y t ih =>
    intro i x v hx hpx hpv
    cases i with
    | zero =>
      simp at hx
      subst hx
      simp [List.countP_cons, hpx, hpv]
    | succ j =>
      have hx' : t[j]? = some x := by simpa using hx
      have := ih j x v hx' hpx hpv
      simp only [List.set_cons_succ, List.countP_cons]
      omega

theorem count_objects_le_of_lookup (p : PyObject → Bool) {h h' : Heap}
    (hlen : h'.length = h.length)
    (hpt : ∀ a o', lookup h' a = some o' → p o' = true →
      ∃ o, lookup h a = some o ∧ p o = true) :
    count_objects p h' ≤ count_objects p h := by
  unfold count_objects
  apply countP_le_of_pointwise _ h' h hlen
  intro i x' hx' hp
  cases x' with
  | none => simp at hp
  | some o' =>
    obtain ⟨o, ho, hpo⟩ := hpt i o' (lookup_eq_some.mpr hx') hp
    exact ⟨some o, lookup_eq_some.mp ho, hpo⟩

theorem count_objects_store_lt (p : PyObject → Bool) {h : Heap} {a : Addr} {o v : PyObject}
    (ho : lookup h a = some o) (hp : p o = true) (hv : p v = false) :
    count_objects p (store h a v) < count_objects p h := by
  unfold count_objects store
  exact countP_set_lt _ h a (some o) (some v) (lookup_eq_some.mp ho) hp hv

theorem count_objects_le_length (p : PyObject → Bool) (h : Heap) :
    count_objects p h ≤ h.length :=
  List.countP_le_length _

theorem FlagStep.unmarked_count_le {h h' : Heap} (hs : FlagStep h h') :
    unmarked_count h' ≤ unmarked_count h := by
  apply count_objects_le_of_lookup _ hs.1
  intro a o' ho' hp
  obtain ⟨o, ho, heq⟩ := hs.back ho'
  refine ⟨o, ho, ?_⟩
  rcases heq with rfl | rfl
  · exact hp
  · simp [isMarked_setFlag] at hp

theorem unmarked_count_store_lt {h : Heap} {a : Addr} {o : PyObject}
    (ho : lookup h a = some o) (hm : PyMarkSweep_IsMarked o = false) :
    unmarked_count (store h a (PyMarkSweep_SetFlag o Py_MSFLAGS_MARKED)) < unmarked_count h :=
  count_objects_store_lt _ ho (by simp [hm]) (by simp [isMarked_setFlag])

theorem unmarked_count_le_length (h : Heap) : unmarked_count h ≤ h.length :=
  count_objects_le_length _ h

/-! ## The marker: what one visit guarantees -/

theorem Res.bind_eq_ok {α β : Type} {r : Res α} {f : α → Res β} {b : β}
    (hb : r.bind f = Res.ok b) : ∃ a, r = Res.ok a ∧ f a = Res.ok b := by
  cases r with
  | ok a => exact ⟨a, rfl, hb⟩
  | segv => simp [Res.bind] at hb
  | timeout => simp [Res.bind] at hb

theorem marked_iff {h : Heap} {a : Addr} :
    marked h a = true ↔ ∃ o, lookup h a = some o ∧ PyMarkSweep_IsMarked o = true := by
  unfold marked
  cases hl : lookup h a with
  | none => simp
  | some o => simp

theorem ClosedNew.closed_refl (h : Heap) : ClosedNew h h :=
  fun _ _ ho hm => Or.inl (marked_iff.mpr ⟨_, ho, hm⟩)

theorem ClosedNew.closed_trans {h h1 h2 : Heap} (c1 : ClosedNew h h1) (hs : FlagStep h1 h2)
    (c2 : ClosedNew h1 h2) : ClosedNew h h2 := by
  intro x o2 ho2 hm2
  rcases c2 x o2 ho2 hm2 with hm1 | hch
  · obtain ⟨o1, ho1, hmo1⟩ := marked_iff.mp hm1
    rcases c1 x o1 ho1 hmo1 with hm | hch1
    · exact Or.inl hm
    · right
      have hrefs : out_refs o2 = out_refs o1 := by
        rcases (hs.2 x).2 o1 ho1 with h' | h' <;>
          (rw [h'] at ho2; cases ho2; rfl)
      intro c hc
      rw [hrefs] at hc
      exact hs.marked_mono (hch1 c hc)
  · exact Or.inr hch

theorem Py_MARK_spec {visit : Visit} (hv : VisitSpec visit) {h h' : Heap} {ob : Option Addr}
    (hrun : Py_MARK visit h ob = Res.ok h') :
    FlagStep h h' ∧ (∀ a, ob = some a → marked h' a = true) ∧
      (∀ x, marked h' x = true → marked h x = true ∨ ∃ a, ob = some a ∧ Reach h a x) ∧
      (no_traverse_failure h = true → ClosedNew h h') := by
  cases ob with
  | none =>
    simp only [Py_MARK] at hrun
    cases hrun
    exact ⟨FlagStep.flag_refl h, fun a ha => (by cases ha), fun x hx => Or.inl hx,
      fun _ => ClosedNew.closed_refl h⟩
  | some a =>
    simp only [Py_MARK] at hrun
    obtain ⟨p, hp, hres⟩ := Res.bind_eq_ok hrun
    cases hres
    obtain ⟨hs, hm, hsound, hcl⟩ := hv h a p.1 p.2 hp
    refine ⟨hs, fun b hb => (by cases hb; exact hm), fun x hx => ?_, fun hf => (hcl hf).2⟩
    rcases hsound x hx with h1 | h1
    · exact Or.inl h1
    · exact Or.inr ⟨a, rfl, h1⟩

theorem Py_MARK_seq_spec {visit : Visit} (hv : VisitSpec visit) (l : List (Option Addr)) :
    ∀ {h h' : Heap}, Py_MARK_seq visit h l = Res.ok h' →
      FlagStep h h' ∧ (∀ a, some a ∈ l → marked h' a = true) ∧
        (∀ x, marked h' x = true → marked h x = true ∨ ∃ a, some a ∈ l ∧ Reach h a x) ∧
        (no_traverse_failure h = true → ClosedNew h h') := by
  induction l with
  | nil =>
    intro h h' hrun
    simp only [Py_MARK_seq] at hrun
    cases hrun
    exact ⟨FlagStep.flag_refl h, fun a ha => (by simp at ha), fun x hx => Or.inl hx,
      fun _ => ClosedNew.closed_refl h⟩
  | cons ob rest ih =>
    intro h h' hrun
    simp only [Py_MARK_seq] at hrun
    obtain ⟨h1, hfirst, hrest⟩ := Res.bind_eq_ok hrun
    obtain ⟨hs1, hm1, hsound1, hcl1⟩ := Py_MARK_spec hv hfirst
    obtain ⟨hs2, hm2, hsound2, hcl2⟩ := ih hrest
    refine ⟨hs1.flag_trans hs2, ?_, ?_, ?_⟩
    · intro a ha
      rcases List.mem_cons.mp ha with heq | hmem
      · exact hs2.marked_mono (hm1 a heq.symm)
      · exact hm2 a hmem
    · intro x hx
      rcases hsound2 x hx with hx1 | ⟨a, ha, hreach⟩
      · rcases hsound1 x hx1 with hx0 | ⟨a, ha, hreach⟩
        · exact Or.inl hx0
        · exact Or.inr ⟨a, by rw [ha]; exact List.mem_cons_self _ _, hreach⟩
      · exact Or.inr ⟨a, List.mem_cons_of_mem _ ha, (hs1.reach_iff a x).mp hreach⟩
    · intro hf
      exact (hcl1 hf).closed_trans hs2 (hcl2 (hs1.no_traverse_failure hf))

theorem tp_traverse_run_spec {visit : Visit} (hv : VisitSpec visit) (t : TraverseProc)
    (l : List Addr) :
    ∀ {h h' : Heap} {r : Int}, tp_traverse_run visit t h l = Res.ok (h', r) →
      FlagStep h h' ∧
        (∀ x, marked h' x = true → marked h x = true ∨ ∃ a, a ∈ l ∧ Reach h a x) ∧
        (no_traverse_failure h = true →
          r = t.result ∧ (∀ a ∈ l, marked h' a = true) ∧ ClosedNew h h') := by
  induction l with
  | nil =>
    intro h h' r hrun
    simp only [tp_traverse_run] at hrun
    cases hrun
    exact ⟨FlagStep.flag_refl h, fun x hx => Or.inl hx,
      fun _ => ⟨rfl, fun a ha => (by simp at ha), ClosedNew.closed_refl h⟩⟩
  | cons a rest ih =>
    intro h h' r hrun
    simp only [tp_traverse_run] at hrun
    obtain ⟨p, hp, hres⟩ := Res.bind_eq_ok hrun
    obtain ⟨hs1, hm1, hsound1, hcl1⟩ := hv h a p.1 p.2 hp
    by_cases hz : p.2 = 0
    · rw [if_neg (by simpa using hz)] at hres
      obtain ⟨hs2, hsound2, hcl2⟩ := ih hres
      refine ⟨hs1.flag_trans hs2, ?_, ?_⟩
      · intro x hx
        rcases hsound2 x hx with hx1 | ⟨b, hb, hreach⟩
        · rcases hsound1 x hx1 with hx0 | hreach
          · exact Or.inl hx0
          · exact Or.inr ⟨a, List.mem_cons_self _ _, hreach⟩
        · exact Or.inr ⟨b, List.mem_cons_of_mem _ hb, (hs1.reach_iff b x).mp hreach⟩
      · intro hf
        obtain ⟨hr, hall, hc2⟩ := hcl2 (hs1.no_traverse_failure hf)
        refine ⟨hr, ?_, (hcl1 hf).2.closed_trans hs2 hc2⟩
        intro b hb
        rcases List.mem_cons.mp hb with heq | hmem
        · rw [heq]; exact hs2.marked_mono hm1
        · exact hall b hmem
    · rw [if_pos hz] at hres
      cases hres
      refine ⟨hs1, ?_, ?_⟩
      · intro x hx
        rcases hsound1 x hx with hx0 | hreach
        · exact Or.inl hx0
        · exact Or.inr ⟨a, List.mem_cons_self _ _, hreach⟩
      · intro hf
        exact absurd (hcl1 hf).1 hz

theorem mem_out_refs_code {o : PyObject} (hc : o.is_code = true) (c : Addr) :
    c ∈ out_refs o ↔ some c ∈ code_fields o.code := by
  simp [out_refs, hc, List.mem_filterMap]

/-- Closing a call of `mark_object` on an unmarked object: from what the
traversal of its outgoing references guarantees to what the call guarantees. -/
theorem mark_object_finish {h h2 : Heap} {a : Addr} {o : PyObject}
    (ho : lookup h a = some o)
    (hs : FlagStep (store h a (PyMarkSweep_SetFlag o Py_MSFLAGS_MARKED)) h2)
    (hsound : ∀ x, marked h2 x = true →
      marked (store h a (PyMarkSweep_SetFlag o Py_MSFLAGS_MARKED)) x = true ∨
        ∃ c, c ∈ out_refs o ∧
          Reach (store h a (PyMarkSweep_SetFlag o Py_MSFLAGS_MARKED)) c x)
    (hclosed : no_traverse_failure h = true →
      (∀ c ∈ out_refs o, marked h2 c = true) ∧
        ClosedNew (store h a (PyMarkSweep_SetFlag o Py_MSFLAGS_MARKED)) h2) :
    FlagStep h h2 ∧ marked h2 a = true ∧
      (∀ x, marked h2 x = true → marked h x = true ∨ Reach h a x) ∧
      (no_traverse_failure h = true → ClosedNew h h2) := by
  have hs0 : FlagStep h (store h a (PyMarkSweep_SetFlag o Py_MSFLAGS_MARKED)) :=
    FlagStep.store_setFlag ho
  have hma : marked (store h a (PyMarkSweep_SetFlag o Py_MSFLAGS_MARKED)) a = true :=
    marked_iff.mpr ⟨_, lookup_store_eq _ (lookup_lt ho), isMarked_setFlag o⟩
  have hother : ∀ x, x ≠ a →
      marked (store h a (PyMarkSweep_SetFlag o Py_MSFLAGS_MARKED)) x = marked h x := by
    intro x hx
    unfold marked
    rw [lookup_store_ne _ _ (Ne.symm hx)]
  refine ⟨hs0.flag_trans hs, hs.marked_mono hma, ?_, ?_⟩
  · intro x hx
    rcases hsound x hx with hx1 | ⟨c, hc, hreach⟩
    · by_cases hxa : x = a
      · subst hxa; exact Or.inr Relation.ReflTransGen.refl
      · rw [hother x hxa] at hx1; exact Or.inl hx1
    · right
      have hreach0 : Reach h c x := (hs0.reach_iff c x).mp hreach
      exact Relation.ReflTransGen.head ⟨o, ho, hc⟩ hreach0
  · intro hf
    obtain ⟨hall, hcl⟩ := hclosed hf
    intro x o2 ho2 hm2
    rcases hcl x o2 ho2 hm2 with hx1 | hch
    · by_cases hxa : x = a
      · subst hxa
        right
        have hrefs : out_refs o2 = out_refs o := by
          rcases (hs.2 x).2 _ (lookup_store_eq _ (lookup_lt ho)) with h' | h' <;>
            (rw [h'] at ho2; cases ho2; rfl)
        rw [hrefs]
        exact hall
      · rw [hother x hxa] at hx1; exact Or.inl hx1
    · exact Or.inr hch

theorem mark_object_spec : ∀ fuel : Nat, VisitSpec (mark_object fuel) := by
  intro fuel
  induction fuel with
  | zero =>
    intro h a h' r hrun
    simp [mark_object] at hrun
  | succ fuel ih =>
    intro h a h' r hrun
    unfold mark_object at hrun
    cases ho : lookup h a with
    | none => simp [ho] at hrun
    | some o =>
      simp only [ho] at hrun
      by_cases hm : PyMarkSweep_IsMarked o = true
      · rw [if_pos hm] at hrun
        cases hrun
        exact ⟨FlagStep.flag_refl h, marked_iff.mpr ⟨o, ho, hm⟩, fun x hx => Or.inl hx,
          fun _ => ⟨rfl, ClosedNew.closed_refl h⟩⟩
      · rw [if_neg hm] at hrun
        by_cases hcode : o.is_code = true
        · simp only [hcode, if_true] at hrun
          obtain ⟨h2, hrun2, hres⟩ := Res.bind_eq_ok hrun
          cases hres
          obtain ⟨hs, hmk, hsound, hcl⟩ := Py_MARK_seq_spec ih _ hrun2
          have hfin := mark_object_finish ho hs
            (fun x hx => by
              rcases hsound x hx with h1 | ⟨c, hc, hr⟩
              · exact Or.inl h1
              · exact Or.inr ⟨c, (mem_out_refs_code hcode c).mpr hc, hr⟩)
            (fun hf => ⟨fun c hc => hmk c ((mem_out_refs_code hcode c).mp hc),
              hcl ((FlagStep.store_setFlag ho).no_traverse_failure hf)⟩)
          exact ⟨hfin.1, hfin.2.1, hfin.2.2.1, fun hf => ⟨rfl, hfin.2.2.2 hf⟩⟩
        · have hcode' : o.is_code = false := by simpa using hcode
          simp only [hcode', Bool.false_eq_true, if_false] at hrun
          by_cases hgc : o.is_gc = true
          · simp only [hgc, Bool.not_true, Bool.false_eq_true, if_false] at hrun
            cases ht : o.tp_traverse with
            | none =>
              simp only [ht] at hrun
              cases hrun
              have hout : out_refs o = [] := by simp [out_refs, hcode', hgc, ht]
              have hfin := mark_object_finish ho (FlagStep.flag_refl _)
                (fun x hx => Or.inl hx)
                (fun _ => ⟨fun c hc => (by rw [hout] at hc; simp at hc), ClosedNew.closed_refl _⟩)
              exact ⟨hfin.1, hfin.2.1, hfin.2.2.1, fun hf => ⟨rfl, hfin.2.2.2 hf⟩⟩
            | some t =>
              simp only [ht] at hrun
              obtain ⟨p, hrun2, hres⟩ := Res.bind_eq_ok hrun
              have hout : out_refs o = t.visits := by simp [out_refs, hcode', hgc, ht]
              obtain ⟨hs, hsound, hcl⟩ := tp_traverse_run_spec ih t t.visits hrun2
              have hf1 : no_traverse_failure h = true →
                  no_traverse_failure (store h a (PyMarkSweep_SetFlag o Py_MSFLAGS_MARKED))
                    = true :=
                fun hf => (FlagStep.store_setFlag ho).no_traverse_failure hf
              have hfin := mark_object_finish ho hs
                (fun x hx => by rw [hout]; exact hsound x hx)
                (fun hf => by rw [hout]; exact ⟨(hcl (hf1 hf)).2.1, (hcl (hf1 hf)).2.2⟩)
              have hp2 : no_traverse_failure h = true → p.2 = 0 := by
                intro hf
                have hsucc := (no_traverse_failure_iff h).mp hf a o ho
                rw [(hcl (hf1 hf)).1]
                simpa [traverse_succeeds, hcode', hgc, ht] using hsucc
              by_cases hz : p.2 = 0
              · rw [if_neg (by simpa using hz)] at hres
                cases hres
                exact ⟨hfin.1, hfin.2.1, hfin.2.2.1, fun hf => ⟨rfl, hfin.2.2.2 hf⟩⟩
              · rw [if_pos hz] at hres
                cases hres
                exact ⟨hfin.1, hfin.2.1, hfin.2.2.1,
                  fun hf => absurd (hp2 hf) hz⟩
          · have hgc' : o.is_gc = false := by simpa using hgc
            simp only [hgc', Bool.not_false, if_true] at hrun
            cases hrun
            have hout : out_refs o = [] := by simp [out_refs, hcode', hgc']
            have hfin := mark_object_finish ho (FlagStep.flag_refl _)
              (fun x hx => Or.inl hx)
              (fun _ => ⟨fun c hc => (by rw [hout] at hc; simp at hc), ClosedNew.closed_refl _⟩)
            exact ⟨hfin.1, hfin.2.1, hfin.2.2.1, fun hf => ⟨rfl, hfin.2.2.2 hf⟩⟩

/-! ## The marker returns -/

theorem Py_MARK_seq_total {visit : Visit} (hv : VisitSpec visit) {n : Nat}
    (ht : VisitTotal visit n) (l : List (Option Addr)) :
    ∀ h : Heap, refs_valid h = true → (∀ a, some a ∈ l → (lookup h a).isSome = true) →
      unmarked_count h < n → ∃ h', Py_MARK_seq visit h l = Res.ok h' := by
  induction l with
  | nil => intro h _ _ _; exact ⟨h, rfl⟩
  | cons ob rest ih =>
    intro h hrv hal hn
    cases ob with
    | none =>
      obtain ⟨h', hrun⟩ := ih h hrv (fun a ha => hal a (List.mem_cons_of_mem _ ha)) hn
      exact ⟨h', by simp only [Py_MARK_seq, Py_MARK, Res.bind]; exact hrun⟩
    | some a =>
      obtain ⟨h1, r, hvis⟩ := ht h a hrv (hal a (List.mem_cons_self _ _)) hn
      obtain ⟨hs, -, -, -⟩ := hv h a h1 r hvis
      obtain ⟨h', hrun⟩ := ih h1 (hs.refs_valid hrv)
        (fun b hb => by rw [hs.isSome]; exact hal b (List.mem_cons_of_mem _ hb))
        (lt_of_le_of_lt hs.unmarked_count_le hn)
      exact ⟨h', by simp only [Py_MARK_seq, Py_MARK, hvis, Res.bind]; exact hrun⟩

theorem tp_traverse_run_total {visit : Visit} (hv : VisitSpec visit) {n : Nat}
    (ht : VisitTotal visit n) (t : TraverseProc) (l : List Addr) :
    ∀ h : Heap, refs_valid h = true → (∀ a ∈ l, (lookup h a).isSome = true) →
      unmarked_count h < n → ∃ h' r, tp_traverse_run visit t h l = Res.ok (h', r) := by
  induction l with
  | nil => intro h _ _ _; exact ⟨h, t.result, rfl⟩
  | cons a rest ih =>
    intro h hrv hal hn
    obtain ⟨h1, r, hvis⟩ := ht h a hrv (hal a (List.mem_cons_self _ _)) hn
    obtain ⟨hs, -, -, -⟩ := hv h a h1 r hvis
    by_cases hz : r = 0
    · obtain ⟨h', r', hrun⟩ := ih h1 (hs.refs_valid hrv)
        (fun b hb => by rw [hs.isSome]; exact hal b (List.mem_cons_of_mem _ hb))
        (lt_of_le_of_lt hs.unmarked_count_le hn)
      exact ⟨h', r', by simp only [tp_traverse_run, hvis, Res.bind, hz]; simpa using hrun⟩
    · exact ⟨h1, r, by simp only [tp_traverse_run, hvis, Res.bind]; simp [hz]⟩

theorem mark_object_total : ∀ fuel : Nat, VisitTotal (mark_object fuel) fuel := by
  intro fuel
  induction fuel with
  | zero => intro h a _ _ hn; omega
  | succ fuel ih =>
    intro h a hrv hal hn
    obtain ⟨o, ho⟩ := Option.isSome_iff_exists.mp hal
    unfold mark_object
    simp only [ho]
    by_cases hm : PyMarkSweep_IsMarked o = true
    · exact ⟨h, 0, by rw [if_pos hm]⟩
    · rw [if_neg hm]
      have hs0 : FlagStep h (store h a (PyMarkSweep_SetFlag o Py_MSFLAGS_MARKED)) :=
        FlagStep.store_setFlag ho
      have hn1 : unmarked_count (store h a (PyMarkSweep_SetFlag o Py_MSFLAGS_MARKED)) < fuel := by
        have := unmarked_count_store_lt ho (by simpa using hm)
        omega
      have hrv1 := hs0.refs_valid hrv
      have hch : ∀ c ∈ out_refs o,
          (lookup (store h a (PyMarkSweep_SetFlag o Py_MSFLAGS_MARKED)) c).isSome = true := by
        intro c hc
        rw [hs0.isSome]
        exact (refs_valid_iff h).mp hrv a o ho c hc
      by_cases hcode : o.is_code = true
      · simp only [hcode, if_true]
        obtain ⟨h2, hrun⟩ := Py_MARK_seq_total (mark_object_spec fuel) ih (code_fields o.code) _
          hrv1 (fun c hc => hch c ((mem_out_refs_code hcode c).mpr hc)) hn1
        exact ⟨h2, 0, by simp only [code_traverse, hrun, Res.bind]⟩
      · have hcode' : o.is_code = false := by simpa using hcode
        simp only [hcode', Bool.false_eq_true, if_false]
        by_cases hgc : o.is_gc = true
        · simp only [hgc, Bool.not_true, Bool.false_eq_true, if_false]
          cases ht : o.tp_traverse with
          | none => exact ⟨_, 0, rfl⟩
          | some t =>
            have hout : out_refs o = t.visits := by simp [out_refs, hcode', hgc, ht]
            obtain ⟨h2, r, hrun⟩ := tp_traverse_run_total (mark_object_spec fuel) ih t t.visits _
              hrv1 (fun c hc => hch c (by rw [hout]; exact hc)) hn1
            simp only [hrun, Res.bind]
            by_cases hz : r = 0
            · exact ⟨h2, 0, by simp [hz]⟩
            · exact ⟨h2, 1, by simp [hz]⟩
        · have hgc' : o.is_gc = false := by simpa using hgc
          simp only [hgc', Bool.not_false, if_true]
          exact ⟨_, 0, rfl⟩

/-! ## `mark_all` is one run of `Py_MARK` over the root slots -/

theorem Res.bind_assoc {α β γ : Type} (r : Res α) (f : α → Res β) (g : β → Res γ) :
    (r.bind f).bind g = r.bind fun a => (f a).bind g := by
  cases r <;> rfl

theorem Res.bind_ok_right {α : Type} (r : Res α) : r.bind Res.ok = r := by
  cases r <;> rfl

theorem Py_MARK_seq_append (visit : Visit) (l1 l2 : List (Option Addr)) :
    ∀ h : Heap, Py_MARK_seq visit h (l1 ++ l2) =
      (Py_MARK_seq visit h l1).bind fun h1 => Py_MARK_seq visit h1 l2 := by
  induction l1 with
  | nil => intro h; rfl
  | cons ob rest ih =>
    intro h
    simp only [List.cons_append, Py_MARK_seq, Res.bind_assoc]
    congr 1
    funext h1
    exact ih h1

theorem Res.ok_bind {α β : Type} (a : α) (f : α → Res β) : (Res.ok a).bind f = f a := rfl

theorem pool_traverse_eq (visit : Visit) (l : List (Option Addr)) :
    ∀ h : Heap, pool_traverse visit h l = Py_MARK_seq visit h l := by
  induction l with
  | nil => intro h; rfl
  | cons ob rest ih =>
    intro h
    simp only [pool_traverse, Py_MARK_seq, marker, ih]

theorem mark_threads_eq (visit : Visit) (ts : List PyThreadState) :
    ∀ h : Heap, mark_threads visit h ts =
      Py_MARK_seq visit h (ts.map thread_roots).flatten := by
  induction ts with
  | nil => intro h; rfl
  | cons t rest ih =>
    intro h
    simp only [mark_threads, List.map_cons, List.flatten_cons, thread_roots,
      Py_MARK_seq_append, thread_traverse, Res.bind_assoc, ih]
    simp only [Py_MARK_seq, Res.bind_assoc, Res.ok_bind]

theorem mark_interpreters_eq (visit : Visit) (hf : Bool) (is : List PyInterpreterState) :
    ∀ h : Heap, mark_interpreters visit hf h is =
      Py_MARK_seq visit h (is.map (interpreter_roots hf)).flatten := by
  induction is with
  | nil => intro h; rfl
  | cons i rest ih =>
    intro h
    simp only [mark_interpreters, List.map_cons, List.flatten_cons, interpreter_roots,
      Py_MARK_seq_append, interpreter_traverse, Res.bind_assoc, mark_threads_eq, ih]

theorem mark_all_heap_eq (fuel : Nat) (rt : Runtime) (h : Heap) :
    mark_all_heap fuel rt h = Py_MARK_seq (mark_object fuel) h (root_slots rt) := by
  simp only [mark_all_heap, root_slots, Py_MARK_seq_append, mark_interpreters_eq,
    pool_traverse_eq]

theorem mem_roots {rt : Runtime} {a : Addr} : a ∈ roots rt ↔ some a ∈ root_slots rt := by
  simp [roots, List.mem_filterMap]

theorem marks_closed_iff (h : Heap) :
    marks_closed h = true ↔
      ∀ x o, lookup h x = some o → PyMarkSweep_IsMarked o = true →
        ∀ c ∈ out_refs o, marked h c = true := by
  unfold marks_closed
  rw [all_objects_iff]
  constructor
  · intro hh x o ho hm c hc
    have := hh x o ho
    simp only [Bool.or_eq_true, Bool.not_eq_true', List.all_eq_true] at this
    rcases this with h1 | h1
    · rw [hm] at h1; cases h1
    · exact h1 c hc
  · intro hh x o ho
    simp only [Bool.or_eq_true, Bool.not_eq_true', List.all_eq_true]
    by_cases hm : PyMarkSweep_IsMarked o = true
    · exact Or.inr (hh x o ho hm)
    · exact Or.inl (by simpa using hm)

/-- In a heap whose marked objects have all their outgoing references marked,
everything reachable from a marked object is marked. -/
theorem marked_of_reach {h h' : Heap} (hs : FlagStep h h')
    (hcl : ∀ x o, lookup h' x = some o → PyMarkSweep_IsMarked o = true →
      ∀ c ∈ out_refs o, marked h' c = true)
    {a x : Addr} (ha : marked h' a = true) (hr : Reach h a x) : marked h' x = true := by
  induction hr with
  | refl => exact ha
  | tail _ hedge ih =>
    obtain ⟨o', ho', hm'⟩ := marked_iff.mp ih
    obtain ⟨o, ho, hc⟩ := (hs.edge_iff _ _).mpr hedge
    rw [ho'] at ho
    cases ho
    exact hcl _ o' ho' hm' _ hc

/-- The core of marking from one object: on a heap without failing callbacks,
with valid references and whose marked objects have their references marked,
`mark_object` returns 0, only sets `MARKED` bits, marks the object and everything
reachable from it, and marks nothing else. -/
theorem mark_object_core (fuel : Nat) (h : Heap) (ob : Addr)
    (hclosed : marks_closed h = true) (hfail : no_traverse_failure h = true)
    (hrefs : refs_valid h = true) (hob : (lookup h ob).isSome = true)
    (hfuel : h.length < fuel) :
    ∃ h', mark_object fuel h ob = Res.ok (h', 0) ∧ FlagStep h h' ∧
      (∀ x, Reach h ob x → marked h' x = true) ∧
      (∀ x, marked h' x = true → marked h x = true ∨ Reach h ob x) := by
  obtain ⟨h', r, hrun⟩ := mark_object_total fuel h ob hrefs hob
    (lt_of_le_of_lt (unmarked_count_le_length h) hfuel)
  obtain ⟨hs, hm, hsound, hcl⟩ := mark_object_spec fuel h ob h' r hrun
  obtain ⟨hr, hcn⟩ := hcl hfail
  subst hr
  refine ⟨h', hrun, hs, fun x hx => marked_of_reach hs ?_ hm hx, hsound⟩
  intro x o' ho' hm' c hc
  rcases hcn x o' ho' hm' with hx | hch
  · obtain ⟨o, ho, hmo⟩ := marked_iff.mp hx
    have hrefs' : out_refs o' = out_refs o := by
      rcases (hs.2 x).2 o ho with h1 | h1 <;> (rw [h1] at ho'; cases ho'; rfl)
    rw [hrefs'] at hc
    exact hs.marked_mono ((marks_closed_iff h).mp hclosed x o ho hmo c hc)
  · exact hch c hc

theorem marks_closed_of_no_flags {h : Heap} (hc : no_flags_set h = true) :
    marks_closed h = true := by
  rw [marks_closed_iff]
  intro x o ho hm
  have := (no_flags_set_iff h).mp hc x
  rw [marked_iff.mpr ⟨o, ho, hm⟩] at this
  cases this

/-- C1: on a finite heap with no mark flag set, no failing traversal callback
and no dangling reference, `mark_all` returns, touches nothing but `MARKED`
bits, and afterwards an object is marked if and only if a path of outgoing
references leads to it from some root. -/
theorem mark_all_marks_exactly_reachable (fuel : Nat) (s : State)
    (hclear : no_flags_set s.heap = true) (hfail : no_traverse_failure s.heap = true)
    (hrefs : refs_valid s.heap = true) (hroots : roots_valid s.heap s.runtime = true)
    (hfuel : s.heap.length < fuel) :
    ∃ s', mark_all fuel s = Res.ok s' ∧ s'.refchain = s.refchain ∧
      s'.runtime = s.runtime ∧ FlagStep s.heap s'.heap ∧
      ∀ a, marked s'.heap a = true ↔ ∃ r, r ∈ roots s.runtime ∧ Reach s.heap r a := by
  have hrv : ∀ a, some a ∈ root_slots s.runtime → (lookup s.heap a).isSome = true := by
    intro a ha
    have := List.all_eq_true.mp hroots a (mem_roots.mpr ha)
    exact this
  obtain ⟨h', hrun⟩ := Py_MARK_seq_total (mark_object_spec fuel) (mark_object_total fuel)
    (root_slots s.runtime) s.heap hrefs hrv
    (lt_of_le_of_lt (unmarked_count_le_length _) hfuel)
  obtain ⟨hs, hm, hsound, hcl⟩ := Py_MARK_seq_spec (mark_object_spec fuel) _ hrun
  have hnone := (no_flags_set_iff s.heap).mp hclear
  refine ⟨{ s with heap := h' }, ?_, rfl, rfl, hs, fun a => ⟨fun ha => ?_, ?_⟩⟩
  · simp only [mark_all, mark_all_heap_eq, hrun, Res.bind]
  · rcases hsound a ha with h0 | ⟨r, hr, hreach⟩
    · rw [hnone a] at h0; cases h0
    · exact ⟨r, mem_roots.mpr hr, hreach⟩
  · rintro ⟨r, hr, hreach⟩
    refine marked_of_reach hs ?_ (hm r (mem_roots.mp hr)) hreach
    intro x o' ho' hm' c hc
    rcases hcl hfail x o' ho' hm' with hx | hch
    · rw [hnone x] at hx; cases hx
    · exact hch c hc

/-- C1, on the synthetic graph of the spec: the hypotheses hold, hence the
equivalence; concretely `R`, `A` and `B` end up marked, `C` and `D` do not. -/
theorem mark_all_marks_exactly_reachable_witness :
    (∃ s', mark_all 6 chain_and_cycle = Res.ok s' ∧ s'.refchain = chain_and_cycle.refchain ∧
      s'.runtime = chain_and_cycle.runtime ∧ FlagStep chain_and_cycle.heap s'.heap ∧
      ∀ a, marked s'.heap a = true ↔
        ∃ r, r ∈ roots chain_and_cycle.runtime ∧ Reach chain_and_cycle.heap r a) ∧
    (mark_all 6 chain_and_cycle).bind
        (fun s' => Res.ok ((List.range 5).map (marked s'.heap))) =
      Res.ok [true, true, true, false, false] :=
  ⟨mark_all_marks_exactly_reachable 6 chain_and_cycle (by decide) (by decide) (by decide)
    (by decide) (by decide), by decide⟩

/-- C10 on a registry with flag bits set: the hypothesis holds, hence the
statement; concretely both members end with flag word 0 and the object outside
the registry keeps its flag. -/
theorem reset_all_clears_every_member_witness :
    (∃ s', reset_all_refchain flagged_registry = Res.ok s' ∧
      s'.refchain = flagged_registry.refchain ∧ s'.runtime = flagged_registry.runtime ∧
      (∀ a ∈ flagged_registry.refchain, ∃ o, lookup flagged_registry.heap a = some o ∧
        lookup s'.heap a = some { o with ob_msflags := 0 }) ∧
      (∀ a, a ∉ flagged_registry.refchain →
        lookup s'.heap a = lookup flagged_registry.heap a)) ∧
    reset_all_refchain flagged_registry =
      Res.ok { flagged_registry with
        heap := [some (container 1 0 []), some (container 2 0 [0]), some (container 1 1 [])] } :=
  ⟨reset_all_clears_every_member flagged_registry (by decide), by decide⟩

/-- C6 (as amended): on a heap with no failing traversal callback, valid
references and whose already-marked objects have all their outgoing references
marked (in particular any heap with all flags clear), `mark_object(ob)` returns
0 and afterwards `ob` and every object reachable from `ob` is marked. -/
theorem mark_object_marks_reachable (fuel : Nat) (h : Heap) (ob : Addr)
    (hclosed : marks_closed h = true) (hfail : no_traverse_failure h = true)
    (hrefs : refs_valid h = true) (hob : (lookup h ob).isSome = true)
    (hfuel : h.length < fuel) :
    ∃ h', mark_object fuel h ob = Res.ok (h', 0) ∧ marked h' ob = true ∧
      ∀ x, Reach h ob x → marked h' x = true := by
  obtain ⟨h', hrun, -, hreach, -⟩ := mark_object_core fuel h ob hclosed hfail hrefs hob hfuel
  exact ⟨h', hrun, hreach ob Relation.ReflTransGen.refl, hreach⟩

/-- C6 (as amended) on the synthetic graph, marking from `R`. -/
theorem mark_object_marks_reachable_witness :
    ∃ h', mark_object 6 chain_and_cycle.heap 0 = Res.ok (h', 0) ∧ marked h' 0 = true ∧
      ∀ x, Reach chain_and_cycle.heap 0 x → marked h' x = true :=
  mark_object_marks_reachable 6 chain_and_cycle.heap 0 (by decide) (by decide) (by decide)
    (by decide) (by decide)

/-- C6 as stated fails: (1) with a residual flag, `mark_object` on the already
marked object at 0 returns 0 and changes nothing, leaving its referent 1
unmarked; (2) with all flags clear, `mark_object` on the code object at 0
returns 0 although the failure of the callback of 2 stopped the traversal of 1
before 3, which is reachable from 0 and stays unmarked. -/
theorem mark_object_returns_zero_counterexample :
    (mark_object 3 residual_flag_heap 0 = Res.ok (residual_flag_heap, 0) ∧
      Reach residual_flag_heap 0 1 ∧ marked residual_flag_heap 1 = false) ∧
    (∃ h', mark_object 5 failing_callback_heap 0 = Res.ok (h', 0) ∧
      Reach failing_callback_heap 0 3 ∧ marked h' 3 = false) := by
  refine ⟨⟨by decide, Relation.ReflTransGen.single ⟨_, rfl, by decide⟩, by decide⟩, ?_⟩
  refine ⟨_, rfl, ?_, by decide⟩
  have e01 : edge failing_callback_heap 0 1 := ⟨_, rfl, by decide⟩
  have e13 : edge failing_callback_heap 1 3 := ⟨_, rfl, by decide⟩
  exact Relation.ReflTransGen.head e01 (Relation.ReflTransGen.single e13)

/-- C9 (as amended): on a heap with all flags clear, valid references and no
failing traversal callback, `mark_object` on a code object returns 0; every
non-null object held in a field listed by `code_traverse` is then marked,
together with everything reachable from it; nothing else but the code object
itself is marked; and `Py_MARK` on a null field leaves the heap as it is. -/
theorem code_traverse_coverage (fuel : Nat) (h : Heap) (co : Addr) (o : PyObject)
    (ho : lookup h co = some o) (hcode : o.is_code = true)
    (hclear : no_flags_set h = true) (hfail : no_traverse_failure h = true)
    (hrefs : refs_valid h = true) (hfuel : h.length < fuel) :
    ∃ h', mark_object fuel h co = Res.ok (h', 0) ∧
      (∀ f, some f ∈ code_fields o.code →
        marked h' f = true ∧ ∀ x, Reach h f x → marked h' x = true) ∧
      (∀ x, marked h' x = true → x = co ∨ ∃ f, some f ∈ code_fields o.code ∧ Reach h f x) ∧
      ∀ h0, Py_MARK (mark_object fuel) h0 none = Res.ok h0 := by
  obtain ⟨h', hrun, -, hreach, hsound⟩ := mark_object_core fuel h co
    (marks_closed_of_no_flags hclear) hfail hrefs (by rw [ho]; rfl) hfuel
  refine ⟨h', hrun, ?_, ?_, fun _ => rfl⟩
  · intro f hf
    have hedge : Reach h co f :=
      Relation.ReflTransGen.single ⟨o, ho, (mem_out_refs_code hcode f).mpr hf⟩
    exact ⟨hreach f hedge, fun x hx => hreach x (hedge.trans hx)⟩
  · intro x hx
    rcases hsound x hx with h0 | hr
    · rw [(no_flags_set_iff h).mp hclear x] at h0; cases h0
    · rcases Relation.ReflTransGen.cases_head hr with heq | ⟨c, ⟨o', ho', hc⟩, hcx⟩
      · exact Or.inl heq.symm
      · rw [ho] at ho'
        cases ho'
        exact Or.inr ⟨c, (mem_out_refs_code hcode c).mp hc, hcx⟩

/-- C9 (as amended) on a code object holding the head of a chain. -/
theorem code_traverse_coverage_witness :
    ∃ h', mark_object 4
        [some (code_object 1 (some 1)), some (container 1 0 [2]), some (container 1 0 [])] 0 =
          Res.ok (h', 0) ∧
      (∀ f, some f ∈ code_fields (code_object 1 (some 1)).code →
        marked h' f = true ∧
          ∀ x, Reach [some (code_object 1 (some 1)), some (container 1 0 [2]),
            some (container 1 0 [])] f x → marked h' x = true) ∧
      (∀ x, marked h' x = true → x = 0 ∨ ∃ f, some f ∈ code_fields (code_object 1 (some 1)).code ∧
        Reach [some (code_object 1 (some 1)), some (container 1 0 [2]),
          some (container 1 0 [])] f x) ∧
      ∀ h0, Py_MARK (mark_object 4) h0 none = Res.ok h0 :=
  code_traverse_coverage 4 _ 0 (code_object 1 (some 1)) rfl rfl (by decide) (by decide)
    (by decide) (by decide)

/-- C9 as stated fails when a callback reports failure: all flags are clear,
the code object at 0 holds 1 in `co_consts`, 3 is reachable from 1, and after
`mark_object` on the code object 3 is not marked. -/
theorem code_traverse_coverage_counterexample :
    no_flags_set failing_callback_heap = true ∧
    (∃ o, lookup failing_callback_heap 0 = some o ∧ o.is_code = true ∧
      some 1 ∈ code_fields o.code) ∧
    Reach failing_callback_heap 1 3 ∧
    ∃ h', mark_object 5 failing_callback_heap 0 = Res.ok (h', 0) ∧ marked h' 3 = false :=
  ⟨by decide, ⟨_, rfl, rfl, by decide⟩,
    Relation.ReflTransGen.single ⟨_, rfl, by decide⟩, _, rfl, by decide⟩

/-! ## Deallocation: frame properties -/

theorem DStep.dstep_refl (T : Addr → Prop) (s : State) : DStep T s s := by
  refine ⟨rfl, rfl, ⟨fun _ => true, by simp⟩, fun x hx hnx => absurd hx hnx, fun a => ?_⟩
  exact ⟨fun _ => rfl, fun hn => hn, fun o ho => Or.inr ⟨o.ob_refcnt, le_refl _, ho⟩⟩

theorem DStep.dstep_trans {T : Addr → Prop} {s s1 s2 : State} (h1 : DStep T s s1)
    (h2 : DStep T s1 s2) : DStep T s s2 := by
  obtain ⟨hr1, hl1, ⟨q1, hq1⟩, hf1, hp1⟩ := h1
  obtain ⟨hr2, hl2, ⟨q2, hq2⟩, hf2, hp2⟩ := h2
  refine ⟨hr2.trans hr1, hl2.trans hl1, ⟨fun x => q1 x && q2 x, ?_⟩, ?_, ?_⟩
  · rw [hq2, hq1, List.filter_filter]
    congr 1
    funext x
    exact Bool.and_comm _ _
  · intro x hx hnx
    by_cases hx1 : x ∈ s1.refchain
    · exact hf2 x hx1 hnx
    · obtain ⟨hT, hnone⟩ := hf1 x hx hx1
      exact ⟨hT, (hp2 x).2.1 hnone⟩
  · intro a
    refine ⟨fun hT => (by rw [(hp2 a).1 hT, (hp1 a).1 hT]),
      fun hn => (hp2 a).2.1 ((hp1 a).2.1 hn), ?_⟩
    intro o ho
    rcases (hp1 a).2.2 o ho with hn | ⟨rc1, hrc1, ho1⟩
    · exact Or.inl ((hp2 a).2.1 hn)
    · rcases (hp2 a).2.2 _ ho1 with hn | ⟨rc2, hrc2, ho2⟩
      · exact Or.inl hn
      · exact Or.inr ⟨rc2, le_trans hrc2 hrc1, ho2⟩

theorem DStep.heldClosed {T : Addr → Prop} {s s' : State} (hd : DStep T s s')
    (hc : HeldClosed T s.heap) : HeldClosed T s'.heap := by
  intro x o' hT ho' r hr
  cases ho : lookup s.heap x with
  | none => rw [(hd.2.2.2.2 x).2.1 ho] at ho'; cases ho'
  | some o =>
    rcases (hd.2.2.2.2 x).2.2 o ho with hn | ⟨rc, -, ho1⟩
    · rw [hn] at ho'; cases ho'
    · rw [ho1] at ho'
      cases ho'
      exact hc x o hT ho r hr

/-- What a deallocator guarantees on a closed set `T`. -/
theorem Py_DECREF_step {T : Addr → Prop} {d : State → Addr → Res State}
    (hd : ∀ s a s', HeldClosed T s.heap → T a → d s a = Res.ok s' → DStep T s s')
    {s s' : State} {r : Addr} (hc : HeldClosed T s.heap) (hT : T r)
    (hrun : Py_DECREF d s r = Res.ok s') : DStep T s s' := by
  unfold Py_DECREF at hrun
  cases ho : lookup s.heap r with
  | none => simp [ho] at hrun
  | some o =>
    simp only [ho] at hrun
    have hstep : DStep T s
        { s with heap := store s.heap r { o with ob_refcnt := o.ob_refcnt - 1 } } := by
      refine ⟨rfl, length_store _ _ _, ⟨fun _ => true, by simp⟩,
        fun x hx hnx => absurd hx hnx, fun a => ?_⟩
      by_cases hra : r = a
      · subst hra
        refine ⟨fun hnT => absurd hT hnT, fun hn => (by rw [ho] at hn; cases hn), ?_⟩
        intro o' ho'
        rw [ho] at ho'
        cases ho'
        exact Or.inr ⟨o.ob_refcnt - 1, by omega, lookup_store_eq _ (lookup_lt ho)⟩
      · dsimp only
        rw [lookup_store_ne _ _ hra]
        exact ⟨fun _ => rfl, fun hn => hn, fun o' ho' => Or.inr ⟨_, le_refl _, ho'⟩⟩
    by_cases hz : o.ob_refcnt - 1 = 0
    · rw [if_neg (by simpa using hz)] at hrun
      exact hstep.dstep_trans (hd _ _ _ (hstep.heldClosed hc) hT hrun)
    · rw [if_pos hz] at hrun
      cases hrun
      exact hstep

theorem decref_all_step {T : Addr → Prop} {d : State → Addr → Res State}
    (hd : ∀ s a s', HeldClosed T s.heap → T a → d s a = Res.ok s' → DStep T s s')
    (l : List Addr) :
    ∀ {s s' : State}, HeldClosed T s.heap → (∀ r ∈ l, T r) →
      decref_all d s l = Res.ok s' → DStep T s s' := by
  induction l with
  | nil =>
    intro s s' _ _ hrun
    simp only [decref_all] at hrun
    cases hrun
    exact DStep.dstep_refl T s
  | cons r rest ih =>
    intro s s' hc hT hrun
    simp only [decref_all] at hrun
    obtain ⟨s1, h1, h2⟩ := Res.bind_eq_ok hrun
    have hs1 := Py_DECREF_step hd hc (hT r (List.mem_cons_self _ _)) h1
    exact hs1.dstep_trans
      (ih (hs1.heldClosed hc) (fun x hx => hT x (List.mem_cons_of_mem _ hx)) h2)

theorem _Py_Dealloc_step (T : Addr → Prop) :
    ∀ (fuel : Nat) (s : State) (a : Addr) (s' : State), HeldClosed T s.heap → T a →
      _Py_Dealloc fuel s a = Res.ok s' → DStep T s s' := by
  intro fuel
  induction fuel with
  | zero => intro s a s' _ _ hrun; simp [_Py_Dealloc] at hrun
  | succ fuel ih =>
    intro s a s' hc hT hrun
    unfold _Py_Dealloc at hrun
    cases ho : lookup s.heap a with
    | none => simp [ho] at hrun
    | some o =>
      simp only [ho] at hrun
      obtain ⟨s2, h1, h2⟩ := Res.bind_eq_ok hrun
      cases ho2 : lookup s2.heap a with
      | none => simp [ho2] at h2
      | some o2 =>
        simp only [ho2] at h2
        cases h2
        have hd2 : DStep T (_Py_ForgetReference s a) s2 :=
          decref_all_step ih o.held hc (hc a o hT ho) h1
        obtain ⟨hr2, hl2, ⟨q2, hq2⟩, hf2, hp2⟩ := hd2
        refine ⟨hr2, ?_, ⟨fun x => (x != a) && q2 x, ?_⟩, ?_, ?_⟩
        · show (free s2.heap a).length = _
          rw [length_free]; exact hl2
        · show s2.refchain = _
          rw [hq2]
          show List.filter q2 (List.filter (fun x => x != a) s.refchain) = _
          rw [List.filter_filter]
          congr 1
          funext x
          exact Bool.and_comm _ _
        · intro x hx hnx
          by_cases hxa : x = a
          · subst hxa
            exact ⟨hT, lookup_free_eq _ _⟩
          · have hx1 : x ∈ (_Py_ForgetReference s a).refchain := by
              show x ∈ List.filter (fun x => x != a) s.refchain
              rw [List.mem_filter]
              exact ⟨hx, by simpa using hxa⟩
            obtain ⟨hTx, hnone⟩ := hf2 x hx1 hnx
            refine ⟨hTx, ?_⟩
            show lookup (free s2.heap a) x = none
            rw [lookup_free_ne _ (Ne.symm hxa)]
            exact hnone
        · intro x
          by_cases hxa : a = x
          · subst hxa
            refine ⟨fun hnT => absurd hT hnT, fun hn => lookup_free_eq _ _,
              fun _ _ => Or.inl (lookup_free_eq _ _)⟩
          · dsimp only
            rw [lookup_free_ne _ hxa]
            exact hp2 x

/-! ## Deallocation returns -/

theorem DStep.positive_count_le {T : Addr → Prop} {s s' : State} (hd : DStep T s s') :
    positive_count s'.heap ≤ positive_count s.heap := by
  apply count_objects_le_of_lookup _ hd.2.1
  intro a o' ho' hp
  cases ho : lookup s.heap a with
  | none => rw [(hd.2.2.2.2 a).2.1 ho] at ho'; cases ho'
  | some o =>
    refine ⟨o, rfl, ?_⟩
    rcases (hd.2.2.2.2 a).2.2 o ho with hn | ⟨rc, hrc, ho1⟩
    · rw [hn] at ho'; cases ho'
    · rw [ho1] at ho'
      cases ho'
      simp only [decide_eq_true_eq] at hp ⊢
      omega

theorem heldClosed_true (h : Heap) : HeldClosed (fun _ => True) h :=
  fun _ _ _ _ _ _ => trivial

theorem Py_DECREF_no_timeout {d : State → Addr → Res State} {n : Nat}
    (hd : ∀ s a, positive_count s.heap < n → d s a ≠ Res.timeout)
    {s : State} {r : Addr} (hn : positive_count s.heap ≤ n) :
    Py_DECREF d s r ≠ Res.timeout := by
  unfold Py_DECREF
  cases ho : lookup s.heap r with
  | none => simp
  | some o =>
    simp only
    by_cases hz : o.ob_refcnt - 1 = 0
    · rw [if_neg (by simpa using hz)]
      apply hd
      have : positive_count (store s.heap r { o with ob_refcnt := o.ob_refcnt - 1 }) <
          positive_count s.heap :=
        count_objects_store_lt _ ho (by simp; omega) (by simp; omega)
      exact lt_of_lt_of_le this hn
    · rw [if_pos hz]; simp

theorem decref_all_no_timeout {d : State → Addr → Res State} {n : Nat}
    (hd : ∀ s a, positive_count s.heap < n → d s a ≠ Res.timeout)
    (hstep : ∀ s a s', d s a = Res.ok s' → DStep (fun _ => True) s s')
    (l : List Addr) :
    ∀ s : State, positive_count s.heap ≤ n → decref_all d s l ≠ Res.timeout := by
  induction l with
  | nil => intro s _; simp [decref_all]
  | cons r rest ih =>
    intro s hn
    simp only [decref_all]
    cases h1 : Py_DECREF d s r with
    | ok s1 =>
      simp only [Res.bind]
      have hs1 : DStep (fun _ => True) s s1 :=
        Py_DECREF_step (fun s a s' _ _ h => hstep s a s' h) (heldClosed_true _) trivial h1
      exact ih s1 (le_trans hs1.positive_count_le hn)
    | segv => simp [Res.bind]
    | timeout => exact absurd h1 (Py_DECREF_no_timeout hd hn)

theorem _Py_Dealloc_no_timeout :
    ∀ (fuel : Nat) (s : State) (a : Addr), positive_count s.heap < fuel →
      _Py_Dealloc fuel s a ≠ Res.timeout := by
  intro fuel
  induction fuel with
  | zero => intro s a hn; omega
  | succ fuel ih =>
    intro s a hn
    unfold _Py_Dealloc
    cases ho : lookup s.heap a with
    | none => simp
    | some o =>
      simp only
      have h1 := decref_all_no_timeout ih
        (fun s a s' h => _Py_Dealloc_step _ fuel s a s' (heldClosed_true _) trivial h)
        o.held (_Py_ForgetReference s a) (by
          show positive_count s.heap ≤ fuel
          omega)
      cases h2 : decref_all (_Py_Dealloc fuel) (_Py_ForgetReference s a) o.held with
      | ok s2 =>
        simp only [Res.bind]
        cases lookup s2.heap a <;> simp
      | segv => simp [Res.bind]
      | timeout => exact absurd h2 h1

/-! ## The sweep cursor -/

theorem ob_next_mem {l : List Addr} {c : Addr} {x : Option Addr} (h : ob_next l c = some x) :
    c ∈ l := by
  induction l with
  | nil => simp [ob_next] at h
  | cons y t ih =>
    simp only [ob_next] at h
    by_cases hy : y = c
    · subst hy; exact List.mem_cons_self _ _
    · rw [if_neg hy] at h
      exact List.mem_cons_of_mem _ (ih h)

theorem ob_next_of_not_mem {l : List Addr} {c : Addr} (h : c ∉ l) : ob_next l c = none := by
  cases hx : ob_next l c with
  | none => rfl
  | some x => exact absurd (ob_next_mem hx) h

theorem ob_next_split (pre : List Addr) (c : Addr) (rest : List Addr) (h : c ∉ pre) :
    ob_next (pre ++ c :: rest) c = some rest.head? := by
  induction pre with
  | nil => simp [ob_next]
  | cons y t ih =>
    have hy : y ≠ c := fun hyc => h (by rw [hyc]; exact List.mem_cons_self _ _)
    have ht : c ∉ t := fun hc => h (List.mem_cons_of_mem _ hc)
    simp only [List.cons_append, ob_next, if_neg hy]
    exact ih ht

theorem nodup_split_not_mem {pre rest : List Addr} {c : Addr}
    (h : (pre ++ c :: rest).Nodup) : c ∉ pre := by
  intro hc
  have := List.nodup_append.mp h
  exact this.2.2 hc (List.mem_cons_self _ _)

/-- The three branches of one visit of the sweeper. -/
theorem sweep_visit_cases {dfuel : Nat} {s s1 : State} {cur : Addr} {o : PyObject}
    {e : SweepEvent} (h : sweep_visit dfuel s cur o = Res.ok (s1, e)) :
    e.ob = cur ∧ e.seen = o ∧
      ((PyMarkSweep_IsMarked o = true ∧ e.action = SweepAction.skip ∧
          s1 = { s with heap := store s.heap cur (PyMarkSweep_ClearFlag o) }) ∨
       (PyMarkSweep_IsMarked o = false ∧ o.ob_refcnt ≠ 0 ∧
          e.action = SweepAction.referenced ∧ s1 = s) ∨
       (PyMarkSweep_IsMarked o = false ∧ o.ob_refcnt = 0 ∧
          e.action = SweepAction.dealloc ∧ _Py_Dealloc dfuel s cur = Res.ok s1)) := by
  unfold sweep_visit at h
  by_cases hm : PyMarkSweep_IsMarked o = true
  · simp only [hm, Bool.not_true, Bool.false_eq_true, if_false] at h
    cases h
    exact ⟨rfl, rfl, Or.inl ⟨hm, rfl, rfl⟩⟩
  · have hm' : PyMarkSweep_IsMarked o = false := by simpa using hm
    simp only [hm', Bool.not_false, if_true] at h
    by_cases hz : o.ob_refcnt = 0
    · rw [if_neg (by simpa using hz)] at h
      obtain ⟨s2, h2, h3⟩ := Res.bind_eq_ok h
      cases h3
      exact ⟨rfl, rfl, Or.inr (Or.inr ⟨hm', hz, rfl, h2⟩)⟩
    · rw [if_pos hz] at h
      cases h
      exact ⟨rfl, rfl, Or.inr (Or.inl ⟨hm', hz, rfl, rfl⟩)⟩

theorem sweep_visit_registry {dfuel : Nat} {s s1 : State} {cur : Addr} {o : PyObject}
    {e : SweepEvent} (h : sweep_visit dfuel s cur o = Res.ok (s1, e)) :
    ∃ q : Addr → Bool, s1.refchain = s.refchain.filter q := by
  obtain ⟨-, -, hc | hc | hc⟩ := sweep_visit_cases h
  · obtain ⟨-, -, rfl⟩ := hc
    exact ⟨fun _ => true, by simp⟩
  · obtain ⟨-, -, -, rfl⟩ := hc
    exact ⟨fun _ => true, by simp⟩
  · exact (_Py_Dealloc_step _ dfuel s cur s1 (heldClosed_true _) trivial hc.2.2.2).2.2.1

theorem sweep_visit_positive_count {dfuel : Nat} {s s1 : State} {cur : Addr} {o : PyObject}
    {e : SweepEvent} (ho : lookup s.heap cur = some o)
    (h : sweep_visit dfuel s cur o = Res.ok (s1, e)) :
    positive_count s1.heap ≤ positive_count s.heap := by
  obtain ⟨-, -, hc | hc | hc⟩ := sweep_visit_cases h
  · obtain ⟨-, -, rfl⟩ := hc
    apply count_objects_le_of_lookup _ (length_store _ _ _)
    intro a o' ho' hp
    by_cases hca : cur = a
    · subst hca
      rw [lookup_store_eq _ (lookup_lt ho)] at ho'
      cases ho'
      exact ⟨o, ho, hp⟩
    · rw [lookup_store_ne _ _ hca] at ho'
      exact ⟨o', ho', hp⟩
  · obtain ⟨-, -, -, rfl⟩ := hc
    exact le_refl _
  · exact (_Py_Dealloc_step _ dfuel s cur s1 (heldClosed_true _) trivial
      hc.2.2.2).positive_count_le

/-- Every successful run of the sweep loop on a duplicate-free registry is a
`SweepRun`. -/
theorem sweep_loop_run (dfuel : Nat) :
    ∀ (fuel : Nat) (s : State) (pre rest : List Addr) (s' : State) (log : List SweepEvent),
      s.refchain = pre ++ rest → s.refchain.Nodup →
      sweep_loop dfuel fuel s rest.head? = Res.ok (s', log) →
      SweepRun dfuel s pre rest s' log := by
  intro fuel
  induction fuel with
  | zero =>
    intro s pre rest s' log hreg _ hrun
    cases rest with
    | nil =>
      simp only [List.head?_nil, sweep_loop] at hrun
      cases hrun
      exact SweepRun.done (by simpa using hreg)
    | cons cur rest0 =>
      simp [sweep_loop] at hrun
  | succ fuel ih =>
    intro s pre rest s' log hreg hnd hrun
    cases rest with
    | nil =>
      simp only [List.head?_nil, sweep_loop] at hrun
      cases hrun
      exact SweepRun.done (by simpa using hreg)
    | cons cur rest0 =>
      simp only [List.head?_cons, sweep_loop] at hrun
      have hnext : ob_next s.refchain cur = some rest0.head? := by
        rw [hreg]
        exact ob_next_split pre cur rest0 (nodup_split_not_mem (hreg ▸ hnd))
      rw [hnext] at hrun
      cases ho : lookup s.heap cur with
      | none => simp [ho] at hrun
      | some o =>
        simp only [ho] at hrun
        obtain ⟨p, hvis, hrest⟩ := Res.bind_eq_ok hrun
        obtain ⟨r, hloop, hres⟩ := Res.bind_eq_ok hrest
        cases hres
        obtain ⟨q, hq⟩ := sweep_visit_registry hvis
        have hqn : ∀ n, rest0.head? = some n → q n = true := by
          intro n hn
          rw [hn] at hloop
          have hmem : n ∈ p.1.refchain := by
            cases fuel with
            | zero => simp [sweep_loop] at hloop
            | succ f =>
              simp only [sweep_loop] at hloop
              cases hx : ob_next p.1.refchain n with
              | none => simp [hx] at hloop
              | some x => exact ob_next_mem hx
          rw [hq, List.mem_filter] at hmem
          exact hmem.2
        have hhead : (rest0.filter q).head? = rest0.head? := by
          cases rest0 with
          | nil => rfl
          | cons n post =>
            have := hqn n rfl
            simp [List.filter_cons, this]
        have hreg1 : p.1.refchain = (pre ++ [cur]).filter q ++ rest0.filter q := by
          rw [hq, hreg, ← List.filter_append]
          simp
        have hnd1 : p.1.refchain.Nodup := by
          rw [hq]; exact hnd.filter _
        refine SweepRun.visit q hreg hnd ho hvis hq hqn ?_
        exact ih p.1 _ _ r.1 r.2 hreg1 hnd1 (by rw [hhead]; exact hloop)

/-- With enough fuel the sweep loop does not run out of fuel. -/
theorem sweep_loop_no_timeout (dfuel : Nat) :
    ∀ (fuel : Nat) (s : State) (pre rest : List Addr),
      s.refchain = pre ++ rest → s.refchain.Nodup → rest.length ≤ fuel →
      positive_count s.heap < dfuel →
      sweep_loop dfuel fuel s rest.head? ≠ Res.timeout := by
  intro fuel
  induction fuel with
  | zero =>
    intro s pre rest _ _ hlen _
    have : rest = [] := List.length_eq_zero.mp (Nat.le_zero.mp hlen)
    subst this
    simp [sweep_loop]
  | succ fuel ih =>
    intro s pre rest hreg hnd hlen hpos
    cases rest with
    | nil => simp [sweep_loop]
    | cons cur rest0 =>
      simp only [List.head?_cons, sweep_loop]
      have hnext : ob_next s.refchain cur = some rest0.head? := by
        rw [hreg]
        exact ob_next_split pre cur rest0 (nodup_split_not_mem (hreg ▸ hnd))
      rw [hnext]
      cases ho : lookup s.heap cur with
      | none => simp
      | some o =>
        simp only
        cases hvis : sweep_visit dfuel s cur o with
        | segv => simp [Res.bind]
        | timeout =>
          exfalso
          unfold sweep_visit at hvis
          by_cases hm : PyMarkSweep_IsMarked o = true
          · simp [hm] at hvis
          · have hm' : PyMarkSweep_IsMarked o = false := by simpa using hm
            simp only [hm', Bool.not_false, if_true] at hvis
            by_cases hz : o.ob_refcnt = 0
            · rw [if_neg (by simpa using hz)] at hvis
              cases hd : _Py_Dealloc dfuel s cur with
              | ok s2 => simp [hd, Res.bind] at hvis
              | segv => simp [hd, Res.bind] at hvis
              | timeout => exact _Py_Dealloc_no_timeout dfuel s cur hpos hd
            · rw [if_pos hz] at hvis
              cases hvis
        | ok p =>
          simp only [Res.bind]
          obtain ⟨q, hq⟩ := sweep_visit_registry hvis
          have hpos1 : positive_count p.1.heap < dfuel :=
            lt_of_le_of_lt (sweep_visit_positive_count ho hvis) hpos
          have hnd1 : p.1.refchain.Nodup := by
            rw [hq]; exact hnd.filter _
          have hreg1 : p.1.refchain = (pre ++ [cur]).filter q ++ rest0.filter q := by
            rw [hq, hreg, ← List.filter_append]
            simp
          have hlen0 : rest0.length ≤ fuel := by simpa using hlen
          have key : sweep_loop dfuel fuel p.1 rest0.head? ≠ Res.timeout := by
            cases rest0 with
            | nil => simp [sweep_loop]
            | cons n post =>
              by_cases hqn : q n = true
              · have := ih p.1 _ _ hreg1 hnd1
                  (le_trans (List.length_filter_le _ _) hlen0) hpos1
                simpa [List.filter_cons, hqn] using this
              · have hnm : n ∉ p.1.refchain := by
                  rw [hq, List.mem_filter]
                  exact fun h => hqn h.2
                cases fuel with
                | zero => simp at hlen0
                | succ f =>
                  simp [sweep_loop, ob_next_of_not_mem hnm]
          cases hl : sweep_loop dfuel fuel p.1 rest0.head? with
          | ok r => simp
          | segv => simp
          | timeout => exact absurd hl key

theorem all_indexed_iff (p : Addr → PyObject → Bool) (h : Heap) :
    all_indexed p h = true ↔ ∀ a o, lookup h a = some o → p a o = true := by
  unfold all_indexed
  rw [List.all_eq_true]
  constructor
  · intro hall a o ho
    have := hall a (List.mem_range.mpr (lookup_lt ho))
    rw [ho] at this
    exact this
  · intro hpt a _
    cases ho : lookup h a with
    | none => rfl
    | some o => exact hpt a o ho

theorem held_closed_iff (T : Addr → Bool) (h : Heap) :
    held_closed T h = true ↔ HeldClosed (fun x => T x = true) h := by
  unfold held_closed HeldClosed
  rw [all_indexed_iff]
  constructor
  · intro hh x o hT ho r hr
    have := hh x o ho
    simp only [Bool.or_eq_true, Bool.not_eq_true', List.all_eq_true] at this
    rcases this with h1 | h1
    · rw [hT] at h1; cases h1
    · exact h1 r hr
  · intro hh a o ho
    simp only [Bool.or_eq_true, Bool.not_eq_true', List.all_eq_true]
    by_cases hT : T a = true
    · exact Or.inr (hh a o hT ho)
    · exact Or.inl (by simpa using hT)

theorem zero_refcnt_within_iff (T : Addr → Bool) (h : Heap) :
    zero_refcnt_within T h = true ↔
      ∀ a o, lookup h a = some o → T a = false → o.ob_refcnt ≠ 0 := by
  unfold zero_refcnt_within
  rw [all_indexed_iff]
  constructor
  · intro hh a o ho hT
    have := hh a o ho
    simpa [hT] using this
  · intro hh a o ho
    by_cases hT : T a = true
    · simp [hT]
    · have := hh a o ho (by simpa using hT)
      simp [this]

/-! ## The marker does not run out of fuel -/

theorem Py_MARK_seq_no_timeout {visit : Visit} (hv : VisitSpec visit) {n : Nat}
    (ht : ∀ h a, unmarked_count h < n → visit h a ≠ Res.timeout) (l : List (Option Addr)) :
    ∀ h : Heap, unmarked_count h < n → Py_MARK_seq visit h l ≠ Res.timeout := by
  induction l with
  | nil => intro h _; simp [Py_MARK_seq]
  | cons ob rest ih =>
    intro h hn
    cases ob with
    | none =>
      simp only [Py_MARK_seq, Py_MARK, Res.bind]
      exact ih h hn
    | some a =>
      simp only [Py_MARK_seq, Py_MARK]
      cases hvis : visit h a with
      | ok p =>
        simp only [Res.bind]
        obtain ⟨hs, -, -, -⟩ := hv h a p.1 p.2 hvis
        exact ih p.1 (lt_of_le_of_lt hs.unmarked_count_le hn)
      | segv => simp [Res.bind]
      | timeout => exact absurd hvis (ht h a hn)

theorem tp_traverse_run_no_timeout {visit : Visit} (hv : VisitSpec visit) {n : Nat}
    (ht : ∀ h a, unmarked_count h < n → visit h a ≠ Res.timeout) (t : TraverseProc)
    (l : List Addr) :
    ∀ h : Heap, unmarked_count h < n → tp_traverse_run visit t h l ≠ Res.timeout := by
  induction l with
  | nil => intro h _; simp [tp_traverse_run]
  | cons a rest ih =>
    intro h hn
    simp only [tp_traverse_run]
    cases hvis : visit h a with
    | ok p =>
      simp only [Res.bind]
      obtain ⟨hs, -, -, -⟩ := hv h a p.1 p.2 hvis
      by_cases hz : p.2 = 0
      · rw [if_neg (by simpa using hz)]
        exact ih p.1 (lt_of_le_of_lt hs.unmarked_count_le hn)
      · rw [if_pos hz]; simp
    | segv => simp [Res.bind]
    | timeout => exact absurd hvis (ht h a hn)

theorem mark_object_no_timeout :
    ∀ (fuel : Nat) (h : Heap) (a : Addr), unmarked_count h < fuel →
      mark_object fuel h a ≠ Res.timeout := by
  intro fuel
  induction fuel with
  | zero => intro h a hn; omega
  | succ fuel ih =>
    intro h a hn
    unfold mark_object
    cases ho : lookup h a with
    | none => simp
    | some o =>
      simp only
      by_cases hm : PyMarkSweep_IsMarked o = true
      · rw [if_pos hm]; simp
      · rw [if_neg hm]
        have hn1 : unmarked_count (store h a (PyMarkSweep_SetFlag o Py_MSFLAGS_MARKED)) < fuel := by
          have := unmarked_count_store_lt ho (by simpa using hm)
          omega
        by_cases hcode : o.is_code = true
        · simp only [hcode, if_true, code_traverse]
          have := Py_MARK_seq_no_timeout (mark_object_spec fuel) ih (code_fields o.code) _ hn1
          cases hr : Py_MARK_seq (mark_object fuel)
              (store h a (PyMarkSweep_SetFlag o Py_MSFLAGS_MARKED)) (code_fields o.code) with
          | ok h2 => simp [Res.bind]
          | segv => simp [Res.bind]
          | timeout => exact absurd hr this
        · have hcode' : o.is_code = false := by simpa using hcode
          simp only [hcode', Bool.false_eq_true, if_false]
          by_cases hgc : o.is_gc = true
          · simp only [hgc, Bool.not_true, Bool.false_eq_true, if_false]
            cases ht : o.tp_traverse with
            | none => simp
            | some t =>
              simp only
              have := tp_traverse_run_no_timeout (mark_object_spec fuel) ih t t.visits _ hn1
              cases hr : tp_traverse_run (mark_object fuel) t
                  (store h a (PyMarkSweep_SetFlag o Py_MSFLAGS_MARKED)) t.visits with
              | ok p =>
                simp only [Res.bind]
                by_cases hz : p.2 = 0 <;> simp [hz]
              | segv => simp [Res.bind]
              | timeout => exact absurd hr this
          · have hgc' : o.is_gc = false := by simpa using hgc
            simp [hgc']

/-- The outcome of `mark_all`: no timeout with more fuel than heap slots, and a
result differs from the start only by `MARKED` bits set in the heap. -/
theorem mark_all_outcome (fuel : Nat) (s : State) (hfuel : s.heap.length < fuel) :
    mark_all fuel s ≠ Res.timeout ∧
      ∀ s1, mark_all fuel s = Res.ok s1 →
        s1.refchain = s.refchain ∧ s1.runtime = s.runtime ∧ FlagStep s.heap s1.heap := by
  have hnt := Py_MARK_seq_no_timeout (mark_object_spec fuel) (mark_object_no_timeout fuel)
    (root_slots s.runtime) s.heap (lt_of_le_of_lt (unmarked_count_le_length _) hfuel)
  unfold mark_all
  rw [mark_all_heap_eq]
  cases hr : Py_MARK_seq (mark_object fuel) s.heap (root_slots s.runtime) with
  | ok h1 =>
    refine ⟨by simp [Res.bind], ?_⟩
    intro s1 hs1
    simp only [Res.bind] at hs1
    cases hs1
    exact ⟨rfl, rfl, (Py_MARK_seq_spec (mark_object_spec fuel) _ hr).1⟩
  | segv => exact ⟨by simp [Res.bind], fun s1 hs1 => by simp [Res.bind] at hs1⟩
  | timeout => exact absurd hr hnt

/-! ## Facts about one visit of the sweeper -/

theorem _Py_Dealloc_frees {fuel : Nat} {s s' : State} {a : Addr}
    (h : _Py_Dealloc fuel s a = Res.ok s') :
    lookup s'.heap a = none ∧ a ∉ s'.refchain := by
  cases fuel with
  | zero => simp [_Py_Dealloc] at h
  | succ fuel =>
    unfold _Py_Dealloc at h
    cases ho : lookup s.heap a with
    | none => simp [ho] at h
    | some o =>
      simp only [ho] at h
      obtain ⟨s2, h1, h2⟩ := Res.bind_eq_ok h
      cases ho2 : lookup s2.heap a with
      | none => simp [ho2] at h2
      | some o2 =>
        simp only [ho2] at h2
        cases h2
        refine ⟨lookup_free_eq _ _, ?_⟩
        have hd := decref_all_step (fun s a s' hc hT hr =>
          _Py_Dealloc_step (fun _ => True) fuel s a s' hc hT hr) o.held
          (heldClosed_true _) (fun _ _ => trivial) h1
        obtain ⟨q, hq⟩ := hd.2.2.1
        show a ∉ s2.refchain
        rw [hq]
        intro hmem
        have := (List.mem_filter.mp hmem).1
        have := (List.mem_filter.mp this).2
        simp at this

theorem marked_store_clear {h : Heap} {cur : Addr} {o : PyObject}
    (ho : lookup h cur = some o) (x : Addr) :
    marked (store h cur (PyMarkSweep_ClearFlag o)) x =
      if x = cur then false else marked h x := by
  unfold marked
  by_cases hx : x = cur
  · subst hx
    rw [lookup_store_eq _ (lookup_lt ho), if_pos rfl]
    exact isMarked_clearFlag o
  · rw [lookup_store_ne _ _ (Ne.symm hx), if_neg hx]

theorem DStep.marked_le {T : Addr → Prop} {s s' : State} (hd : DStep T s s') {x : Addr}
    (hm : marked s'.heap x = true) : marked s.heap x = true := by
  obtain ⟨o', ho', hmo'⟩ := marked_iff.mp hm
  cases ho : lookup s.heap x with
  | none => rw [(hd.2.2.2.2 x).2.1 ho] at ho'; cases ho'
  | some o =>
    rcases (hd.2.2.2.2 x).2.2 o ho with hn | ⟨rc, -, ho1⟩
    · rw [hn] at ho'; cases ho'
    · rw [ho1] at ho'
      cases ho'
      exact marked_iff.mpr ⟨o, ho, hmo'⟩

/-- After its visit a node is unmarked (or gone), and no visit sets a mark. -/
theorem sweep_visit_marked {dfuel : Nat} {s s1 : State} {cur : Addr} {o : PyObject}
    {e : SweepEvent} (ho : lookup s.heap cur = some o)
    (h : sweep_visit dfuel s cur o = Res.ok (s1, e)) (x : Addr)
    (hm : marked s1.heap x = true) : x ≠ cur ∧ marked s.heap x = true := by
  obtain ⟨-, -, hc | hc | hc⟩ := sweep_visit_cases h
  · obtain ⟨-, -, rfl⟩ := hc
    rw [marked_store_clear ho] at hm
    by_cases hx : x = cur
    · rw [if_pos hx] at hm; cases hm
    · rw [if_neg hx] at hm; exact ⟨hx, hm⟩
  · obtain ⟨hmo, -, -, rfl⟩ := hc
    refine ⟨?_, hm⟩
    rintro rfl
    obtain ⟨o', ho', hmo'⟩ := marked_iff.mp hm
    rw [ho] at ho'
    cases ho'
    rw [hmo] at hmo'
    cases hmo'
  · have hfree := _Py_Dealloc_frees hc.2.2.2
    have hd := _Py_Dealloc_step (fun _ => True) dfuel s cur s1 (heldClosed_true _) trivial
      hc.2.2.2
    refine ⟨?_, hd.marked_le hm⟩
    rintro rfl
    obtain ⟨o', ho', -⟩ := marked_iff.mp hm
    rw [hfree.1] at ho'
    cases ho'

/-- A visit seen from outside a held-closed set `T` that contains every object
the sweeper could deallocate: members outside `T` stay in the registry, objects
outside `T` other than the visited node are untouched, and a visited node
outside `T` is not deallocated, only its flag word is cleared if it was marked. -/
theorem sweep_visit_frame {T : Addr → Prop} {dfuel : Nat} {s s1 : State} {cur : Addr}
    {o : PyObject} {e : SweepEvent} (hc : HeldClosed T s.heap)
    (hz : ∀ a o, ¬ T a → lookup s.heap a = some o → o.ob_refcnt ≠ 0)
    (ho : lookup s.heap cur = some o)
    (h : sweep_visit dfuel s cur o = Res.ok (s1, e)) :
    HeldClosed T s1.heap ∧
      (∀ a o, ¬ T a → lookup s1.heap a = some o → o.ob_refcnt ≠ 0) ∧
      (∀ x ∈ s.refchain, ¬ T x → x ∈ s1.refchain) ∧
      (∀ x, ¬ T x → x ≠ cur → lookup s1.heap x = lookup s.heap x) ∧
      (¬ T cur →
        lookup s1.heap cur =
            some (if PyMarkSweep_IsMarked o = true then PyMarkSweep_ClearFlag o else o) ∧
          e.action ≠ SweepAction.dealloc) := by
  obtain ⟨-, -, hcase | hcase | hcase⟩ := sweep_visit_cases h
  · obtain ⟨hm, hact, rfl⟩ := hcase
    have hlt := lookup_lt ho
    refine ⟨?_, ?_, fun x hx _ => hx, ?_, ?_⟩
    · intro x o' hT ho' r hr
      by_cases hx : cur = x
      · subst hx
        rw [lookup_store_eq _ hlt] at ho'
        cases ho'
        exact hc cur o hT ho r hr
      · rw [lookup_store_ne _ _ hx] at ho'
        exact hc x o' hT ho' r hr
    · intro a o' hT ho'
      by_cases hx : cur = a
      · subst hx
        rw [lookup_store_eq _ hlt] at ho'
        cases ho'
        exact hz cur o hT ho
      · rw [lookup_store_ne _ _ hx] at ho'
        exact hz a o' hT ho'
    · intro x _ hx
      exact lookup_store_ne _ _ (Ne.symm hx)
    · intro _
      refine ⟨?_, by rw [hact]; simp⟩
      rw [if_pos hm]
      exact lookup_store_eq _ hlt
  · obtain ⟨hm, -, hact, rfl⟩ := hcase
    refine ⟨hc, hz, fun x hx _ => hx, fun x _ _ => rfl, fun _ => ⟨?_, by rw [hact]; simp⟩⟩
    rw [hm]
    simpa using ho
  · obtain ⟨hm, hrc, hact, hrun⟩ := hcase
    have hTcur : T cur := by
      by_contra hn
      exact hz cur o hn ho hrc
    have hd := _Py_Dealloc_step T dfuel s cur s1 hc hTcur hrun
    refine ⟨hd.heldClosed hc, ?_, ?_, fun x hx _ => (hd.2.2.2.2 x).1 hx,
      fun hn => absurd hTcur hn⟩
    · intro a o' hT ho'
      rw [(hd.2.2.2.2 a).1 hT] at ho'
      exact hz a o' hT ho'
    · intro x hx hT
      by_contra hnx
      exact hT (hd.2.2.2.1 x hx hnx).1

/-! ## Facts about a whole sweep -/

theorem SweepRun.registry_subset {dfuel : Nat} {s s' : State} {pre rest : List Addr}
    {log : List SweepEvent} (hrun : SweepRun dfuel s pre rest s' log) :
    ∀ x ∈ s'.refchain, x ∈ s.refchain := by
  induction hrun with
  | done _ => intro x hx; exact hx
  | visit q hreg hnd ho hvisit hq hnext _ ih =>
    intro x hx
    have := ih x hx
    rw [hq] at this
    exact (List.mem_filter.mp this).1

theorem sweep_visit_none {dfuel : Nat} {s s1 : State} {cur : Addr} {o : PyObject}
    {e : SweepEvent} (ho : lookup s.heap cur = some o)
    (h : sweep_visit dfuel s cur o = Res.ok (s1, e)) {x : Addr}
    (hx : lookup s.heap x = none) : lookup s1.heap x = none := by
  obtain ⟨-, -, hc | hc | hc⟩ := sweep_visit_cases h
  · obtain ⟨-, -, rfl⟩ := hc
    have hne : cur ≠ x := by
      rintro rfl
      rw [ho] at hx
      cases hx
    show lookup (store s.heap cur _) x = none
    rw [lookup_store_ne _ _ hne]
    exact hx
  · obtain ⟨-, -, -, rfl⟩ := hc
    exact hx
  · exact ((_Py_Dealloc_step (fun _ => True) dfuel s cur s1 (heldClosed_true _) trivial
      hc.2.2.2).2.2.2.2 x).2.1 hx

theorem SweepRun.none_persists {dfuel : Nat} {s s' : State} {pre rest : List Addr}
    {log : List SweepEvent} (hrun : SweepRun dfuel s pre rest s' log) :
    ∀ x, lookup s.heap x = none → lookup s'.heap x = none := by
  induction hrun with
  | done _ => intro x hx; exact hx
  | visit q hreg hnd ho hvisit hq hnext _ ih =>
    intro x hx
    exact ih x (sweep_visit_none ho hvisit hx)

/-- The branch taken at each visit is decided by the header read at the visit. -/
theorem SweepRun.actions {dfuel : Nat} {s s' : State} {pre rest : List Addr}
    {log : List SweepEvent} (hrun : SweepRun dfuel s pre rest s' log) :
    ∀ e ∈ log,
      e.action =
        if PyMarkSweep_IsMarked e.seen = true then SweepAction.skip
        else if e.seen.ob_refcnt ≠ 0 then SweepAction.referenced
        else SweepAction.dealloc := by
  induction hrun with
  | done _ => intro e he; simp at he
  | visit q hreg hnd ho hvisit hq hnext _ ih =>
    intro e he
    rcases List.mem_cons.mp he with rfl | hmem
    · obtain ⟨-, hseen, hc | hc | hc⟩ := sweep_visit_cases hvisit
      · rw [hseen, if_pos hc.1]; exact hc.2.1
      · rw [hseen, hc.1, if_neg (by simp), if_pos hc.2.1]; exact hc.2.2.1
      · rw [hseen, hc.1, if_neg (by simp), if_neg (by simp [hc.2.1])]; exact hc.2.2.1
    · exact ih e hmem

/-- A node on which the sweeper invoked deallocation is freed and unlinked. -/
theorem SweepRun.dealloc_gone {dfuel : Nat} {s s' : State} {pre rest : List Addr}
    {log : List SweepEvent} (hrun : SweepRun dfuel s pre rest s' log) :
    ∀ e ∈ log, e.action = SweepAction.dealloc →
      lookup s'.heap e.ob = none ∧ e.ob ∉ s'.refchain := by
  induction hrun with
  | done _ => intro e he; simp at he
  | visit q hreg hnd ho hvisit hq hnext hrest ih =>
    intro e he hact
    rcases List.mem_cons.mp he with rfl | hmem
    · obtain ⟨hob, -, hc | hc | hc⟩ := sweep_visit_cases hvisit
      · rw [hc.2.1] at hact; cases hact
      · rw [hc.2.2.1] at hact; cases hact
      · have hfree := _Py_Dealloc_frees hc.2.2.2
        rw [hob]
        exact ⟨hrest.none_persists _ hfree.1, fun hx => hfree.2 (hrest.registry_subset _ hx)⟩
    · exact ih e hmem hact

/-- Every node ahead of the cursor that is still in the registry at the end was visited. -/
theorem SweepRun.visited {dfuel : Nat} {s s' : State} {pre rest : List Addr}
    {log : List SweepEvent} (hrun : SweepRun dfuel s pre rest s' log) :
    ∀ x ∈ rest, x ∈ s'.refchain → ∃ e ∈ log, e.ob = x := by
  induction hrun with
  | done _ => intro x hx; simp at hx
  | visit q hreg hnd ho hvisit hq hnext hrest ih =>
    intro x hx hx'
    rcases List.mem_cons.mp hx with rfl | hmem
    · exact ⟨_, List.mem_cons_self _ _, (sweep_visit_cases hvisit).1⟩
    · have hx1 := hrest.registry_subset x hx'
      rw [hq] at hx1
      obtain ⟨e, he, hob⟩ := ih x (List.mem_filter.mpr ⟨hmem, (List.mem_filter.mp hx1).2⟩) hx'
      exact ⟨e, List.mem_cons_of_mem _ he, hob⟩

/-- After the pass no registry member has the `MARKED` bit set, provided the
nodes behind the cursor were unmarked at the start. -/
theorem SweepRun.no_marked_member {dfuel : Nat} {s s' : State} {pre rest : List Addr}
    {log : List SweepEvent} (hrun : SweepRun dfuel s pre rest s' log) :
    (∀ x ∈ pre, marked s.heap x = false) → ∀ x ∈ s'.refchain, marked s'.heap x = false := by
  induction hrun with
  | done hreg => intro hpre x hx; exact hpre x (hreg ▸ hx)
  | visit q hreg hnd ho hvisit hq hnext _ ih =>
    intro hpre
    apply ih
    intro x hx
    have hx0 := (List.mem_filter.mp hx).1
    cases hm : marked _ x with
    | false => rfl
    | true =>
      obtain ⟨hne, hm0⟩ := sweep_visit_marked ho hvisit x hm
      rcases List.mem_append.mp hx0 with hp | hc
      · rw [hpre x hp] at hm0; cases hm0
      · exact absurd (List.mem_singleton.mp hc) hne

/-- The sweep seen from outside a held-closed set `T` containing every
zero-refcount object: members outside `T` remain members; an object outside
`T` that is not ahead of the cursor is untouched; one ahead of the cursor is
visited, not deallocated, and ends as it was except that its flag word is
cleared if it was marked. -/
theorem SweepRun.frame {T : Addr → Prop} {dfuel : Nat} {s s' : State} {pre rest : List Addr}
    {log : List SweepEvent} (hrun : SweepRun dfuel s pre rest s' log) :
    HeldClosed T s.heap →
    (∀ a o, ¬ T a → lookup s.heap a = some o → o.ob_refcnt ≠ 0) →
    ∀ x, ¬ T x →
      (x ∈ s.refchain → x ∈ s'.refchain) ∧
      (x ∉ rest → lookup s'.heap x = lookup s.heap x) ∧
      (x ∈ rest → ∀ o, lookup s.heap x = some o →
        lookup s'.heap x =
            some (if PyMarkSweep_IsMarked o = true then PyMarkSweep_ClearFlag o else o) ∧
          ∃ e ∈ log, e.ob = x ∧ e.seen = o ∧ e.action ≠ SweepAction.dealloc) := by
  induction hrun with
  | done _ =>
    intro _ _ x _
    exact ⟨fun hx => hx, fun _ => rfl, fun hx => by simp at hx⟩
  | @visit s s1 s' pre rest cur o e log q hreg hnd ho hvisit hq hnext hrest ih =>
    intro hc hz x hT
    obtain ⟨hc1, hz1, hkeep, hsame, hcur⟩ := sweep_visit_frame hc hz ho hvisit
    obtain ⟨ihmem, ihout, ihin⟩ := ih hc1 hz1 x hT
    have hndr : (cur :: rest).Nodup := by
      rw [hreg] at hnd
      exact (List.nodup_append.mp hnd).2.1
    have hcur_rest : cur ∉ rest := (List.nodup_cons.mp hndr).1
    refine ⟨fun hx => ihmem (hkeep x hx hT), ?_, ?_⟩
    · intro hx
      have hxc : x ≠ cur := fun h => hx (h ▸ List.mem_cons_self _ _)
      have hxr : x ∉ rest.filter q := fun h =>
        hx (List.mem_cons_of_mem _ (List.mem_filter.mp h).1)
      rw [ihout hxr, hsame x hT hxc]
    · intro hx o' ho'
      rcases List.mem_cons.mp hx with rfl | hmem
      · rw [ho] at ho'
        cases ho'
        have hxr : x ∉ rest.filter q := fun h => hcur_rest (List.mem_filter.mp h).1
        obtain ⟨hl, hact⟩ := hcur hT
        obtain ⟨hob, hseen, -⟩ := sweep_visit_cases hvisit
        exact ⟨by rw [ihout hxr, hl], e, List.mem_cons_self _ _, hob, hseen, hact⟩
      · have hxc : x ≠ cur := fun h => hcur_rest (h ▸ hmem)
        have hx1 : x ∈ s1.refchain :=
          hkeep x (by rw [hreg]; exact List.mem_append_right _ (List.mem_cons_of_mem _ hmem)) hT
        rw [hq] at hx1
        have hxr : x ∈ rest.filter q := List.mem_filter.mpr ⟨hmem, (List.mem_filter.mp hx1).2⟩
        have ho1 : lookup s1.heap x = some o' := by rw [hsame x hT hxc]; exact ho'
        obtain ⟨hl, e', he', hrest'⟩ := ihin hxr o' ho1
        exact ⟨hl, e', List.mem_cons_of_mem _ he', hrest'⟩

/-! ## `sweep` as a whole -/

theorem sweep_trace_run {fuel : Nat} {s s' : State} {log : List SweepEvent}
    (hnd : s.refchain.Nodup) (h : sweep_trace fuel s = Res.ok (s', log)) :
    SweepRun fuel s [] s.refchain s' log :=
  sweep_loop_run fuel fuel s [] s.refchain s' log rfl hnd h

theorem positive_count_le_length (h : Heap) : positive_count h ≤ h.length :=
  count_objects_le_length _ h

theorem sweep_trace_no_timeout {fuel : Nat} {s : State} (hnd : s.refchain.Nodup)
    (hfuel : s.heap.length < fuel) (hreg : s.refchain.length ≤ fuel) :
    sweep_trace fuel s ≠ Res.timeout :=
  sweep_loop_no_timeout fuel fuel s [] s.refchain rfl hnd hreg
    (lt_of_le_of_lt (positive_count_le_length _) hfuel)

theorem FlagStep.fields {h h' : Heap} (hs : FlagStep h h') {a : Addr} {o' : PyObject}
    (ho' : lookup h' a = some o') :
    ∃ o, lookup h a = some o ∧ o'.held = o.held ∧ o'.ob_refcnt = o.ob_refcnt := by
  obtain ⟨o, ho, heq⟩ := hs.back ho'
  rcases heq with rfl | rfl
  · exact ⟨_, ho, rfl, rfl⟩
  · exact ⟨o, ho, rfl, rfl⟩

/-- C2 (as amended): two registry members `C` and `D` with reference count 1
each, to which no object other than `C` and `D` holds a reference, are not
deallocated by `run()`: the cycle ends (no timeout), and when it completes both
are still registry members with reference count 1. -/
theorem run_keeps_refcounted_cycle (fuel : Nat) (s : State) (C D : Addr) (oC oD : PyObject)
    (hnd : s.refchain.Nodup)
    (hC : lookup s.heap C = some oC) (hD : lookup s.heap D = some oD)
    (hrcC : oC.ob_refcnt = 1) (hrcD : oD.ob_refcnt = 1)
    (hCreg : C ∈ s.refchain) (hDreg : D ∈ s.refchain)
    (honly : held_closed (fun x => x != C && x != D) s.heap = true)
    (hfuel : s.heap.length < fuel) (hreg : s.refchain.length ≤ fuel) :
    run fuel s ≠ Res.timeout ∧
      ∀ s', run fuel s = Res.ok s' →
        C ∈ s'.refchain ∧ D ∈ s'.refchain ∧
        (∃ o, lookup s'.heap C = some o ∧ o.ob_refcnt = 1) ∧
        (∃ o, lookup s'.heap D = some o ∧ o.ob_refcnt = 1) := by
  obtain ⟨hmt, hmark⟩ := mark_all_outcome fuel s hfuel
  unfold run
  cases hm : mark_all fuel s with
  | timeout => exact absurd hm hmt
  | segv => exact ⟨by simp [Res.bind], fun s' h => by simp [Res.bind] at h⟩
  | ok s1 =>
    obtain ⟨hreg1, -, hfs⟩ := hmark s1 hm
    have hnd1 : s1.refchain.Nodup := hreg1 ▸ hnd
    have hnt := sweep_trace_no_timeout hnd1 (by rw [hfs.1]; exact hfuel) (by rw [hreg1]; exact hreg)
    simp only [Res.bind, sweep]
    cases hsw : sweep_trace fuel s1 with
    | timeout => exact absurd hsw hnt
    | segv => exact ⟨by simp [Res.bind], fun s' h => by simp [Res.bind] at h⟩
    | ok p =>
      refine ⟨by simp [Res.bind], ?_⟩
      intro s' hs'
      simp only [Res.bind] at hs'
      cases hs'
      have hrun := sweep_trace_run hnd1 hsw
      have hc0 := (held_closed_iff _ _).mp honly
      have hc1 : HeldClosed (fun x => (x != C && x != D) = true) s1.heap := by
        intro x o' hT ho' r hr
        obtain ⟨o, ho, hheld, -⟩ := hfs.fields ho'
        exact hc0 x o hT ho r (hheld ▸ hr)
      have hz1 : ∀ a o, ¬ ((a != C && a != D) = true) → lookup s1.heap a = some o →
          o.ob_refcnt ≠ 0 := by
        intro a o' hT ho'
        obtain ⟨o, ho, -, hrc⟩ := hfs.fields ho'
        have hcd : a = C ∨ a = D := by
          by_contra hne
          push_neg at hne
          exact hT (by simp [hne.1, hne.2])
        rcases hcd with rfl | rfl
        · rw [hC] at ho; cases ho; omega
        · rw [hD] at ho; cases ho; omega
      have key : ∀ x o, (x = C ∨ x = D) → lookup s.heap x = some o → o.ob_refcnt = 1 →
          x ∈ s.refchain →
          x ∈ p.1.refchain ∧ ∃ o', lookup p.1.heap x = some o' ∧ o'.ob_refcnt = 1 := by
        intro x o hx ho hrc hxreg
        have hT : ¬ ((x != C && x != D) = true) := by
          rcases hx with rfl | rfl <;> simp
        obtain ⟨hmem, -, hin⟩ := hrun.frame hc1 hz1 x hT
        have hx1 : x ∈ s1.refchain := hreg1 ▸ hxreg
        have ho1 : ∃ o1, lookup s1.heap x = some o1 ∧ o1.ob_refcnt = 1 := by
          rcases (hfs.2 x).2 o ho with h1 | h1
          · exact ⟨_, h1, hrc⟩
          · exact ⟨_, h1, hrc⟩
        obtain ⟨o1, ho1, hrc1⟩ := ho1
        refine ⟨hmem hx1, ?_⟩
        obtain ⟨hl, -⟩ := hin hx1 o1 ho1
        refine ⟨_, hl, ?_⟩
        by_cases hmk : PyMarkSweep_IsMarked o1 = true
        · rw [if_pos hmk]; exact hrc1
        · rw [if_neg hmk]; exact hrc1
      obtain ⟨hCm, hCo⟩ := key C oC (Or.inl rfl) hC hrcC hCreg
      obtain ⟨hDm, hDo⟩ := key D oD (Or.inr rfl) hD hrcD hDreg
      exact ⟨hCm, hDm, hCo, hDo⟩

/-- C2 (as amended) on the synthetic graph with the cycle `C ↔ D` at 3 and 4. -/
theorem run_keeps_refcounted_cycle_witness :
    run 6 chain_and_cycle ≠ Res.timeout ∧
      ∀ s', run 6 chain_and_cycle = Res.ok s' →
        3 ∈ s'.refchain ∧ 4 ∈ s'.refchain ∧
        (∃ o, lookup s'.heap 3 = some o ∧ o.ob_refcnt = 1) ∧
        (∃ o, lookup s'.heap 4 = some o ∧ o.ob_refcnt = 1) :=
  run_keeps_refcounted_cycle 6 chain_and_cycle 3 4 (container 1 0 [4]) (container 1 0 [3])
    (by decide) rfl rfl rfl rfl (by decide) (by decide) (by decide) (by decide) (by decide)

/-- In the synthetic graph only `R`, `A` and `B` are reachable from the root `R`. -/
theorem chain_and_cycle_reach {x : Nat} (h : Reach chain_and_cycle.heap (0 : Nat) x) :
    x ≤ 2 := by
  induction h with
  | refl => exact Nat.zero_le 2
  | @tail b c _ hedge ih =>
    obtain ⟨o, ho, hc⟩ := hedge
    have hb : b = 0 ∨ b = 1 ∨ b = 2 := by
      have hb2 : b ≤ 2 := ih
      omega
    rcases hb with rfl | rfl | rfl
    · have : o = container 1 0 [1] := by
        have h0 : lookup chain_and_cycle.heap 0 = some (container 1 0 [1]) := rfl
        rw [h0] at ho; cases ho; rfl
      subst this
      have : c = 1 := by simpa [out_refs, container] using hc
      rw [this]; decide
    · have : o = container 1 0 [2] := by
        have h0 : lookup chain_and_cycle.heap 1 = some (container 1 0 [2]) := rfl
        rw [h0] at ho; cases ho; rfl
      subst this
      have : c = 2 := by simpa [out_refs, container] using hc
      rw [this]
    · have : o = container 1 0 [] := by
        have h0 : lookup chain_and_cycle.heap 2 = some (container 1 0 []) := rfl
        rw [h0] at ho; cases ho; rfl
      subst this
      simp [out_refs, container] at hc

/-- C2 as stated fails: in the synthetic graph `C` and `D` (addresses 3 and 4)
reference each other, are reachable from no root and have reference count 1
each, yet `run()` leaves the whole state, `C` and `D` included, as it was. -/
theorem run_reclaims_cycle_counterexample :
    run 6 chain_and_cycle = Res.ok chain_and_cycle ∧
      3 ∈ chain_and_cycle.refchain ∧ 4 ∈ chain_and_cycle.refchain ∧
      lookup chain_and_cycle.heap 3 = some (container 1 0 [4]) ∧
      lookup chain_and_cycle.heap 4 = some (container 1 0 [3]) ∧
      ∀ r ∈ roots chain_and_cycle.runtime,
        ¬ Reach chain_and_cycle.heap r 3 ∧ ¬ Reach chain_and_cycle.heap r 4 := by
  refine ⟨by decide, by decide, by decide, rfl, rfl, ?_⟩
  intro r hr
  have hroots : roots chain_and_cycle.runtime = [0] := by decide
  rw [hroots] at hr
  have hr0 : r = 0 := by simpa using hr
  subst hr0
  constructor
  · intro h
    have := chain_and_cycle_reach h
    omega
  · intro h
    have := chain_and_cycle_reach h
    omega

/-- C3 (as amended): on a duplicate-free registry `sweep()` ends (no timeout),
and when it completes: it invoked deallocation only on nodes read as unmarked
with reference count exactly zero at their visit; a node read as unmarked with
a nonzero count was left alone at its visit; and every member `x` that is
unmarked and lies outside a held-closed set `T` containing all zero-refcount
objects (so no chain of held references leads to `x` from an object whose count
is zero) is still a member after the pass, its header (reference count and
clear mark flag included) unchanged, its visit recorded as not deallocated. -/
theorem sweep_conservative (fuel : Nat) (s : State) (T : Addr → Bool)
    (hnd : s.refchain.Nodup) (hT : held_closed T s.heap = true)
    (hz : zero_refcnt_within T s.heap = true)
    (hfuel : s.heap.length < fuel) (hreg : s.refchain.length ≤ fuel) :
    sweep_trace fuel s ≠ Res.timeout ∧
      ∀ s' log, sweep_trace fuel s = Res.ok (s', log) →
        (∀ e ∈ log, e.action = SweepAction.dealloc →
          PyMarkSweep_IsMarked e.seen = false ∧ e.seen.ob_refcnt = 0) ∧
        (∀ e ∈ log, PyMarkSweep_IsMarked e.seen = false → e.seen.ob_refcnt ≠ 0 →
          e.action = SweepAction.referenced) ∧
        (∀ x ∈ s.refchain, T x = false → ∀ o, lookup s.heap x = some o →
          PyMarkSweep_IsMarked o = false →
            x ∈ s'.refchain ∧ lookup s'.heap x = some o ∧
              ∃ e ∈ log, e.ob = x ∧ e.seen = o ∧ e.action = SweepAction.referenced) := by
  refine ⟨sweep_trace_no_timeout hnd hfuel hreg, ?_⟩
  intro s' log hrun
  have hsr := sweep_trace_run hnd hrun
  have hact := hsr.actions
  refine ⟨?_, ?_, ?_⟩
  · intro e he hd
    have := hact e he
    rw [hd] at this
    by_cases hm : PyMarkSweep_IsMarked e.seen = true
    · rw [if_pos hm] at this; cases this
    · rw [if_neg hm] at this
      by_cases hrc : e.seen.ob_refcnt ≠ 0
      · rw [if_pos hrc] at this; cases this
      · exact ⟨by simpa using hm, by simpa using hrc⟩
  · intro e he hm hrc
    have := hact e he
    rw [hm, if_neg (by simp), if_pos hrc] at this
    exact this
  · intro x hx hTx o ho hm
    have hc := (held_closed_iff T s.heap).mp hT
    have hz' : ∀ a o, ¬ (T a = true) → lookup s.heap a = some o → o.ob_refcnt ≠ 0 :=
      fun a o hTa ho => (zero_refcnt_within_iff T s.heap).mp hz a o ho (by simpa using hTa)
    obtain ⟨hmem, -, hin⟩ := hsr.frame hc hz' x (by simp [hTx])
    obtain ⟨hl, e, he, hob, hseen, -⟩ := hin hx o ho
    rw [hm, if_neg (by simp)] at hl
    refine ⟨hmem hx, hl, e, he, hob, hseen, ?_⟩
    have := hact e he
    rw [hseen, hm, if_neg (by simp),
      if_pos ((zero_refcnt_within_iff T s.heap).mp hz x o ho hTx)] at this
    exact this

/-- C3 (as amended) on a registry with an unmarked survivor (reference count
1) followed by garbage; `T` is the garbage alone. -/
theorem sweep_conservative_witness :
    sweep_trace 3 (survivor_and_garbage 0) ≠ Res.timeout ∧
      ∀ s' log, sweep_trace 3 (survivor_and_garbage 0) = Res.ok (s', log) →
        (∀ e ∈ log, e.action = SweepAction.dealloc →
          PyMarkSweep_IsMarked e.seen = false ∧ e.seen.ob_refcnt = 0) ∧
        (∀ e ∈ log, PyMarkSweep_IsMarked e.seen = false → e.seen.ob_refcnt ≠ 0 →
          e.action = SweepAction.referenced) ∧
        (∀ x ∈ (survivor_and_garbage 0).refchain, (fun a => a == 1) x = false →
          ∀ o, lookup (survivor_and_garbage 0).heap x = some o →
            PyMarkSweep_IsMarked o = false →
              x ∈ s'.refchain ∧ lookup s'.heap x = some o ∧
                ∃ e ∈ log, e.ob = x ∧ e.seen = o ∧ e.action = SweepAction.referenced) :=
  sweep_conservative 3 (survivor_and_garbage 0) (fun a => a == 1) (by decide) (by decide)
    (by decide) (by decide) (by decide)

/-- C3 as stated fails: `X` (address 0) is unmarked with reference count 1 when
the sweeper visits it and is left alone, but the later deallocation of `Z`
releases the reference to `X`, whose count drops to zero; after the pass `X` is
neither in the registry nor allocated. -/
theorem sweep_conservative_counterexample :
    sweep_trace 3 late_release =
      Res.ok (rootless [none, none] [],
        [⟨0, plain_object 1 0 [], SweepAction.referenced⟩,
         ⟨1, plain_object 0 0 [0], SweepAction.dealloc⟩]) ∧
    0 ∈ late_release.refchain ∧
    lookup late_release.heap 0 = some (plain_object 1 0 []) ∧
    PyMarkSweep_IsMarked (plain_object 1 0 []) = false := by
  decide

/-- C5 at the failing input: `X` has reference count 0 and holds the only
reference to its successor `Y`; deallocating `X` cascades into `Y`, the captured
`next`, and the following iteration dereferences freed memory. -/
theorem sweep_cursor_use_after_free :
    sweep 3 successor_freed = Res.segv ∧
    sweep_visit 3 successor_freed 0 (plain_object 0 0 [1]) =
      Res.ok (rootless [none, none] [], ⟨0, plain_object 0 0 [1], SweepAction.dealloc⟩) ∧
    ob_next successor_freed.refchain 0 = some (some 1) := by
  decide

/-- C7 (as amended): the sweeper does not look at GC eligibility. On a
duplicate-free registry `sweep()` ends, and when it completes: a visited node
that is not GC-eligible was deallocated by the sweeper exactly when it was read
as unmarked with reference count zero; every node the sweeper deallocated is
freed and no longer a registry member; and every member still in the registry
after the pass was visited. -/
theorem sweep_ignores_eligibility (fuel : Nat) (s : State)
    (hnd : s.refchain.Nodup) (hfuel : s.heap.length < fuel)
    (hreg : s.refchain.length ≤ fuel) :
    sweep_trace fuel s ≠ Res.timeout ∧
      ∀ s' log, sweep_trace fuel s = Res.ok (s', log) →
        (∀ e ∈ log, e.seen.is_gc = false →
          (e.action = SweepAction.dealloc ↔
            PyMarkSweep_IsMarked e.seen = false ∧ e.seen.ob_refcnt = 0)) ∧
        (∀ e ∈ log, e.action = SweepAction.dealloc →
          lookup s'.heap e.ob = none ∧ e.ob ∉ s'.refchain) ∧
        (∀ x ∈ s.refchain, x ∈ s'.refchain → ∃ e ∈ log, e.ob = x) := by
  refine ⟨sweep_trace_no_timeout hnd hfuel hreg, ?_⟩
  intro s' log hrun
  have hsr := sweep_trace_run hnd hrun
  refine ⟨?_, hsr.dealloc_gone, hsr.visited⟩
  intro e he _
  have := hsr.actions e he
  constructor
  · intro hd
    rw [hd] at this
    by_cases hm : PyMarkSweep_IsMarked e.seen = true
    · rw [if_pos hm] at this; cases this
    · rw [if_neg hm] at this
      by_cases hrc : e.seen.ob_refcnt ≠ 0
      · rw [if_pos hrc] at this; cases this
      · exact ⟨by simpa using hm, by simpa using hrc⟩
  · rintro ⟨hm, hrc⟩
    rw [hm, if_neg (by simp), if_neg (by simp [hrc])] at this
    exact this

/-- C7 (as amended) on a registry holding one ineligible object with reference
count zero. -/
theorem sweep_ignores_eligibility_witness :
    sweep_trace 2 ineligible_garbage ≠ Res.timeout ∧
      ∀ s' log, sweep_trace 2 ineligible_garbage = Res.ok (s', log) →
        (∀ e ∈ log, e.seen.is_gc = false →
          (e.action = SweepAction.dealloc ↔
            PyMarkSweep_IsMarked e.seen = false ∧ e.seen.ob_refcnt = 0)) ∧
        (∀ e ∈ log, e.action = SweepAction.dealloc →
          lookup s'.heap e.ob = none ∧ e.ob ∉ s'.refchain) ∧
        (∀ x ∈ ineligible_garbage.refchain, x ∈ s'.refchain → ∃ e ∈ log, e.ob = x) :=
  sweep_ignores_eligibility 2 ineligible_garbage (by decide) (by decide) (by decide)

/-- C7 as stated fails: the only registry member is not GC-eligible
(`PyObject_IS_GC` false), unmarked, with reference count zero; the sweeper
invokes deallocation on it, and afterwards it is freed and the registry empty. -/
theorem sweep_ineligible_counterexample :
    lookup ineligible_garbage.heap 0 = some (plain_object 0 0 []) ∧
    (plain_object 0 0 []).is_gc = false ∧
    0 ∈ ineligible_garbage.refchain ∧
    sweep_trace 2 ineligible_garbage =
      Res.ok (rootless [none] [], [⟨0, plain_object 0 0 [], SweepAction.dealloc⟩]) := by
  decide

/-- C8 (as amended): on a duplicate-free registry `sweep()` ends, and when it
completes: every node read as marked at its visit took the flag-clearing branch
(it was not deallocated by the sweeper); every marked member `x` outside a
held-closed set `T` containing all zero-refcount objects (so no chain of held
references leads to `x` from an object whose count is zero) is still a member
after the pass, with the same reference count and all flag bits zero; and no
registry member has the `MARKED` bit set. -/
theorem sweep_clears_marked_survivors (fuel : Nat) (s : State) (T : Addr → Bool)
    (hnd : s.refchain.Nodup) (hT : held_closed T s.heap = true)
    (hz : zero_refcnt_within T s.heap = true)
    (hfuel : s.heap.length < fuel) (hreg : s.refchain.length ≤ fuel) :
    sweep_trace fuel s ≠ Res.timeout ∧
      ∀ s' log, sweep_trace fuel s = Res.ok (s', log) →
        (∀ e ∈ log, PyMarkSweep_IsMarked e.seen = true → e.action = SweepAction.skip) ∧
        (∀ x ∈ s.refchain, T x = false → ∀ o, lookup s.heap x = some o →
          PyMarkSweep_IsMarked o = true →
            x ∈ s'.refchain ∧ lookup s'.heap x = some { o with ob_msflags := 0 }) ∧
        (∀ x ∈ s'.refchain, marked s'.heap x = false) := by
  refine ⟨sweep_trace_no_timeout hnd hfuel hreg, ?_⟩
  intro s' log hrun
  have hsr := sweep_trace_run hnd hrun
  refine ⟨?_, ?_, hsr.no_marked_member (fun x hx => by simp at hx)⟩
  · intro e he hm
    have := hsr.actions e he
    rw [if_pos hm] at this
    exact this
  · intro x hx hTx o ho hm
    have hc := (held_closed_iff T s.heap).mp hT
    have hz' : ∀ a o, ¬ (T a = true) → lookup s.heap a = some o → o.ob_refcnt ≠ 0 :=
      fun a o hTa ho => (zero_refcnt_within_iff T s.heap).mp hz a o ho (by simpa using hTa)
    obtain ⟨hmem, -, hin⟩ := hsr.frame hc hz' x (by simp [hTx])
    obtain ⟨hl, -⟩ := hin hx o ho
    rw [if_pos hm, clearFlag_eq] at hl
    exact ⟨hmem hx, hl⟩

/-- C8 (as amended) on a registry with a marked survivor followed by garbage;
`T` is the garbage alone. -/
theorem sweep_clears_marked_survivors_witness :
    sweep_trace 3 (survivor_and_garbage 1) ≠ Res.timeout ∧
      ∀ s' log, sweep_trace 3 (survivor_and_garbage 1) = Res.ok (s', log) →
        (∀ e ∈ log, PyMarkSweep_IsMarked e.seen = true → e.action = SweepAction.skip) ∧
        (∀ x ∈ (survivor_and_garbage 1).refchain, (fun a => a == 1) x = false →
          ∀ o, lookup (survivor_and_garbage 1).heap x = some o →
            PyMarkSweep_IsMarked o = true →
              x ∈ s'.refchain ∧ lookup s'.heap x = some { o with ob_msflags := 0 }) ∧
        (∀ x ∈ s'.refchain, marked s'.heap x = false) :=
  sweep_clears_marked_survivors 3 (survivor_and_garbage 1) (fun a => a == 1) (by decide)
    (by decide) (by decide) (by decide) (by decide)

/-- C8 as stated fails: `M` (address 0) is marked with reference count 2 when
the sweeper reaches it; the later deallocation of `Z` releases one reference to
`M`, so after the pass `M` is a registry member with flag word 0 but reference
count 1, not 2. -/
theorem sweep_marked_refcount_counterexample :
    lookup marked_then_released.heap 0 = some (plain_object 2 1 []) ∧
    PyMarkSweep_IsMarked (plain_object 2 1 []) = true ∧
    sweep_trace 3 marked_then_released =
      Res.ok (rootless [some (plain_object 1 0 []), none] [0],
        [⟨0, plain_object 2 1 [], SweepAction.skip⟩,
         ⟨1, plain_object 0 0 [0], SweepAction.dealloc⟩]) := by
  decide

/-! ## The reference-count invariant -/

theorem sum_map_filter_ne (f : Addr → Nat) (a : Addr) :
    ∀ l : List Addr, l.Nodup → a ∈ l →
      (l.map f).sum = f a + ((l.filter fun x => x != a).map f).sum := by
  intro l
  induction l with
  | nil => intro _ h; simp at h
  | cons y t ih =>
    intro hnd hmem
    have hyt : y ∉ t := (List.nodup_cons.mp hnd).1
    have hndt : t.Nodup := (List.nodup_cons.mp hnd).2
    by_cases hya : y = a
    · subst hya
      have hfil : (t.filter fun x => x != y) = t := by
        rw [List.filter_eq_self]
        intro x hx
        have : x ≠ y := fun h => hyt (h ▸ hx)
        simpa using this
      simp [List.filter_cons, hfil]
    · have hat : a ∈ t := by
        rcases List.mem_cons.mp hmem with h | h
        · exact absurd h.symm hya
        · exact h
      have := ih hndt hat
      simp only [List.map_cons, List.sum_cons, List.filter_cons]
      have hne : (y != a) = true := by simpa using hya
      rw [hne]
      simp only [if_true, List.map_cons, List.sum_cons]
      omega

theorem holders_congr (s s1 : State) (hreg : s1.refchain = s.refchain)
    (hheld : ∀ y ∈ s.refchain, held_of s1.heap y = held_of s.heap y) (x : Addr) :
    holders s1 x = holders s x := by
  unfold holders
  rw [hreg]
  congr 1
  apply List.map_congr_left
  intro y hy
  rw [hheld y hy]

theorem le_holders {s : State} {y x : Addr} (hy : y ∈ s.refchain) :
    (held_of s.heap y).count x ≤ holders s x := by
  unfold holders
  exact List.single_le_sum (fun _ _ => Nat.zero_le _) _
    (List.mem_map.mpr ⟨y, hy, rfl⟩)

theorem held_of_store {h : Heap} {r : Addr} {o v : PyObject} (ho : lookup h r = some o)
    (hv : v.held = o.held) (y : Addr) : held_of (store h r v) y = held_of h y := by
  unfold held_of
  by_cases hry : r = y
  · subst hry
    rw [lookup_store_eq _ (lookup_lt ho), ho]
    exact hv
  · rw [lookup_store_ne _ _ hry]

theorem rc_of_store {h : Heap} {r : Addr} {o v : PyObject} (ho : lookup h r = some o)
    (y : Addr) : rc_of (store h r v) y = if y = r then some v.ob_refcnt else rc_of h y := by
  unfold rc_of
  by_cases hry : y = r
  · subst hry
    rw [lookup_store_eq _ (lookup_lt ho), if_pos rfl]
    rfl
  · rw [lookup_store_ne _ _ (Ne.symm hry), if_neg hry]

theorem rc_of_free (h : Heap) (a y : Addr) :
    rc_of (free h a) y = if y = a then none else rc_of h y := by
  unfold rc_of
  by_cases hay : y = a
  · subst hay
    rw [lookup_free_eq, if_pos rfl]
    rfl
  · rw [lookup_free_ne _ (Ne.symm hay), if_neg hay]

theorem held_of_free_ne (h : Heap) {a y : Addr} (hay : y ≠ a) :
    held_of (free h a) y = held_of h y := by
  unfold held_of
  rw [lookup_free_ne _ (Ne.symm hay)]

/-- The invariant only reads held references and reference counts. -/
theorem RCInv.congr {s0 s s1 : State} {pend : List Addr} (hinv : RCInv s0 s pend)
    (hreg : s1.refchain = s.refchain) (hrt : s1.runtime = s.runtime)
    (hheld : ∀ y, held_of s1.heap y = held_of s.heap y)
    (hrc : ∀ y, rc_of s1.heap y = rc_of s.heap y) : RCInv s0 s1 pend := by
  obtain ⟨hnd, hr, hJ, hB, hK⟩ := hinv
  have hinc : ∀ x, incoming s1 pend x = incoming s pend x := by
    intro x
    unfold incoming
    rw [holders_congr s s1 hreg (fun y _ => hheld y) x, hrt]
  refine ⟨hreg ▸ hnd, hrt.trans hr, ?_, ?_, ?_⟩
  · intro x rc hx
    rw [hinc]
    exact hJ x rc (hrc x ▸ hx)
  · intro x rc hx hnx
    exact hB x rc (hrc x ▸ hx) (hreg ▸ hnx)
  · intro x h0 hx
    rw [hinc]
    exact hK x h0 (hrc x ▸ hx)

theorem Py_DECREF_inv {s0 : State} {d : State → Addr → Res State}
    (hd : ∀ s a s' pend, RCInv s0 s pend → a ∈ s.refchain →
      (∃ rc, rc_of s.heap a = some rc ∧ rc ≤ 0) → d s a = Res.ok s' → RCInv s0 s' pend)
    {s s' : State} {r : Addr} {pend : List Addr} (hinv : RCInv s0 s (r :: pend))
    (hrun : Py_DECREF d s r = Res.ok s') : RCInv s0 s' pend := by
  unfold Py_DECREF at hrun
  cases ho : lookup s.heap r with
  | none => simp [ho] at hrun
  | some o =>
    simp only [ho] at hrun
    obtain ⟨hnd, hr, hJ, hB, hK⟩ := hinv
    have hrc_r : rc_of s.heap r = some o.ob_refcnt := by simp [rc_of, ho]
    have hJr := hJ r _ hrc_r
    have hpos : (1 : Int) ≤ o.ob_refcnt := by
      have : 1 ≤ incoming s (r :: pend) r := by
        unfold incoming
        simp [List.count_cons]
        omega
      omega
    have hrmem : r ∈ s.refchain := by
      by_contra hn
      have := hB r _ hrc_r hn
      omega
    have hheld : ∀ y, held_of (store s.heap r { o with ob_refcnt := o.ob_refcnt - 1 }) y =
        held_of s.heap y := held_of_store ho rfl
    have hinc : ∀ x,
        incoming { s with heap := store s.heap r { o with ob_refcnt := o.ob_refcnt - 1 } } pend x
          + (if x = r then 1 else 0) = incoming s (r :: pend) x := by
      intro x
      unfold incoming
      rw [holders_congr s { s with heap := store s.heap r { o with ob_refcnt := o.ob_refcnt - 1 } }
        rfl (fun y _ => hheld y) x]
      by_cases hx : x = r
      · subst hx; simp [List.count_cons]; omega
      · have : (r == x) = false := by simpa using Ne.symm hx
        simp [List.count_cons, hx, this]
    have hinv1 : RCInv s0
        { s with heap := store s.heap r { o with ob_refcnt := o.ob_refcnt - 1 } } pend := by
      refine ⟨hnd, hr, ?_, ?_, ?_⟩
      · intro x rc hx
        rw [rc_of_store ho] at hx
        have hi := hinc x
        by_cases hxr : x = r
        · rw [if_pos hxr] at hx hi
          cases hx
          subst hxr
          show (incoming _ pend x : Int) ≤ o.ob_refcnt - 1
          omega
        · rw [if_neg hxr] at hx hi
          have := hJ x rc hx
          omega
      · intro x rc hx hnx
        rw [rc_of_store ho] at hx
        by_cases hxr : x = r
        · subst hxr; exact absurd hrmem hnx
        · rw [if_neg hxr] at hx
          exact hB x rc hx hnx
      · intro x h0 hx
        rw [rc_of_store ho] at hx
        by_cases hxr : x = r
        · rw [if_pos hxr] at hx; cases hx
        · rw [if_neg hxr] at hx
          have hi := hinc x
          rw [if_neg hxr] at hi
          have := hK x h0 hx
          omega
    by_cases hz : o.ob_refcnt - 1 = 0
    · rw [if_neg (by simpa using hz)] at hrun
      refine hd _ r s' pend hinv1 hrmem ⟨o.ob_refcnt - 1, ?_, by omega⟩ hrun
      show rc_of (store s.heap r _) r = _
      rw [rc_of_store ho, if_pos rfl]
    · rw [if_pos hz] at hrun
      cases hrun
      exact hinv1

theorem decref_all_inv {s0 : State} {d : State → Addr → Res State}
    (hd : ∀ s a s' pend, RCInv s0 s pend → a ∈ s.refchain →
      (∃ rc, rc_of s.heap a = some rc ∧ rc ≤ 0) → d s a = Res.ok s' → RCInv s0 s' pend)
    (l : List Addr) :
    ∀ {s s' : State} {pend : List Addr}, RCInv s0 s (l ++ pend) →
      decref_all d s l = Res.ok s' → RCInv s0 s' pend := by
  induction l with
  | nil =>
    intro s s' pend hinv hrun
    simp only [decref_all] at hrun
    cases hrun
    simpa using hinv
  | cons r rest ih =>
    intro s s' pend hinv hrun
    simp only [decref_all] at hrun
    obtain ⟨s1, h1, h2⟩ := Res.bind_eq_ok hrun
    exact ih (Py_DECREF_inv hd (by simpa using hinv) h1) h2

theorem _Py_Dealloc_inv (s0 : State) :
    ∀ (fuel : Nat) (s : State) (a : Addr) (s' : State) (pend : List Addr),
      RCInv s0 s pend → a ∈ s.refchain → (∃ rc, rc_of s.heap a = some rc ∧ rc ≤ 0) →
      _Py_Dealloc fuel s a = Res.ok s' → RCInv s0 s' pend := by
  intro fuel
  induction fuel with
  | zero => intro s a s' pend _ _ _ hrun; simp [_Py_Dealloc] at hrun
  | succ fuel ih =>
    intro s a s' pend hinv hmem hrc hrun
    unfold _Py_Dealloc at hrun
    cases ho : lookup s.heap a with
    | none => simp [ho] at hrun
    | some o =>
      simp only [ho] at hrun
      obtain ⟨s2, h1, h2⟩ := Res.bind_eq_ok hrun
      cases ho2 : lookup s2.heap a with
      | none => simp [ho2] at h2
      | some o2 =>
        simp only [ho2] at h2
        cases h2
        obtain ⟨hnd, hr, hJ, hB, hK⟩ := hinv
        obtain ⟨rc, hrca, hrc0⟩ := hrc
        have hrco : rc = o.ob_refcnt := by
          simp [rc_of, ho] at hrca; exact hrca.symm
        subst hrco
        have hheld_a : held_of s.heap a = o.held := by simp [held_of, ho]
        -- the state after unlinking, with the held references pending
        have hsplit : ∀ x, holders (_Py_ForgetReference s a) x + o.held.count x = holders s x := by
          intro x
          unfold holders
          rw [sum_map_filter_ne (fun y => (held_of s.heap y).count x) a s.refchain hnd hmem,
            hheld_a]
          show (List.map (fun y => (held_of s.heap y).count x)
            (List.filter (fun x => x != a) s.refchain)).sum + _ = _
          omega
        have hinc1 : ∀ x, incoming (_Py_ForgetReference s a) (o.held ++ pend) x =
            incoming s pend x := by
          intro x
          have := hsplit x
          unfold incoming
          rw [List.count_append]
          show holders (_Py_ForgetReference s a) x + (roots s.runtime).count x + _ = _
          omega
        have hinv1 : RCInv s0 (_Py_ForgetReference s a) (o.held ++ pend) := by
          refine ⟨hnd.filter _, hr, ?_, ?_, ?_⟩
          · intro x rc hx
            rw [hinc1]
            exact hJ x rc hx
          · intro x rc hx hnx
            change rc_of s.heap x = some rc at hx
            by_cases hxa : x = a
            · subst hxa
              rw [hrca] at hx
              cases hx
              exact hrc0
            · apply hB x rc hx
              intro hxm
              apply hnx
              show x ∈ List.filter (fun x => x != a) s.refchain
              exact List.mem_filter.mpr ⟨hxm, by simpa using hxa⟩
          · intro x h0 hx
            rw [hinc1]
            exact hK x h0 hx
        have hinv2 : RCInv s0 s2 pend := decref_all_inv ih o.held hinv1 h1
        have hd2 : DStep (fun _ => True) (_Py_ForgetReference s a) s2 :=
          decref_all_step (fun s a s' hc hT hr =>
            _Py_Dealloc_step (fun _ => True) fuel s a s' hc hT hr) o.held
            (heldClosed_true _) (fun _ _ => trivial) h1
        have ha2 : a ∉ s2.refchain := by
          obtain ⟨q, hq⟩ := hd2.2.2.1
          rw [hq]
          intro hm
          have := (List.mem_filter.mp (List.mem_filter.mp hm).1).2
          simp at this
        have hrc2 : o2.ob_refcnt ≤ 0 := by
          rcases (hd2.2.2.2.2 a).2.2 o ho with hn | ⟨rc, hle, ho'⟩
          · rw [hn] at ho2; cases ho2
          · rw [ho'] at ho2
            cases ho2
            show rc ≤ 0
            omega
        obtain ⟨hnd2, hr2, hJ2, hB2, hK2⟩ := hinv2
        have hinc3 : ∀ x, incoming { s2 with heap := free s2.heap a } pend x =
            incoming s2 pend x := by
          intro x
          unfold incoming
          rw [holders_congr s2 { s2 with heap := free s2.heap a } rfl
            (fun y hy => held_of_free_ne _ (fun h => ha2 (h ▸ hy))) x]
        refine ⟨hnd2, hr2, ?_, ?_, ?_⟩
        · intro x rc hx
          rw [hinc3]
          rw [rc_of_free] at hx
          by_cases hxa : x = a
          · rw [if_pos hxa] at hx; cases hx
          · rw [if_neg hxa] at hx
            exact hJ2 x rc hx
        · intro x rc hx hnx
          rw [rc_of_free] at hx
          by_cases hxa : x = a
          · rw [if_pos hxa] at hx; cases hx
          · rw [if_neg hxa] at hx
            exact hB2 x rc hx hnx
        · intro x h0 hx
          rw [hinc3]
          rw [rc_of_free] at hx
          by_cases hxa : x = a
          · subst hxa
            have := hJ2 x o2.ob_refcnt (by simp [rc_of, ho2])
            omega
          · rw [if_neg hxa] at hx
            exact hK2 x h0 hx

theorem FlagStep.held_of_eq {h h' : Heap} (hs : FlagStep h h') (y : Addr) :
    held_of h' y = held_of h y := by
  unfold held_of
  cases ho : lookup h y with
  | none => rw [(hs.2 y).1 ho]
  | some o =>
    rcases (hs.2 y).2 o ho with h1 | h1
    · rw [h1]
    · rw [h1]; rfl

theorem FlagStep.rc_of_eq {h h' : Heap} (hs : FlagStep h h') (y : Addr) :
    rc_of h' y = rc_of h y := by
  unfold rc_of
  cases ho : lookup h y with
  | none => rw [(hs.2 y).1 ho]
  | some o =>
    rcases (hs.2 y).2 o ho with h1 | h1
    · rw [h1]
    · rw [h1]; rfl

theorem sweep_visit_inv {s0 : State} {dfuel : Nat} {s s1 : State} {cur : Addr} {o : PyObject}
    {e : SweepEvent} (hinv : RCInv s0 s []) (hmem : cur ∈ s.refchain)
    (ho : lookup s.heap cur = some o)
    (h : sweep_visit dfuel s cur o = Res.ok (s1, e)) : RCInv s0 s1 [] := by
  obtain ⟨-, -, hc | hc | hc⟩ := sweep_visit_cases h
  · obtain ⟨-, -, rfl⟩ := hc
    refine hinv.congr rfl rfl (held_of_store ho rfl) ?_
    intro y
    show rc_of (store s.heap cur _) y = _
    rw [rc_of_store ho]
    by_cases hy : y = cur
    · subst hy
      rw [if_pos rfl]
      simp [rc_of, ho, PyMarkSweep_ClearFlag]
    · rw [if_neg hy]
  · obtain ⟨-, -, -, rfl⟩ := hc
    exact hinv
  · exact _Py_Dealloc_inv s0 dfuel s cur s1 [] hinv hmem
      ⟨o.ob_refcnt, by simp [rc_of, ho], by rw [hc.2.1]⟩ hc.2.2.2

theorem sweep_loop_inv (s0 : State) (dfuel : Nat) :
    ∀ (fuel : Nat) (s : State) (cur : Option Addr) (s' : State) (log : List SweepEvent),
      RCInv s0 s [] → sweep_loop dfuel fuel s cur = Res.ok (s', log) → RCInv s0 s' [] := by
  intro fuel
  induction fuel with
  | zero =>
    intro s cur s' log hinv hrun
    cases cur with
    | none => simp only [sweep_loop] at hrun; cases hrun; exact hinv
    | some c => simp [sweep_loop] at hrun
  | succ fuel ih =>
    intro s cur s' log hinv hrun
    cases cur with
    | none => simp only [sweep_loop] at hrun; cases hrun; exact hinv
    | some c =>
      simp only [sweep_loop] at hrun
      cases hn : ob_next s.refchain c with
      | none => simp [hn] at hrun
      | some next =>
        cases ho : lookup s.heap c with
        | none => simp [hn, ho] at hrun
        | some o =>
          simp only [hn, ho] at hrun
          obtain ⟨p, hvis, hrest⟩ := Res.bind_eq_ok hrun
          obtain ⟨r, hloop, hres⟩ := Res.bind_eq_ok hrest
          cases hres
          exact ih p.1 next r.1 r.2 (sweep_visit_inv hinv (ob_next_mem hn) ho hvis) hloop

theorem all_registered_iff (s : State) :
    all_registered s = true ↔ ∀ x o, lookup s.heap x = some o → x ∈ s.refchain := by
  unfold all_registered
  rw [all_indexed_iff]
  simp

theorem refcounts_cover_iff (s : State) :
    refcounts_cover s = true ↔
      ∀ x o, lookup s.heap x = some o → (incoming s [] x : Int) ≤ o.ob_refcnt := by
  unfold refcounts_cover
  rw [all_indexed_iff]
  simp

theorem RCInv.initial {s : State} (hnd : s.refchain.Nodup)
    (hreg : all_registered s = true) (hrc : refcounts_cover s = true) : RCInv s s [] := by
  refine ⟨hnd, rfl, ?_, ?_, ?_⟩
  · intro x rc hx
    unfold rc_of at hx
    cases ho : lookup s.heap x with
    | none => rw [ho] at hx; cases hx
    | some o =>
      rw [ho] at hx
      cases hx
      exact (refcounts_cover_iff s).mp hrc x o ho
  · intro x rc hx hnx
    unfold rc_of at hx
    cases ho : lookup s.heap x with
    | none => rw [ho] at hx; cases hx
    | some o => exact absurd ((all_registered_iff s).mp hreg x o ho) hnx
  · intro x h0 hx
    unfold rc_of at hx
    cases ho : lookup s.heap x with
    | none => rw [ho] at h0; cases h0
    | some o => rw [ho] at hx; cases hx

/-- Under the invariant no registry member and no root holds a reference to an
object freed since the start of the cycle. -/
theorem RCInv.no_dangling {s0 s : State} (hinv : RCInv s0 s []) :
    (∀ y ∈ s.refchain, ∀ o, lookup s.heap y = some o → ∀ r ∈ o.held,
      (lookup s0.heap r).isSome = true → (lookup s.heap r).isSome = true) ∧
    (∀ r ∈ roots s.runtime,
      (lookup s0.heap r).isSome = true → (lookup s.heap r).isSome = true) := by
  obtain ⟨-, -, -, -, hK⟩ := hinv
  have key : ∀ r, (lookup s0.heap r).isSome = true → 0 < incoming s [] r →
      (lookup s.heap r).isSome = true := by
    intro r h0 hpos
    cases hl : lookup s.heap r with
    | some o => rfl
    | none =>
      have := hK r h0 (by simp [rc_of, hl])
      omega
  constructor
  · intro y hy o ho r hr h0
    apply key r h0
    have h1 : 0 < (held_of s.heap y).count r := by
      simp only [held_of, ho]
      exact List.count_pos_iff.mpr hr
    have h2 := le_holders (x := r) hy
    unfold incoming
    omega
  · intro r hr h0
    apply key r h0
    have h1 : 0 < (roots s.runtime).count r := List.count_pos_iff.mpr hr
    unfold incoming
    omega

/-- C4: take a state with a duplicate-free registry containing every allocated
object, in which each object's reference count is at least the number of
references held to it by roots and by registry members, deallocation being the
cascading release modelled by `_Py_Dealloc`. Then `run()` ends (no timeout), and
when it completes no surviving registry member and no root holds a reference to
an object deallocated during the cycle. -/
theorem run_leaves_no_dangling_reference (fuel : Nat) (s : State)
    (hnd : s.refchain.Nodup) (hreg : all_registered s = true)
    (hrc : refcounts_cover s = true)
    (hfuel : s.heap.length < fuel) (hlen : s.refchain.length ≤ fuel) :
    run fuel s ≠ Res.timeout ∧
      ∀ s', run fuel s = Res.ok s' →
        (∀ y ∈ s'.refchain, ∀ o, lookup s'.heap y = some o → ∀ r ∈ o.held,
          (lookup s.heap r).isSome = true → (lookup s'.heap r).isSome = true) ∧
        (∀ r ∈ roots s'.runtime,
          (lookup s.heap r).isSome = true → (lookup s'.heap r).isSome = true) := by
  obtain ⟨hmt, hmark⟩ := mark_all_outcome fuel s hfuel
  unfold run
  cases hm : mark_all fuel s with
  | timeout => exact absurd hm hmt
  | segv => exact ⟨by simp [Res.bind], fun s' h => by simp [Res.bind] at h⟩
  | ok s1 =>
    obtain ⟨hreg1, hrt1, hfs⟩ := hmark s1 hm
    have hnd1 : s1.refchain.Nodup := hreg1 ▸ hnd
    have hnt := sweep_trace_no_timeout hnd1 (by rw [hfs.1]; exact hfuel)
      (by rw [hreg1]; exact hlen)
    simp only [Res.bind, sweep]
    cases hsw : sweep_trace fuel s1 with
    | timeout => exact absurd hsw hnt
    | segv => exact ⟨by simp [Res.bind], fun s' h => by simp [Res.bind] at h⟩
    | ok p =>
      refine ⟨by simp [Res.bind], ?_⟩
      intro s' hs'
      simp only [Res.bind] at hs'
      cases hs'
      have hinv1 : RCInv s s1 [] :=
        (RCInv.initial hnd hreg hrc).congr hreg1 hrt1 hfs.held_of_eq hfs.rc_of_eq
      exact (sweep_loop_inv s fuel fuel s1 _ p.1 p.2 hinv1 hsw).no_dangling

/-- C4 on a consistent heap with garbage: the hypotheses hold, hence the
statement; concretely the cycle frees the garbage `G` and, by cascade, `X`, and
the surviving registry is the root alone. -/
theorem run_leaves_no_dangling_reference_witness :
    (run 4 garbage_chain ≠ Res.timeout ∧
      ∀ s', run 4 garbage_chain = Res.ok s' →
        (∀ y ∈ s'.refchain, ∀ o, lookup s'.heap y = some o → ∀ r ∈ o.held,
          (lookup garbage_chain.heap r).isSome = true → (lookup s'.heap r).isSome = true) ∧
        (∀ r ∈ roots s'.runtime,
          (lookup garbage_chain.heap r).isSome = true → (lookup s'.heap r).isSome = true)) ∧
    run 4 garbage_chain =
      Res.ok { garbage_chain with heap := [some (plain_object 1 0 []), none, none],
                                  refchain := [0] } :=
  ⟨run_leaves_no_dangling_reference 4 garbage_chain (by decide) (by decide) (by decide)
    (by decide) (by decide), by decide⟩

/-! ## Idempotence of `reset_all_refchain` -/

theorem store_same {h : Heap} {a : Addr} {o : PyObject} (ho : lookup h a = some o) :
    store h a o = h := by
  unfold store
  apply List.ext_getElem?
  intro n
  by_cases hn : a = n
  · subst hn
    rw [List.getElem?_set_self (lookup_lt ho)]
    exact (lookup_eq_some.mp ho).symm
  · rw [List.getElem?_set_ne hn]

theorem reset_loop_allocated (l : List Addr) :
    ∀ {h h' : Heap}, reset_loop h l = Res.ok h' → ∀ a ∈ l, (lookup h a).isSome = true := by
  induction l with
  | nil => intro h h' _ a ha; simp at ha
  | cons c rest ih =>
    intro h h' hrun a ha
    simp only [reset_loop] at hrun
    cases ho : lookup h c with
    | none => simp [ho] at hrun
    | some o =>
      simp only [ho] at hrun
      rcases List.mem_cons.mp ha with rfl | hmem
      · rw [ho]; rfl
      · have := ih hrun a hmem
        by_cases hca : c = a
        · subst hca; rw [ho]; rfl
        · rwa [lookup_store_ne _ _ hca] at this

theorem reset_loop_fixed (l : List Addr) :
    ∀ h : Heap, (∀ a ∈ l, ∃ o, lookup h a = some o ∧ o.ob_msflags = 0) →
      reset_loop h l = Res.ok h := by
  induction l with
  | nil => intro h _; rfl
  | cons c rest ih =>
    intro h hall
    obtain ⟨o, ho, hz⟩ := hall c (List.mem_cons_self _ _)
    have hclear : PyMarkSweep_ClearFlag o = o := by
      rw [clearFlag_eq]
      cases o
      simp only at hz
      subst hz
      rfl
    simp only [reset_loop, ho, hclear, store_same ho]
    exact ih h (fun a ha => hall a (List.mem_cons_of_mem _ ha))

/-- C11: resetting twice is resetting once, on every state: when the first
`reset_all_refchain` returns, a second one returns the very same state; when
the first one faults, so does the sequence. -/
theorem reset_all_idempotent (s : State) :
    (reset_all_refchain s).bind reset_all_refchain = reset_all_refchain s := by
  unfold reset_all_refchain
  cases hrun : reset_loop s.heap s.refchain with
  | segv => rfl
  | timeout => rfl
  | ok h' =>
    simp only [Res.bind]
    obtain ⟨h2, hrun2, hspec⟩ := reset_loop_spec s.refchain s.heap (reset_loop_allocated _ hrun)
    rw [hrun] at hrun2
    cases hrun2
    have hfix : reset_loop h' s.refchain = Res.ok h' := by
      apply reset_loop_fixed
      intro a ha
      obtain ⟨o, ho⟩ := Option.isSome_iff_exists.mp (reset_loop_allocated _ hrun a ha)
      refine ⟨PyMarkSweep_ClearFlag o, ?_, clearFlag_flags o⟩
      rw [hspec a, if_pos ha, ho]
      rfl
    rw [hfix]

theorem members_unmarked_referenced_iff (s : State) :
    members_unmarked_referenced s = true ↔
      ∀ x ∈ s.refchain, ∃ o, lookup s.heap x = some o ∧
        PyMarkSweep_IsMarked o = false ∧ o.ob_refcnt ≠ 0 := by
  unfold members_unmarked_referenced
  rw [List.all_eq_true]
  constructor
  · intro h x hx
    have := h x hx
    cases ho : lookup s.heap x with
    | none => rw [ho] at this; cases this
    | some o =>
      rw [ho] at this
      simp only [Bool.and_eq_true, Bool.not_eq_true', bne_iff_ne] at this
      exact ⟨o, rfl, this.1, this.2⟩
  · intro h x hx
    obtain ⟨o, ho, hm, hrc⟩ := h x hx
    rw [ho]
    simp [hm, hrc]

/-- On nodes that are all unmarked with a nonzero count the loop only reads. -/
theorem sweep_loop_identity (dfuel : Nat) (s : State) :
    ∀ (fuel : Nat) (pre rest : List Addr), s.refchain = pre ++ rest → s.refchain.Nodup →
      rest.length ≤ fuel →
      (∀ x ∈ rest, ∃ o, lookup s.heap x = some o ∧
        PyMarkSweep_IsMarked o = false ∧ o.ob_refcnt ≠ 0) →
      ∃ log, sweep_loop dfuel fuel s rest.head? = Res.ok (s, log) ∧
        log.map SweepEvent.ob = rest ∧ ∀ e ∈ log, e.action = SweepAction.referenced := by
  intro fuel
  induction fuel with
  | zero =>
    intro pre rest _ _ hlen _
    have : rest = [] := List.length_eq_zero.mp (Nat.le_zero.mp hlen)
    subst this
    exact ⟨[], rfl, rfl, fun e he => by simp at he⟩
  | succ fuel ih =>
    intro pre rest hreg hnd hlen hall
    cases rest with
    | nil => exact ⟨[], rfl, rfl, fun e he => by simp at he⟩
    | cons cur rest0 =>
      obtain ⟨o, ho, hm, hrc⟩ := hall cur (List.mem_cons_self _ _)
      have hnext : ob_next s.refchain cur = some rest0.head? := by
        rw [hreg]
        exact ob_next_split pre cur rest0 (nodup_split_not_mem (hreg ▸ hnd))
      obtain ⟨log, hrun, hmap, hact⟩ := ih (pre ++ [cur]) rest0 (by simp [hreg]) hnd
        (by simpa using hlen) (fun x hx => hall x (List.mem_cons_of_mem _ hx))
      refine ⟨⟨cur, o, SweepAction.referenced⟩ :: log, ?_, by simp [hmap], ?_⟩
      · simp only [List.head?_cons, sweep_loop, hnext, ho, sweep_visit, hm, Bool.not_false,
          if_true, if_pos hrc, Res.bind, hrun]
      · intro e he
        rcases List.mem_cons.mp he with rfl | hmem
        · rfl
        · exact hact e hmem

/-- C20: on a duplicate-free registry whose members are all unmarked with a
nonzero reference count, `sweep()` returns the state exactly as it was
(membership, order, flags, reference counts), having visited every member in
order and deallocated none. -/
theorem sweep_without_marks_is_identity (fuel : Nat) (s : State)
    (hnd : s.refchain.Nodup) (hcons : members_unmarked_referenced s = true)
    (hfuel : s.refchain.length ≤ fuel) :
    sweep fuel s = Res.ok s ∧
      ∃ log, sweep_trace fuel s = Res.ok (s, log) ∧
        log.map SweepEvent.ob = s.refchain ∧
        ∀ e ∈ log, e.action = SweepAction.referenced := by
  obtain ⟨log, hrun, hmap, hact⟩ := sweep_loop_identity fuel s fuel [] s.refchain rfl hnd hfuel
    ((members_unmarked_referenced_iff s).mp hcons)
  have htrace : sweep_trace fuel s = Res.ok (s, log) := hrun
  exact ⟨by simp only [sweep, htrace, Res.bind], log, htrace, hmap, hact⟩

/-- C20 on a consistent registry of three unmarked members. -/
theorem sweep_without_marks_is_identity_witness :
    sweep 3 consistent_unmarked = Res.ok consistent_unmarked ∧
      ∃ log, sweep_trace 3 consistent_unmarked = Res.ok (consistent_unmarked, log) ∧
        log.map SweepEvent.ob = consistent_unmarked.refchain ∧
        ∀ e ∈ log, e.action = SweepAction.referenced :=
  sweep_without_marks_is_identity 3 consistent_unmarked (by decide) (by decide) (by decide)

theorem setFlag_testBit (o : PyObject) (i : Nat) (hb : o.ob_msflags.testBit i = true) :
    (PyMarkSweep_SetFlag o Py_MSFLAGS_MARKED).ob_msflags.testBit i = true := by
  simp [PyMarkSweep_SetFlag, Nat.testBit_or, hb]

/-- The frame of a `FlagStep`, object by object: same object up to the flag
word, which lost no bit. -/
theorem FlagStep.object_frame {h h' : Heap} (hs : FlagStep h h') {a : Addr} {o : PyObject}
    (ho : lookup h a = some o) :
    ∃ f, lookup h' a = some { o with ob_msflags := f } ∧
      ∀ i, o.ob_msflags.testBit i = true → f.testBit i = true := by
  rcases (hs.2 a).2 o ho with h1 | h1
  · exact ⟨o.ob_msflags, h1, fun _ hb => hb⟩
  · exact ⟨(PyMarkSweep_SetFlag o Py_MSFLAGS_MARKED).ob_msflags, h1, setFlag_testBit o⟩

/-- C19: from any heap state (residual flags included) and for any `ob`,
`mark_object(ob)` ends (no timeout with more fuel than heap slots), and when it
returns: no address is allocated or freed, every object is what it was up to
its flag word (reference count unchanged), no flag bit was cleared, every object
marked afterwards was marked before or is reachable from `ob` by outgoing
references, and the registry (membership and order) and the runtime are
untouched. -/
theorem mark_object_frame (fuel : Nat) (s : State) (ob : Addr)
    (hfuel : s.heap.length < fuel) :
    mark_object fuel s.heap ob ≠ Res.timeout ∧
    (∀ h' r, mark_object fuel s.heap ob = Res.ok (h', r) →
      h'.length = s.heap.length ∧
      (∀ a, lookup s.heap a = none → lookup h' a = none) ∧
      (∀ a o, lookup s.heap a = some o →
        ∃ f, lookup h' a = some { o with ob_msflags := f } ∧
          ∀ i, o.ob_msflags.testBit i = true → f.testBit i = true) ∧
      (∀ a, marked h' a = true → marked s.heap a = true ∨ Reach s.heap ob a)) ∧
    (∀ s', Marksweep_mark fuel s ob = Res.ok s' →
      s'.refchain = s.refchain ∧ s'.runtime = s.runtime ∧
        ∃ r, mark_object fuel s.heap ob = Res.ok (s'.heap, r)) := by
  refine ⟨mark_object_no_timeout fuel s.heap ob
    (lt_of_le_of_lt (unmarked_count_le_length _) hfuel), ?_, ?_⟩
  · intro h' r hrun
    obtain ⟨hs, -, hsound, -⟩ := mark_object_spec fuel s.heap ob h' r hrun
    exact ⟨hs.1, fun a => (hs.2 a).1, fun a o ho => hs.object_frame ho, hsound⟩
  · intro s' hrun
    unfold Marksweep_mark at hrun
    obtain ⟨p, hp, hres⟩ := Res.bind_eq_ok hrun
    cases hres
    exact ⟨rfl, rfl, p.2, hp⟩

/-- C19 on a heap with residual flags, marking from `R`. -/
theorem mark_object_frame_witness :
    (mark_object 6 diamond_cycle.heap 0 ≠ Res.timeout ∧
    (∀ h' r, mark_object 6 diamond_cycle.heap 0 = Res.ok (h', r) →
      h'.length = diamond_cycle.heap.length ∧
      (∀ a, lookup diamond_cycle.heap a = none → lookup h' a = none) ∧
      (∀ a o, lookup diamond_cycle.heap a = some o →
        ∃ f, lookup h' a = some { o with ob_msflags := f } ∧
          ∀ i, o.ob_msflags.testBit i = true → f.testBit i = true) ∧
      (∀ a, marked h' a = true →
        marked diamond_cycle.heap a = true ∨ Reach diamond_cycle.heap 0 a)) ∧
    (∀ s', Marksweep_mark 6 diamond_cycle 0 = Res.ok s' →
      s'.refchain = diamond_cycle.refchain ∧ s'.runtime = diamond_cycle.runtime ∧
        ∃ r, mark_object 6 diamond_cycle.heap 0 = Res.ok (s'.heap, r))) ∧
    Marksweep_mark 6 diamond_cycle 0 =
      Res.ok { diamond_cycle with
        heap := [some (container 1 1 [1, 2]), some (container 1 1 [3]),
                 some (container 1 3 [3]), some (container 2 1 [0]),
                 some (container 1 1 [])] } :=
  ⟨mark_object_frame 6 diamond_cycle 0 (by decide), by decide⟩

/-! ## Root enumeration -/

theorem Py_MARK_seq_null (visit : Visit) (l : List (Option Addr)) :
    ∀ h : Heap, (∀ x ∈ l, x = none) → Py_MARK_seq visit h l = Res.ok h := by
  induction l with
  | nil => intro h _; rfl
  | cons ob rest ih =>
    intro h hall
    have hob : ob = none := hall ob (List.mem_cons_self _ _)
    subst hob
    simp only [Py_MARK_seq, Py_MARK, Res.bind]
    exact ih h (fun x hx => hall x (List.mem_cons_of_mem _ hx))

theorem mem_root_slots_interp {rt : Runtime} {interp : PyInterpreterState} {x : Option Addr}
    (hi : interp ∈ rt.interpreters) (hx : x ∈ interpreter_roots rt.have_fork interp) :
    x ∈ root_slots rt := by
  unfold root_slots
  apply List.mem_append_left
  exact List.mem_flatten.mpr ⟨_, List.mem_map.mpr ⟨interp, hi, rfl⟩, hx⟩

theorem mem_interpreter_roots_thread {hf : Bool} {interp : PyInterpreterState}
    {t : PyThreadState} {x : Option Addr} (ht : t ∈ interp.tstate_head)
    (hx : x ∈ thread_roots t) : x ∈ interpreter_roots hf interp := by
  unfold interpreter_roots
  apply List.mem_append_right
  exact List.mem_flatten.mpr ⟨_, List.mem_map.mpr ⟨t, ht, rfl⟩, hx⟩

theorem mem_root_slots_pool {rt : Runtime} {x : Option Addr}
    (hx : x ∈ rt.tuple_pool ∨ x ∈ rt.list_pool ∨ x ∈ rt.set_pool ∨ x ∈ rt.bytes_pool ∨
      x ∈ rt.long_pool ∨ x ∈ rt.float_pool) : x ∈ root_slots rt := by
  unfold root_slots
  apply List.mem_append_right
  simp only [List.mem_append]
  exact hx

/-- C18: on a heap without dangling references or roots, whatever the initial
flags, `mark_all()` returns and afterwards every non-null object held in a
field listed by `interpreter_traverse`, in a field listed by `thread_traverse`,
as the innermost frame of a thread, or in a pool is marked. A step that meets
only null pointers changes nothing: `Py_MARK` on a null pointer,
`interpreter_traverse` and `thread_traverse` on structures whose listed fields
are all null, the interpreter loop without interpreters, the thread loop
without threads and a pool hook on an empty pool all return the heap as it is. -/
theorem mark_all_covers_roots (fuel : Nat) (s : State)
    (hrefs : refs_valid s.heap = true) (hroots : roots_valid s.heap s.runtime = true)
    (hfuel : s.heap.length < fuel) :
    (∃ s', mark_all fuel s = Res.ok s' ∧
      (∀ interp ∈ s.runtime.interpreters,
        (∀ a, some a ∈ interpreter_fields s.runtime.have_fork interp →
          marked s'.heap a = true) ∧
        ∀ t ∈ interp.tstate_head,
          (∀ a, some a ∈ thread_fields t → marked s'.heap a = true) ∧
          (∀ a, t.frame = some a → marked s'.heap a = true)) ∧
      (∀ a, (some a ∈ s.runtime.tuple_pool ∨ some a ∈ s.runtime.list_pool ∨
          some a ∈ s.runtime.set_pool ∨ some a ∈ s.runtime.bytes_pool ∨
          some a ∈ s.runtime.long_pool ∨ some a ∈ s.runtime.float_pool) →
        marked s'.heap a = true)) ∧
    (∀ (visit : Visit) (h : Heap), Py_MARK visit h none = Res.ok h) ∧
    (∀ (visit : Visit) (hf : Bool) (h : Heap) (interp : PyInterpreterState),
      (∀ x ∈ interpreter_fields hf interp, x = none) →
        interpreter_traverse visit hf h interp = Res.ok h) ∧
    (∀ (visit : Visit) (h : Heap) (t : PyThreadState),
      (∀ x ∈ thread_fields t, x = none) → thread_traverse visit h t = Res.ok h) ∧
    (∀ (visit : Visit) (hf : Bool) (h : Heap), mark_interpreters visit hf h [] = Res.ok h) ∧
    (∀ (visit : Visit) (h : Heap), mark_threads visit h [] = Res.ok h) ∧
    (∀ (visit : Visit) (h : Heap), pool_traverse visit h [] = Res.ok h) := by
  refine ⟨?_, fun _ _ => rfl, fun visit hf h interp hall => Py_MARK_seq_null visit _ h hall,
    fun visit h t hall => Py_MARK_seq_null visit _ h hall, fun _ _ _ => rfl, fun _ _ => rfl,
    fun _ _ => rfl⟩
  have hrv : ∀ a, some a ∈ root_slots s.runtime → (lookup s.heap a).isSome = true :=
    fun a ha => List.all_eq_true.mp hroots a (mem_roots.mpr ha)
  obtain ⟨h', hrun⟩ := Py_MARK_seq_total (mark_object_spec fuel) (mark_object_total fuel)
    (root_slots s.runtime) s.heap hrefs hrv
    (lt_of_le_of_lt (unmarked_count_le_length _) hfuel)
  obtain ⟨-, hm, -, -⟩ := Py_MARK_seq_spec (mark_object_spec fuel) _ hrun
  refine ⟨{ s with heap := h' }, ?_, ?_, ?_⟩
  · simp only [mark_all, mark_all_heap_eq, hrun, Res.bind]
  · intro interp hi
    refine ⟨fun a ha => hm a (mem_root_slots_interp hi ?_), fun t ht => ⟨fun a ha => ?_, fun a ha => ?_⟩⟩
    · exact List.mem_append_left _ ha
    · exact hm a (mem_root_slots_interp hi (mem_interpreter_roots_thread ht
        (List.mem_append_left _ ha)))
    · exact hm a (mem_root_slots_interp hi (mem_interpreter_roots_thread ht
        (List.mem_append_right _ (by rw [ha]; exact List.mem_singleton.mpr rfl))))
  · intro a ha
    exact hm a (mem_root_slots_pool ha)

/-- C18 on a runtime with one interpreter, one thread, a pool entry and
residual flags: the hypotheses hold, hence the statement; concretely the
roots 0, 1, 2, 4 and the parent frame 3 end up marked. -/
theorem mark_all_covers_roots_witness :
    ((∃ s', mark_all 7 rooted_runtime = Res.ok s' ∧
      (∀ interp ∈ rooted_runtime.runtime.interpreters,
        (∀ a, some a ∈ interpreter_fields rooted_runtime.runtime.have_fork interp →
          marked s'.heap a = true) ∧
        ∀ t ∈ interp.tstate_head,
          (∀ a, some a ∈ thread_fields t → marked s'.heap a = true) ∧
          (∀ a, t.frame = some a → marked s'.heap a = true)) ∧
      (∀ a, (some a ∈ rooted_runtime.runtime.tuple_pool ∨
          some a ∈ rooted_runtime.runtime.list_pool ∨
          some a ∈ rooted_runtime.runtime.set_pool ∨
          some a ∈ rooted_runtime.runtime.bytes_pool ∨
          some a ∈ rooted_runtime.runtime.long_pool ∨
          some a ∈ rooted_runtime.runtime.float_pool) →
        marked s'.heap a = true)) ∧
    (∀ (visit : Visit) (h : Heap), Py_MARK visit h none = Res.ok h) ∧
    (∀ (visit : Visit) (hf : Bool) (h : Heap) (interp : PyInterpreterState),
      (∀ x ∈ interpreter_fields hf interp, x = none) →
        interpreter_traverse visit hf h interp = Res.ok h) ∧
    (∀ (visit : Visit) (h : Heap) (t : PyThreadState),
      (∀ x ∈ thread_fields t, x = none) → thread_traverse visit h t = Res.ok h) ∧
    (∀ (visit : Visit) (hf : Bool) (h : Heap), mark_interpreters visit hf h [] = Res.ok h) ∧
    (∀ (visit : Visit) (h : Heap), mark_threads visit h [] = Res.ok h) ∧
    (∀ (visit : Visit) (h : Heap), pool_traverse visit h [] = Res.ok h)) ∧
    (mark_all 7 rooted_runtime).bind
        (fun s' => Res.ok ((List.range 6).map fun a => (lookup s'.heap a).map PyObject.ob_msflags)) =
      Res.ok [some 1, some 3, some 1, some 1, some 1, some 1] :=
  ⟨mark_all_covers_roots 7 rooted_runtime (by decide) (by decide) (by decide), by decide⟩

/-! ## `dry_run` -/

theorem int_wrap_id {n : Int} (h0 : -2147483648 ≤ n) (h1 : n < 2147483648) :
    int_wrap n = n := by
  unfold int_wrap
  omega

theorem members_allocated_iff (s : State) :
    members_allocated s = true ↔ ∀ x ∈ s.refchain, (lookup s.heap x).isSome = true := by
  unfold members_allocated
  rw [List.all_eq_true]

theorem count_members_cons (p : PyObject → Bool) (h : Heap) (x : Addr) (l : List Addr)
    (o : PyObject) (ho : lookup h x = some o) :
    count_members p h (x :: l) = count_members p h l + if p o = true then 1 else 0 := by
  unfold count_members
  rw [List.countP_cons, ho]

/-- The counting loop of `dry_run`, while the counters stay in the `int` range. -/
theorem dry_run_loop_spec (h : Heap) (l : List Addr) :
    ∀ rep : DryRunReport, (∀ x ∈ l, (lookup h x).isSome = true) →
      0 ≤ rep.marked → 0 ≤ rep.referenced → rep.marked + rep.referenced ≤ rep.total →
      rep.total + l.length < 2147483648 →
      ∃ rep', dry_run_loop h l rep = Res.ok rep' ∧
        rep'.total = rep.total + l.length ∧
        rep'.marked = rep.marked + count_members PyMarkSweep_IsMarked h l ∧
        rep'.referenced = rep.referenced +
          count_members (fun o => !PyMarkSweep_IsMarked o && o.ob_refcnt != 0) h l := by
  induction l with
  | nil =>
    intro rep _ _ _ _ _
    exact ⟨rep, rfl, by simp, by simp [count_members], by simp [count_members]⟩
  | cons cur rest ih =>
    intro rep hall hm hr hle hlt
    obtain ⟨o, ho⟩ := Option.isSome_iff_exists.mp (hall cur (List.mem_cons_self _ _))
    have hall' : ∀ x ∈ rest, (lookup h x).isSome = true :=
      fun x hx => hall x (List.mem_cons_of_mem _ hx)
    have hlen : ((cur :: rest).length : Int) = rest.length + 1 := by simp
    have htot : int_wrap (rep.total + 1) = rep.total + 1 := int_wrap_id (by omega) (by omega)
    simp only [dry_run_loop, ho]
    by_cases hmk : PyMarkSweep_IsMarked o = true
    · have hmi : int_wrap (rep.marked + 1) = rep.marked + 1 :=
        int_wrap_id (by omega) (by omega)
      rw [if_pos hmk, htot, hmi]
      obtain ⟨rep', hrun, h1, h2, h3⟩ := ih
        { rep with total := rep.total + 1, marked := rep.marked + 1 } hall'
        (by show 0 ≤ rep.marked + 1; omega) hr
        (by show rep.marked + 1 + rep.referenced ≤ rep.total + 1; omega)
        (by show rep.total + 1 + (rest.length : Int) < 2147483648; omega)
      refine ⟨rep', hrun, ?_, ?_, ?_⟩
      · rw [h1, hlen]; show rep.total + 1 + (rest.length : Int) = _; omega
      · rw [h2, count_members_cons _ _ _ _ o ho, if_pos hmk]
        show rep.marked + 1 + _ = _
        push_cast
        omega
      · rw [h3, count_members_cons _ _ _ _ o ho]
        simp [hmk]
    · have hmk' : PyMarkSweep_IsMarked o = false := by simpa using hmk
      rw [if_neg hmk]
      by_cases hrc : o.ob_refcnt ≠ 0
      · have hri : int_wrap (rep.referenced + 1) = rep.referenced + 1 :=
          int_wrap_id (by omega) (by omega)
        rw [if_pos hrc, htot, hri]
        obtain ⟨rep', hrun, h1, h2, h3⟩ := ih
          { rep with total := rep.total + 1, referenced := rep.referenced + 1 } hall' hm
          (by show 0 ≤ rep.referenced + 1; omega)
          (by show rep.marked + (rep.referenced + 1) ≤ rep.total + 1; omega)
          (by show rep.total + 1 + (rest.length : Int) < 2147483648; omega)
        refine ⟨rep', hrun, ?_, ?_, ?_⟩
        · rw [h1, hlen]; show rep.total + 1 + (rest.length : Int) = _; omega
        · rw [h2, count_members_cons _ _ _ _ o ho]
          simp [hmk']
        · rw [h3, count_members_cons _ _ _ _ o ho]
          have : (!PyMarkSweep_IsMarked o && o.ob_refcnt != 0) = true := by
            simp [hmk', hrc]
          rw [if_pos this]
          show rep.referenced + 1 + _ = _
          push_cast
          omega
      · rw [if_neg hrc, htot]
        obtain ⟨rep', hrun, h1, h2, h3⟩ := ih
          { rep with total := rep.total + 1 } hall' hm hr
          (by show rep.marked + rep.referenced ≤ rep.total + 1; omega)
          (by show rep.total + 1 + (rest.length : Int) < 2147483648; omega)
        refine ⟨rep', hrun, ?_, ?_, ?_⟩
        · rw [h1, hlen]; show rep.total + 1 + (rest.length : Int) = _; omega
        · rw [h2, count_members_cons _ _ _ _ o ho]
          simp [hmk']
        · rw [h3, count_members_cons _ _ _ _ o ho]
          have hz : o.ob_refcnt = 0 := by simpa using hrc
          simp [hmk', hz]

theorem countP_disjoint_le {α : Type} (p q : α → Bool)
    (hpq : ∀ x, p x = true → q x = false) :
    ∀ l : List α, l.countP p + l.countP q ≤ l.length := by
  intro l
  induction l with
  | nil => simp
  | cons x t ih =>
    simp only [List.countP_cons, List.length_cons]
    have hx := hpq x
    cases hp : p x <;> cases hq : q x
    · simp; omega
    · simp; omega
    · simp; omega
    · rw [hp, hq] at hx; exact absurd (hx rfl) (by decide)

theorem count_members_le_length (p : PyObject → Bool) (h : Heap) (l : List Addr) :
    count_members p h l ≤ l.length :=
  List.countP_le_length _

/-- C12: on a heap without dangling references or roots whose registry members
are allocated and fewer than 2^31 (the counters are C `int`s), `dry_run()`
returns; its state is the result of `mark_all()`, which differs from the start
only by `MARKED` bits set (nothing deallocated, registry, runtime and reference
counts unchanged); `total` is the number of registry members, `marked` the
number of members with the `MARKED` bit set, `unsafe` the number of unmarked
members with a nonzero reference count, `marked + unsafe ≤ total`, and the
integers printed are `marked, total, unsafe, total - marked`. -/
theorem dry_run_counts (fuel : Nat) (s : State)
    (hrefs : refs_valid s.heap = true) (hroots : roots_valid s.heap s.runtime = true)
    (hmem : members_allocated s = true) (hfuel : s.heap.length < fuel)
    (hsize : s.refchain.length < 2147483648) :
    ∃ s' rep, dry_run fuel s = Res.ok (s', rep) ∧ mark_all fuel s = Res.ok s' ∧
      s'.refchain = s.refchain ∧ s'.runtime = s.runtime ∧ FlagStep s.heap s'.heap ∧
      (∀ a, rc_of s'.heap a = rc_of s.heap a) ∧
      rep.total = s.refchain.length ∧
      rep.marked = count_members PyMarkSweep_IsMarked s'.heap s.refchain ∧
      rep.referenced =
        count_members (fun o => !PyMarkSweep_IsMarked o && o.ob_refcnt != 0)
          s'.heap s.refchain ∧
      rep.marked + rep.referenced ≤ rep.total ∧
      dry_run_printed rep = [rep.marked, rep.total, rep.referenced, rep.total - rep.marked] := by
  have hrv : ∀ a, some a ∈ root_slots s.runtime → (lookup s.heap a).isSome = true :=
    fun a ha => List.all_eq_true.mp hroots a (mem_roots.mpr ha)
  obtain ⟨h', hrun⟩ := Py_MARK_seq_total (mark_object_spec fuel) (mark_object_total fuel)
    (root_slots s.runtime) s.heap hrefs hrv
    (lt_of_le_of_lt (unmarked_count_le_length _) hfuel)
  have hs : FlagStep s.heap h' := (Py_MARK_seq_spec (mark_object_spec fuel) _ hrun).1
  have hmark : mark_all fuel s = Res.ok { s with heap := h' } := by
    simp only [mark_all, mark_all_heap_eq, hrun, Res.bind]
  have hall : ∀ x ∈ s.refchain, (lookup h' x).isSome = true := by
    intro x hx
    rw [hs.isSome]
    exact (members_allocated_iff s).mp hmem x hx
  obtain ⟨rep, hloop, h1, h2, h3⟩ := dry_run_loop_spec h' s.refchain ⟨0, 0, 0⟩ hall
    (le_refl _) (le_refl _) (by show (0 : Int) + 0 ≤ 0; omega)
    (by show (0 : Int) + (s.refchain.length : Int) < 2147483648; omega)
  have h1' : rep.total = s.refchain.length := by
    rw [h1]; show (0 : Int) + _ = _; omega
  have h2' : rep.marked = count_members PyMarkSweep_IsMarked h' s.refchain := by
    rw [h2]; show (0 : Int) + _ = _; omega
  have h3' : rep.referenced =
      count_members (fun o => !PyMarkSweep_IsMarked o && o.ob_refcnt != 0) h' s.refchain := by
    rw [h3]; show (0 : Int) + _ = _; omega
  have hdisj : count_members PyMarkSweep_IsMarked h' s.refchain +
      count_members (fun o => !PyMarkSweep_IsMarked o && o.ob_refcnt != 0) h' s.refchain ≤
        s.refchain.length := by
    unfold count_members
    apply countP_disjoint_le
    intro x hp
    cases ho : lookup h' x with
    | none => rfl
    | some o =>
      rw [ho] at hp
      simp only at hp
      simp [hp]
  refine ⟨{ s with heap := h' }, rep, ?_, hmark, rfl, rfl, hs, hs.rc_of_eq, h1', h2', h3', ?_, ?_⟩
  · simp only [dry_run, hmark, Res.bind, hloop]
  · rw [h1', h2', h3']
    exact_mod_cast hdisj
  · have hm0 : (0 : Int) ≤ rep.marked := by rw [h2']; exact_mod_cast Nat.zero_le _
    have hmle : rep.marked ≤ rep.total := by
      rw [h1', h2']
      exact_mod_cast count_members_le_length _ _ _
    have : int_wrap (rep.total - rep.marked) = rep.total - rep.marked :=
      int_wrap_id (by omega) (by omega)
    simp only [dry_run_printed, this]

/-- C12 on the reachability graph with one more garbage node: total 6, marked
3, unsafe 2. -/
theorem dry_run_counts_witness :
    (∃ s' rep, dry_run 7 graph_with_garbage = Res.ok (s', rep) ∧
      mark_all 7 graph_with_garbage = Res.ok s' ∧
      s'.refchain = graph_with_garbage.refchain ∧ s'.runtime = graph_with_garbage.runtime ∧
      FlagStep graph_with_garbage.heap s'.heap ∧
      (∀ a, rc_of s'.heap a = rc_of graph_with_garbage.heap a) ∧
      rep.total = graph_with_garbage.refchain.length ∧
      rep.marked = count_members PyMarkSweep_IsMarked s'.heap graph_with_garbage.refchain ∧
      rep.referenced =
        count_members (fun o => !PyMarkSweep_IsMarked o && o.ob_refcnt != 0)
          s'.heap graph_with_garbage.refchain ∧
      rep.marked + rep.referenced ≤ rep.total ∧
      dry_run_printed rep =
        [rep.marked, rep.total, rep.referenced, rep.total - rep.marked]) ∧
    (dry_run 7 graph_with_garbage).bind (fun p => Res.ok (dry_run_printed p.2)) =
      Res.ok [3, 6, 2, 3] :=
  ⟨dry_run_counts 7 graph_with_garbage (by decide) (by decide) (by decide) (by decide)
    (by decide), by decide⟩

/-! ## A second `mark_all` changes nothing -/

theorem mark_object_marked (fuel : Nat) {h : Heap} {a : Addr} (hm : marked h a = true) :
    mark_object (fuel + 1) h a = Res.ok (h, 0) := by
  obtain ⟨o, ho, hmo⟩ := marked_iff.mp hm
  simp only [mark_object, ho, hmo, if_true]

theorem Py_MARK_seq_marked (fuel : Nat) (l : List (Option Addr)) :
    ∀ h : Heap, (∀ a, some a ∈ l → marked h a = true) →
      Py_MARK_seq (mark_object (fuel + 1)) h l = Res.ok h := by
  induction l with
  | nil => intro h _; rfl
  | cons ob rest ih =>
    intro h hall
    have hrest := ih h (fun a ha => hall a (List.mem_cons_of_mem _ ha))
    cases ob with
    | none => simp only [Py_MARK_seq, Py_MARK, Res.bind]; exact hrest
    | some a =>
      simp only [Py_MARK_seq, Py_MARK, mark_object_marked fuel (hall a (List.mem_cons_self _ _)),
        Res.bind]
      exact hrest

theorem Py_MARK_seq_zero_fuel (l : List (Option Addr)) :
    ∀ {h h' : Heap}, Py_MARK_seq (mark_object 0) h l = Res.ok h' → ∀ x ∈ l, x = none := by
  induction l with
  | nil => intro h h' _ x hx; simp at hx
  | cons ob rest ih =>
    intro h h' hrun x hx
    cases ob with
    | some a => simp [Py_MARK_seq, Py_MARK, mark_object, Res.bind] at hrun
    | none =>
      simp only [Py_MARK_seq, Py_MARK, Res.bind] at hrun
      rcases List.mem_cons.mp hx with rfl | hmem
      · rfl
      · exact ih hrun x hmem

theorem Py_MARK_seq_idem (fuel : Nat) (l : List (Option Addr)) {h h' : Heap}
    (hrun : Py_MARK_seq (mark_object fuel) h l = Res.ok h') :
    Py_MARK_seq (mark_object fuel) h' l = Res.ok h' := by
  cases fuel with
  | zero => exact Py_MARK_seq_null _ l h' (Py_MARK_seq_zero_fuel l hrun)
  | succ fuel =>
    exact Py_MARK_seq_marked fuel l h'
      (Py_MARK_seq_spec (mark_object_spec (fuel + 1)) l hrun).2.1

/-- Running `mark_all()` right after a `mark_all()` returns the same state. -/
theorem mark_all_idem {fuel : Nat} {s s1 : State} (h : mark_all fuel s = Res.ok s1) :
    mark_all fuel s1 = Res.ok s1 := by
  unfold mark_all at h ⊢
  rw [mark_all_heap_eq] at h ⊢
  obtain ⟨h1, hrun, hres⟩ := Res.bind_eq_ok h
  cases hres
  simp only [Py_MARK_seq_idem fuel _ hrun, Res.bind]

/-- C13: when `dry_run()` has returned state `s1` and counters `rep`, a further
`mark_all()` returns `s1` unchanged (it changes no flag); hence `run()` on `s1`
is `sweep()` on `s1`: the state on which the sweep of `run()` starts, and so
its marked members and its unmarked members with a nonzero count, is the one
`dry_run()` counted, and counting it again gives `rep`. The sanity check in
between only reads. -/
theorem dry_run_predicts_run (fuel : Nat) (s s1 : State) (rep : DryRunReport)
    (hdry : dry_run fuel s = Res.ok (s1, rep)) :
    mark_all fuel s1 = Res.ok s1 ∧
    run fuel s1 = sweep fuel s1 ∧
    dry_run fuel s1 = Res.ok (s1, rep) ∧
    ((dry_run fuel s).bind fun p =>
        (Marksweep__sancheck p.1).bind fun _ => run fuel p.1) =
      (Marksweep__sancheck s1).bind fun _ => sweep fuel s1 := by
  unfold dry_run at hdry
  obtain ⟨s1', hmark, hrest⟩ := Res.bind_eq_ok hdry
  obtain ⟨rep', hloop, hres⟩ := Res.bind_eq_ok hrest
  cases hres
  have hidem := mark_all_idem hmark
  have hrun : run fuel s1 = sweep fuel s1 := by
    simp only [run, hidem, Res.bind]
  refine ⟨hidem, hrun, ?_, ?_⟩
  · simp only [dry_run, hidem, Res.bind, hloop]
  · simp only [dry_run, hmark, Res.bind, hloop, hrun]

/-- C13 on the graph with garbage: `dry_run()` returns the marked state and the
counters 6, 3, 2; the `run()` that follows starts its sweep from that state and
reclaims the zero-count node. -/
theorem dry_run_predicts_run_witness :
    (mark_all 7 graph_with_garbage_marked = Res.ok graph_with_garbage_marked ∧
    run 7 graph_with_garbage_marked = sweep 7 graph_with_garbage_marked ∧
    dry_run 7 graph_with_garbage_marked = Res.ok (graph_with_garbage_marked, ⟨6, 3, 2⟩) ∧
    ((dry_run 7 graph_with_garbage).bind fun p =>
        (Marksweep__sancheck p.1).bind fun _ => run 7 p.1) =
      (Marksweep__sancheck graph_with_garbage_marked).bind fun _ =>
        sweep 7 graph_with_garbage_marked) ∧
    Marksweep__sancheck graph_with_garbage_marked = Res.ok [(0, 1), (1, 1), (2, 1)] ∧
    (sweep_trace 7 graph_with_garbage_marked).bind
        (fun p => Res.ok (p.2.map fun e => (e.ob, e.action))) =
      Res.ok [(0, SweepAction.skip), (1, SweepAction.skip), (2, SweepAction.skip),
        (3, SweepAction.referenced), (4, SweepAction.referenced), (5, SweepAction.dealloc)] :=
  ⟨dry_run_predicts_run 7 graph_with_garbage graph_with_garbage_marked ⟨6, 3, 2⟩ (by decide),
    by decide, by decide⟩

/-! ## `Marksweep__unsafe_sanitize` -/

theorem forget_split {pre rest : List Addr} {cur : Addr}
    (hnd : (pre ++ cur :: rest).Nodup) :
    (pre ++ cur :: rest).filter (fun x => x != cur) = pre ++ rest := by
  have hpre : cur ∉ pre := nodup_split_not_mem hnd
  have hrest : cur ∉ rest := (List.nodup_cons.mp (List.nodup_append.mp hnd).2.1).1
  rw [List.filter_append, List.filter_cons]
  simp only [bne_self_eq_false, Bool.false_eq_true, if_false]
  rw [List.filter_eq_self.mpr, List.filter_eq_self.mpr]
  · intro x hx
    have : x ≠ cur := fun h => hrest (h ▸ hx)
    simpa using this
  · intro x hx
    have : x ≠ cur := fun h => hpre (h ▸ hx)
    simpa using this

/-- The sanitize loop from a cursor on the head of `rest`, the registry being
`pre ++ rest`: the nodes of `rest` with a nonzero flag word are unlinked and
counted, nothing else changes. -/
theorem sanitize_loop_spec :
    ∀ (fuel : Nat) (s : State) (pre rest : List Addr) (removed : Int),
      s.refchain = pre ++ rest → s.refchain.Nodup → rest.length ≤ fuel →
      (∀ x ∈ rest, (lookup s.heap x).isSome = true) →
      0 ≤ removed → removed + rest.length < 2147483648 →
      sanitize_loop fuel s rest.head? removed =
        Res.ok ({ s with refchain := pre ++ rest.filter (flag_word_zero s.heap) },
          removed + ((rest.length : Int) - (rest.filter (flag_word_zero s.heap)).length)) := by
  intro fuel
  induction fuel with
  | zero =>
    intro s pre rest removed hreg _ hlen _ _ _
    have : rest = [] := List.length_eq_zero.mp (Nat.le_zero.mp hlen)
    subst this
    simp only [List.head?_nil, sanitize_loop, List.filter_nil, List.length_nil]
    rw [← hreg]
    simp
  | succ fuel ih =>
    intro s pre rest removed hreg hnd hlen hall h0 hlt
    cases rest with
    | nil =>
      simp only [List.head?_nil, sanitize_loop, List.filter_nil, List.length_nil]
      rw [← hreg]
      simp
    | cons cur rest0 =>
      obtain ⟨o, ho⟩ := Option.isSome_iff_exists.mp (hall cur (List.mem_cons_self _ _))
      have hnext : ob_next s.refchain cur = some rest0.head? := by
        rw [hreg]
        exact ob_next_split pre cur rest0 (nodup_split_not_mem (hreg ▸ hnd))
      have hall0 : ∀ x ∈ rest0, (lookup s.heap x).isSome = true :=
        fun x hx => hall x (List.mem_cons_of_mem _ hx)
      have hlen0 : rest0.length ≤ fuel := by simpa using hlen
      have hlenc : ((cur :: rest0).length : Int) = rest0.length + 1 := by simp
      have hfl : (rest0.filter (flag_word_zero s.heap)).length ≤ rest0.length :=
        List.length_filter_le _ _
      simp only [List.head?_cons, sanitize_loop, hnext, ho]
      by_cases hz : o.ob_msflags ≠ 0
      · rw [if_pos hz]
        have hw : int_wrap (removed + 1) = removed + 1 := int_wrap_id (by omega) (by omega)
        have hreg1 : (_Py_ForgetReference s cur).refchain = pre ++ rest0 := by
          show s.refchain.filter (fun x => x != cur) = _
          rw [hreg]
          exact forget_split (hreg ▸ hnd)
        have hnd1 : (_Py_ForgetReference s cur).refchain.Nodup := hnd.filter _
        have hcur : flag_word_zero s.heap cur = false := by
          simp [flag_word_zero, ho, hz]
        have hheap : (_Py_ForgetReference s cur).heap = s.heap := rfl
        have hrt : (_Py_ForgetReference s cur).runtime = s.runtime := rfl
        have hf : (cur :: rest0).filter (flag_word_zero s.heap) =
            rest0.filter (flag_word_zero s.heap) := by
          rw [List.filter_cons, hcur]
          simp
        rw [hw, ih (_Py_ForgetReference s cur) pre rest0 (removed + 1) hreg1 hnd1 hlen0 hall0
          (by omega) (by omega), hheap, hrt, hf, hlenc]
        have e : removed + 1 + ((rest0.length : Int) -
              ((rest0.filter (flag_word_zero s.heap)).length : Int)) =
            removed + ((rest0.length : Int) + 1 -
              ((rest0.filter (flag_word_zero s.heap)).length : Int)) := by
          omega
        rw [e]
      · rw [if_neg hz]
        have hcur : flag_word_zero s.heap cur = true := by
          have : o.ob_msflags = 0 := by simpa using hz
          simp [flag_word_zero, ho, this]
        have hf : (cur :: rest0).filter (flag_word_zero s.heap) =
            cur :: rest0.filter (flag_word_zero s.heap) := by
          rw [List.filter_cons, hcur]
          simp
        have hl : (((cur :: rest0.filter (flag_word_zero s.heap)).length : Nat) : Int) =
            ((rest0.filter (flag_word_zero s.heap)).length : Int) + 1 := by simp
        rw [ih s (pre ++ [cur]) rest0 removed (by simp [hreg]) hnd hlen0 hall0 h0 (by omega),
          hf, hlenc, hl]
        have e : removed + ((rest0.length : Int) -
              ((rest0.filter (flag_word_zero s.heap)).length : Int)) =
            removed + ((rest0.length : Int) + 1 -
              (((rest0.filter (flag_word_zero s.heap)).length : Int) + 1)) := by
          omega
        rw [e]
        simp

theorem flag_word_zero_iff {h : Heap} {x : Addr} :
    flag_word_zero h x = true ↔ ∃ o, lookup h x = some o ∧ o.ob_msflags = 0 := by
  unfold flag_word_zero
  cases lookup h x with
  | none => simp
  | some o => simp

/-- C14: on a duplicate-free registry of fewer than 2^31 allocated members,
`_unsafe_sanitize` returns; the heap (every object, flag and reference count)
and the runtime are unchanged, nothing is deallocated; the registry is the old
one with exactly the members whose flag word is nonzero removed, the others in
their order; the count reported is the number of members removed; and every
registry member afterwards has flag word zero. -/
theorem unsafe_sanitize_removes_flagged (fuel : Nat) (s : State)
    (hnd : s.refchain.Nodup) (hmem : members_allocated s = true)
    (hfuel : s.refchain.length ≤ fuel) (hsize : s.refchain.length < 2147483648) :
    ∃ s' n, Marksweep__unsafe_sanitize fuel s = Res.ok (s', n) ∧
      s'.heap = s.heap ∧ s'.runtime = s.runtime ∧
      s'.refchain = s.refchain.filter (flag_word_zero s.heap) ∧
      s'.refchain.Sublist s.refchain ∧
      (∀ x ∈ s.refchain, x ∉ s'.refchain ↔
        ∃ o, lookup s.heap x = some o ∧ o.ob_msflags ≠ 0) ∧
      n = (s.refchain.length : Int) - s'.refchain.length ∧
      (∀ x ∈ s'.refchain, ∃ o, lookup s'.heap x = some o ∧ o.ob_msflags = 0) := by
  have hall := (members_allocated_iff s).mp hmem
  have hrun := sanitize_loop_spec fuel s [] s.refchain 0 rfl hnd hfuel hall (le_refl _)
    (by omega)
  refine ⟨{ s with refchain := s.refchain.filter (flag_word_zero s.heap) },
    (s.refchain.length : Int) - (s.refchain.filter (flag_word_zero s.heap)).length,
    ?_, rfl, rfl, rfl, List.filter_sublist _, ?_, rfl, ?_⟩
  · unfold Marksweep__unsafe_sanitize
    rw [hrun]
    simp
  · intro x hx
    obtain ⟨o, ho⟩ := Option.isSome_iff_exists.mp (hall x hx)
    show x ∉ s.refchain.filter (flag_word_zero s.heap) ↔ _
    rw [List.mem_filter, flag_word_zero_iff]
    constructor
    · intro hn
      refine ⟨o, ho, fun hz => hn ⟨hx, o, ho, hz⟩⟩
    · rintro ⟨o', ho', hz⟩ ⟨-, o'', ho'', hz''⟩
      rw [ho'] at ho''
      cases ho''
      exact hz hz''
  · intro x hx
    exact flag_word_zero_iff.mp (List.mem_filter.mp hx).2

/-- C14 on a registry of five members, two of them with a nonzero flag word. -/
theorem unsafe_sanitize_removes_flagged_witness :
    (∃ s' n, Marksweep__unsafe_sanitize 5 diamond_cycle = Res.ok (s', n) ∧
      s'.heap = diamond_cycle.heap ∧ s'.runtime = diamond_cycle.runtime ∧
      s'.refchain = diamond_cycle.refchain.filter (flag_word_zero diamond_cycle.heap) ∧
      s'.refchain.Sublist diamond_cycle.refchain ∧
      (∀ x ∈ diamond_cycle.refchain, x ∉ s'.refchain ↔
        ∃ o, lookup diamond_cycle.heap x = some o ∧ o.ob_msflags ≠ 0) ∧
      n = (diamond_cycle.refchain.length : Int) - s'.refchain.length ∧
      (∀ x ∈ s'.refchain, ∃ o, lookup s'.heap x = some o ∧ o.ob_msflags = 0)) ∧
    Marksweep__unsafe_sanitize 5 diamond_cycle =
      Res.ok ({ diamond_cycle with refchain := [3, 1, 0] }, 2) :=
  ⟨unsafe_sanitize_removes_flagged 5 diamond_cycle (by decide) (by decide) (by decide)
    (by decide), by decide⟩

/-! ## Failing traversal callbacks -/

theorem FlagStep.faulty_iff {h h' : Heap} (hs : FlagStep h h') (a : Addr) :
    Faulty h' a ↔ Faulty h a := by
  constructor
  · rintro ⟨y, o', hr, ho', hf⟩
    obtain ⟨o, ho, heq⟩ := hs.back ho'
    refine ⟨y, o, (hs.reach_iff a y).mp hr, ho, ?_⟩
    rcases heq with rfl | rfl
    · exact hf
    · exact hf
  · rintro ⟨y, o, hr, ho, hf⟩
    rcases (hs.2 y).2 o ho with h1 | h1
    · exact ⟨y, o, (hs.reach_iff a y).mpr hr, h1, hf⟩
    · exact ⟨y, _, (hs.reach_iff a y).mpr hr, h1, hf⟩

theorem Faulty.of_edge {h : Heap} {a c : Addr} (he : edge h a c) (hc : Faulty h c) :
    Faulty h a := by
  obtain ⟨y, o, hr, ho, hf⟩ := hc
  exact ⟨y, o, Relation.ReflTransGen.head he hr, ho, hf⟩

theorem Faulty.of_self {h : Heap} {a : Addr} {o : PyObject} (ho : lookup h a = some o)
    (hf : traverse_succeeds o = false) : Faulty h a :=
  ⟨a, o, Relation.ReflTransGen.refl, ho, hf⟩

theorem ClosedGood.good_refl (h : Heap) : ClosedGood h h :=
  fun _ _ ho hm => Or.inl (marked_iff.mpr ⟨_, ho, hm⟩)

theorem ClosedGood.good_trans {h h1 h2 : Heap} (hs0 : FlagStep h h1) (c1 : ClosedGood h h1)
    (hs : FlagStep h1 h2) (c2 : ClosedGood h1 h2) : ClosedGood h h2 := by
  intro x o2 ho2 hm2
  rcases c2 x o2 ho2 hm2 with hm1 | hf | hch
  · obtain ⟨o1, ho1, hmo1⟩ := marked_iff.mp hm1
    rcases c1 x o1 ho1 hmo1 with hm | hf | hch1
    · exact Or.inl hm
    · exact Or.inr (Or.inl hf)
    · right; right
      have hrefs : out_refs o2 = out_refs o1 := by
        rcases (hs.2 x).2 o1 ho1 with h' | h' <;>
          (rw [h'] at ho2; cases ho2; rfl)
      intro c hc
      rw [hrefs] at hc
      exact hs.marked_mono (hch1 c hc)
  · exact Or.inr (Or.inl ((hs0.faulty_iff x).mp hf))
  · exact Or.inr (Or.inr hch)

theorem Py_MARK_seq_good {visit : Visit} (hv : VisitSpec visit) (hg : VisitSpecGood visit)
    (l : List (Option Addr)) :
    ∀ {h h' : Heap}, Py_MARK_seq visit h l = Res.ok h' → ClosedGood h h' := by
  induction l with
  | nil =>
    intro h h' hrun
    simp only [Py_MARK_seq] at hrun
    cases hrun
    exact ClosedGood.good_refl h
  | cons ob rest ih =>
    intro h h' hrun
    simp only [Py_MARK_seq] at hrun
    obtain ⟨h1, hfirst, hrest⟩ := Res.bind_eq_ok hrun
    have hs1 := (Py_MARK_spec hv hfirst).1
    have hs2 := (Py_MARK_seq_spec hv rest hrest).1
    have hc1 : ClosedGood h h1 := by
      cases ob with
      | none =>
        simp only [Py_MARK] at hfirst
        cases hfirst
        exact ClosedGood.good_refl h
      | some a =>
        simp only [Py_MARK] at hfirst
        obtain ⟨p, hp, hres⟩ := Res.bind_eq_ok hfirst
        cases hres
        exact (hg h a p.1 p.2 hp).2
    exact hc1.good_trans hs1 hs2 (ih hrest)

theorem tp_traverse_run_good {visit : Visit} (hv : VisitSpec visit) (hg : VisitSpecGood visit)
    (t : TraverseProc) (l : List Addr) :
    ∀ {h h' : Heap} {r : Int}, tp_traverse_run visit t h l = Res.ok (h', r) →
      ClosedGood h h' ∧
        ((∀ a ∈ l, ¬Faulty h a) → r = t.result ∧ ∀ a ∈ l, marked h' a = true) := by
  induction l with
  | nil =>
    intro h h' r hrun
    simp only [tp_traverse_run] at hrun
    cases hrun
    exact ⟨ClosedGood.good_refl h, fun _ => ⟨rfl, fun a ha => (by simp at ha)⟩⟩
  | cons a rest ih =>
    intro h h' r hrun
    simp only [tp_traverse_run] at hrun
    obtain ⟨p, hp, hres⟩ := Res.bind_eq_ok hrun
    obtain ⟨hs1, hm1, -, -⟩ := hv h a p.1 p.2 hp
    obtain ⟨hz1, hc1⟩ := hg h a p.1 p.2 hp
    by_cases hz : p.2 = 0
    · rw [if_neg (by simpa using hz)] at hres
      obtain ⟨hc2, hall2⟩ := ih hres
      have hs2 := (tp_traverse_run_spec hv t rest hres).1
      refine ⟨hc1.good_trans hs1 hs2 hc2, fun hgood => ?_⟩
      obtain ⟨hr, hall⟩ := hall2 fun b hb hf =>
        hgood b (List.mem_cons_of_mem _ hb) ((hs1.faulty_iff b).mp hf)
      refine ⟨hr, fun b hb => ?_⟩
      rcases List.mem_cons.mp hb with heq | hmem
      · rw [heq]; exact hs2.marked_mono hm1
      · exact hall b hmem
    · rw [if_pos hz] at hres
      cases hres
      exact ⟨hc1, fun hgood => absurd (hz1 (hgood a (List.mem_cons_self _ _))) hz⟩

/-- Closing a call of `mark_object` on an unmarked object in the presence of
failing callbacks. -/
theorem mark_object_finish_good {h h2 : Heap} {a : Addr} {o : PyObject}
    (ho : lookup h a = some o)
    (hs : FlagStep (store h a (PyMarkSweep_SetFlag o Py_MSFLAGS_MARKED)) h2)
    (hcg : ClosedGood (store h a (PyMarkSweep_SetFlag o Py_MSFLAGS_MARKED)) h2)
    (hall : ¬Faulty h a → ∀ c ∈ out_refs o, marked h2 c = true) :
    ClosedGood h h2 := by
  have hs0 : FlagStep h (store h a (PyMarkSweep_SetFlag o Py_MSFLAGS_MARKED)) :=
    FlagStep.store_setFlag ho
  intro x o2 ho2 hm2
  rcases hcg x o2 ho2 hm2 with hx1 | hf | hch
  · by_cases hxa : x = a
    · subst hxa
      by_cases hfa : Faulty h x
      · exact Or.inr (Or.inl hfa)
      · right; right
        have hrefs : out_refs o2 = out_refs o := by
          rcases (hs.2 x).2 _ (lookup_store_eq _ (lookup_lt ho)) with h' | h' <;>
            (rw [h'] at ho2; cases ho2; rfl)
        rw [hrefs]
        exact hall hfa
    · left
      unfold marked at hx1 ⊢
      rwa [lookup_store_ne _ _ (Ne.symm hxa)] at hx1
  · exact Or.inr (Or.inl ((hs0.faulty_iff x).mp hf))
  · exact Or.inr (Or.inr hch)

theorem mark_object_good : ∀ fuel : Nat, VisitSpecGood (mark_object fuel) := by
  intro fuel
  induction fuel with
  | zero =>
    intro h a h' r hrun
    simp [mark_object] at hrun
  | succ fuel ih =>
    intro h a h' r hrun
    have ihv := mark_object_spec fuel
    unfold mark_object at hrun
    cases ho : lookup h a with
    | none => simp [ho] at hrun
    | some o =>
      simp only [ho] at hrun
      have hs0 : FlagStep h (store h a (PyMarkSweep_SetFlag o Py_MSFLAGS_MARKED)) :=
        FlagStep.store_setFlag ho
      by_cases hm : PyMarkSweep_IsMarked o = true
      · rw [if_pos hm] at hrun
        cases hrun
        exact ⟨fun _ => rfl, ClosedGood.good_refl h⟩
      · rw [if_neg hm] at hrun
        by_cases hcode : o.is_code = true
        · simp only [hcode, if_true] at hrun
          obtain ⟨h2, hrun2, hres⟩ := Res.bind_eq_ok hrun
          cases hres
          obtain ⟨hs, hmk, -, -⟩ := Py_MARK_seq_spec ihv _ hrun2
          exact ⟨fun _ => rfl, mark_object_finish_good ho hs (Py_MARK_seq_good ihv ih _ hrun2)
            fun _ c hc => hmk c ((mem_out_refs_code hcode c).mp hc)⟩
        · have hcode' : o.is_code = false := by simpa using hcode
          simp only [hcode', Bool.false_eq_true, if_false] at hrun
          by_cases hgc : o.is_gc = true
          · simp only [hgc, Bool.not_true, Bool.false_eq_true, if_false] at hrun
            cases ht : o.tp_traverse with
            | none =>
              simp only [ht] at hrun
              cases hrun
              have hout : out_refs o = [] := by simp [out_refs, hcode', hgc, ht]
              exact ⟨fun _ => rfl, mark_object_finish_good ho (FlagStep.flag_refl _)
                (ClosedGood.good_refl _) fun _ c hc => (by rw [hout] at hc; simp at hc)⟩
            | some t =>
              simp only [ht] at hrun
              obtain ⟨p, hrun2, hres⟩ := Res.bind_eq_ok hrun
              have hout : out_refs o = t.visits := by simp [out_refs, hcode', hgc, ht]
              have hs := (tp_traverse_run_spec ihv t t.visits hrun2).1
              obtain ⟨hcg, hall⟩ := tp_traverse_run_good ihv ih t t.visits hrun2
              have hgood : ¬Faulty h a → p.2 = 0 ∧ ∀ c ∈ t.visits, marked p.1 c = true := by
                intro hfa
                obtain ⟨hr, hmk⟩ := hall fun c hc hf =>
                  hfa (Faulty.of_edge ⟨o, ho, by rw [hout]; exact hc⟩
                    ((hs0.faulty_iff c).mp hf))
                refine ⟨?_, hmk⟩
                rw [hr]
                by_contra hne
                refine hfa (Faulty.of_self ho ?_)
                simp [traverse_succeeds, hcode', hgc, ht, hne]
              have hfin : ClosedGood h p.1 :=
                mark_object_finish_good ho hs hcg fun hfa => by
                  rw [hout]; exact (hgood hfa).2
              by_cases hz : p.2 = 0
              · rw [if_neg (by simpa using hz)] at hres
                cases hres
                exact ⟨fun _ => rfl, hfin⟩
              · rw [if_pos hz] at hres
                cases hres
                exact ⟨fun hfa => absurd (hgood hfa).1 hz, hfin⟩
          · have hgc' : o.is_gc = false := by simpa using hgc
            simp only [hgc', Bool.not_false, if_true] at hrun
            cases hrun
            have hout : out_refs o = [] := by simp [out_refs, hcode', hgc']
            exact ⟨fun _ => rfl, mark_object_finish_good ho (FlagStep.flag_refl _)
              (ClosedGood.good_refl _) fun _ c hc => (by rw [hout] at hc; simp at hc)⟩

/-- C15 (as amended): on a heap without dangling references whose marked
objects have their references marked (in particular with all flags clear),
`mark_all()` completes whatever callbacks report failure; it only sets `MARKED`
bits (no flag is cleared, every object marked before is marked after); every
root is marked; every object reachable from a root from which no failing
callback is reachable is marked; and only objects already marked or reachable
from a root are marked. -/
theorem mark_all_contains_fault (fuel : Nat) (s : State)
    (hclosed : marks_closed s.heap = true)
    (hrefs : refs_valid s.heap = true) (hroots : roots_valid s.heap s.runtime = true)
    (hfuel : s.heap.length < fuel) :
    ∃ s', mark_all fuel s = Res.ok s' ∧ s'.refchain = s.refchain ∧
      s'.runtime = s.runtime ∧ FlagStep s.heap s'.heap ∧
      (∀ a, marked s.heap a = true → marked s'.heap a = true) ∧
      (∀ r ∈ roots s.runtime, marked s'.heap r = true) ∧
      (∀ r ∈ roots s.runtime, ¬Faulty s.heap r →
        ∀ x, Reach s.heap r x → marked s'.heap x = true) ∧
      (∀ x, marked s'.heap x = true →
        marked s.heap x = true ∨ ∃ r, r ∈ roots s.runtime ∧ Reach s.heap r x) := by
  have hrv : ∀ a, some a ∈ root_slots s.runtime → (lookup s.heap a).isSome = true :=
    fun a ha => List.all_eq_true.mp hroots a (mem_roots.mpr ha)
  obtain ⟨h', hrun⟩ := Py_MARK_seq_total (mark_object_spec fuel) (mark_object_total fuel)
    (root_slots s.runtime) s.heap hrefs hrv
    (lt_of_le_of_lt (unmarked_count_le_length _) hfuel)
  obtain ⟨hs, hm, hsound, -⟩ := Py_MARK_seq_spec (mark_object_spec fuel) _ hrun
  have hcg := Py_MARK_seq_good (mark_object_spec fuel) (mark_object_good fuel) _ hrun
  refine ⟨{ s with heap := h' }, ?_, rfl, rfl, hs, fun a ha => hs.marked_mono ha,
    fun r hr => hm r (mem_roots.mp hr), ?_, ?_⟩
  · simp only [mark_all, mark_all_heap_eq, hrun, Res.bind]
  · intro r hr hgood x hreach
    have key : marked h' x = true ∧ ¬Faulty s.heap x := by
      induction hreach with
      | refl => exact ⟨hm r (mem_roots.mp hr), hgood⟩
      | tail _ hedge ih =>
        obtain ⟨hmy, hgy⟩ := ih
        refine ⟨?_, fun hf => hgy (Faulty.of_edge hedge hf)⟩
        obtain ⟨o', ho', hm'⟩ := marked_iff.mp hmy
        obtain ⟨o, ho, hc⟩ := (hs.edge_iff _ _).mpr hedge
        rw [ho'] at ho
        cases ho
        rcases hcg _ o' ho' hm' with h0 | hf | hch
        · obtain ⟨o0, ho0, hm0⟩ := marked_iff.mp h0
          have hrefs' : out_refs o' = out_refs o0 := by
            rcases (hs.2 _).2 o0 ho0 with h1 | h1 <;> (rw [h1] at ho'; cases ho'; rfl)
          rw [hrefs'] at hc
          exact hs.marked_mono ((marks_closed_iff s.heap).mp hclosed _ o0 ho0 hm0 _ hc)
        · exact absurd hf hgy
        · exact hch _ hc
    exact key.1
  · intro x hx
    rcases hsound x hx with h0 | ⟨r, hr, hreach⟩
    · exact Or.inl h0
    · exact Or.inr ⟨r, mem_roots.mpr hr, hreach⟩

theorem fault_under_root_good {x : Nat} (h : Reach fault_under_root.heap (3 : Nat) x) :
    x = 3 ∨ x = 4 := by
  induction h with
  | refl => exact Or.inl rfl
  | tail _ hedge ih =>
    obtain ⟨o, ho, hc⟩ := hedge
    rcases ih with rfl | rfl
    · have : o = container 1 0 [4] := by
        have h3 : lookup fault_under_root.heap 3 = some (container 1 0 [4]) := by decide
        rw [h3] at ho; cases ho; rfl
      subst this
      simp [out_refs, container] at hc
      exact Or.inr hc
    · have : o = container 1 0 [] := by
        have h4 : lookup fault_under_root.heap 4 = some (container 1 0 []) := by decide
        rw [h4] at ho; cases ho; rfl
      subst this
      simp [out_refs, container] at hc

/-- C15 (as amended) on two roots, a failing callback below the first: the
hypotheses hold, hence the statement; concretely the second root reaches no
failing callback, and the marks at the end are those of 0, 1, 3 and 4. -/
theorem mark_all_contains_fault_witness :
    (∃ s', mark_all 6 fault_under_root = Res.ok s' ∧
      s'.refchain = fault_under_root.refchain ∧
      s'.runtime = fault_under_root.runtime ∧ FlagStep fault_under_root.heap s'.heap ∧
      (∀ a, marked fault_under_root.heap a = true → marked s'.heap a = true) ∧
      (∀ r ∈ roots fault_under_root.runtime, marked s'.heap r = true) ∧
      (∀ r ∈ roots fault_under_root.runtime, ¬Faulty fault_under_root.heap r →
        ∀ x, Reach fault_under_root.heap r x → marked s'.heap x = true) ∧
      (∀ x, marked s'.heap x = true →
        marked fault_under_root.heap x = true ∨
          ∃ r, r ∈ roots fault_under_root.runtime ∧ Reach fault_under_root.heap r x)) ∧
    (3 ∈ roots fault_under_root.runtime ∧ ¬Faulty fault_under_root.heap 3) ∧
    (mark_all 6 fault_under_root).bind
        (fun s' => Res.ok ((List.range 5).map (marked s'.heap))) =
      Res.ok [true, true, false, true, true] :=
  ⟨mark_all_contains_fault 6 fault_under_root (by decide) (by decide) (by decide) (by decide),
    ⟨by decide, fun ⟨y, o, hr, ho, hf⟩ => by
      rcases fault_under_root_good hr with rfl | rfl
      · have h3 : lookup fault_under_root.heap 3 = some (container 1 0 [4]) := by decide
        rw [h3] at ho; cases ho; exact absurd hf (by decide)
      · have h4 : lookup fault_under_root.heap 4 = some (container 1 0 []) := by decide
        rw [h4] at ho; cases ho; exact absurd hf (by decide)⟩,
    by decide⟩

/-- C15 as stated fails: the root at 0 visits 1, whose callback reports
failure, and then 2. The callback of 1 is the only one that fails, and 2 is
reachable from the root by the edge 0 → 2, which does not pass through 1; yet
after `mark_all()` the object at 2 is not marked, because the nonzero result of
the visit of 1 makes the callback of 0 return before visiting 2. -/
theorem mark_all_fault_skips_sibling_counterexample :
    (mark_all 6 fault_under_root).bind (fun s' => Res.ok (marked s'.heap 2)) = Res.ok false ∧
    no_flags_set fault_under_root.heap = true ∧
    refs_valid fault_under_root.heap = true ∧
    fault_under_root.heap.map (Option.map traverse_succeeds) =
      [some true, some false, some true, some true, some true] ∧
    0 ∈ roots fault_under_root.runtime ∧
    edge fault_under_root.heap 0 2 ∧ (0 : Nat) ≠ 1 ∧ (2 : Nat) ≠ 1 :=
  ⟨by decide, by decide, by decide, by decide, by decide,
    ⟨container 1 0 [1, 2], by decide, by decide⟩, by decide, by decide⟩

/-! ## The trace: erasure and visit-once -/

theorem Erases.run_eq {vt : TracedVisit} {v : Visit} (he : Erases vt v) {h h' : Heap}
    {a : Addr} {r : Int} {log : List MarkEvent} (hrun : vt h a = Res.ok ((h', r), log)) :
    v h a = Res.ok (h', r) := by
  rw [← he h a, hrun]
  rfl

theorem Py_MARK_traced_erase {vt : TracedVisit} {v : Visit} (he : Erases vt v) (h : Heap)
    (ob : Option Addr) :
    (Py_MARK_traced vt h ob).bind (fun p => Res.ok p.1) = Py_MARK v h ob := by
  cases ob with
  | none => rfl
  | some a =>
    simp only [Py_MARK_traced, Py_MARK]
    rw [← he h a]
    cases vt h a <;> rfl

theorem Py_MARK_seq_traced_erase {vt : TracedVisit} {v : Visit} (he : Erases vt v)
    (l : List (Option Addr)) :
    ∀ h : Heap, (Py_MARK_seq_traced vt h l).bind (fun p => Res.ok p.1) = Py_MARK_seq v h l := by
  induction l with
  | nil => intro h; rfl
  | cons ob rest ih =>
    intro h
    simp only [Py_MARK_seq_traced, Py_MARK_seq]
    rw [← Py_MARK_traced_erase he h ob]
    cases Py_MARK_traced vt h ob with
    | ok p1 =>
      simp only [Res.bind]
      rw [← ih p1.1]
      cases Py_MARK_seq_traced vt p1.1 rest <;> rfl
    | segv => rfl
    | timeout => rfl

theorem tp_traverse_run_traced_erase {vt : TracedVisit} {v : Visit} (he : Erases vt v)
    (t : TraverseProc) (l : List Addr) :
    ∀ h : Heap, (tp_traverse_run_traced vt t h l).bind (fun p => Res.ok p.1) =
      tp_traverse_run v t h l := by
  induction l with
  | nil => intro h; rfl
  | cons a rest ih =>
    intro h
    simp only [tp_traverse_run_traced, tp_traverse_run]
    rw [← he h a]
    cases vt h a with
    | ok p =>
      simp only [Res.bind]
      by_cases hz : p.1.2 = 0
      · rw [if_neg (by simpa using hz), if_neg (by simpa using hz), ← ih p.1.1]
        cases tp_traverse_run_traced vt t p.1.1 rest <;> rfl
      · rw [if_pos hz, if_pos hz]
    | segv => rfl
    | timeout => rfl

theorem mark_object_traced_erase :
    ∀ fuel : Nat, Erases (mark_object_traced fuel) (mark_object fuel) := by
  intro fuel
  induction fuel with
  | zero => intro h a; rfl
  | succ fuel ih =>
    intro h a
    unfold mark_object_traced mark_object
    cases lookup h a with
    | none => rfl
    | some o =>
      dsimp only
      by_cases hm : PyMarkSweep_IsMarked o = true
      · rw [if_pos hm, if_pos hm]; rfl
      · rw [if_neg hm, if_neg hm]
        by_cases hcode : o.is_code = true
        · rw [if_pos hcode, if_pos hcode]
          unfold code_traverse
          rw [← Py_MARK_seq_traced_erase ih]
          cases Py_MARK_seq_traced (mark_object_traced fuel) _ (code_fields o.code) <;> rfl
        · rw [if_neg hcode, if_neg hcode]
          by_cases hgc : (!o.is_gc) = true
          · rw [if_pos hgc, if_pos hgc]; rfl
          · rw [if_neg hgc, if_neg hgc]
            cases o.tp_traverse with
            | none => rfl
            | some t =>
              dsimp only
              rw [← tp_traverse_run_traced_erase ih]
              cases tp_traverse_run_traced (mark_object_traced fuel) t _ t.visits with
              | ok p =>
                simp only [Res.bind]
                by_cases hz : p.1.2 = 0
                · rw [if_neg (by simpa using hz), if_neg (by simpa using hz)]
                · rw [if_pos hz, if_pos hz]
              | segv => rfl
              | timeout => rfl

theorem mark_all_traced_erase (fuel : Nat) (s : State) :
    (mark_all_traced fuel s).bind (fun p => Res.ok p.1) = mark_all fuel s := by
  unfold mark_all_traced mark_all
  rw [mark_all_heap_eq, ← Py_MARK_seq_traced_erase (mark_object_traced_erase fuel)]
  cases Py_MARK_seq_traced (mark_object_traced fuel) s.heap (root_slots s.runtime) <;> rfl

theorem Py_MARK_seq_traced_run {vt : TracedVisit} {v : Visit} (he : Erases vt v)
    {l : List (Option Addr)} {h h' : Heap} {log : List MarkEvent}
    (hrun : Py_MARK_seq_traced vt h l = Res.ok (h', log)) :
    Py_MARK_seq v h l = Res.ok h' := by
  rw [← Py_MARK_seq_traced_erase he l h, hrun]
  rfl

theorem tp_traverse_run_traced_run {vt : TracedVisit} {v : Visit} (he : Erases vt v)
    {t : TraverseProc} {l : List Addr} {h h' : Heap} {r : Int} {log : List MarkEvent}
    (hrun : tp_traverse_run_traced vt t h l = Res.ok ((h', r), log)) :
    tp_traverse_run v t h l = Res.ok (h', r) := by
  rw [← tp_traverse_run_traced_erase he t l h, hrun]
  rfl

/-- Two consecutive traces of objects unmarked before and marked after their
part of the run make one such trace. -/
theorem trace_append {h h1 h2 : Heap} {l1 l2 : List MarkEvent} (hs1 : FlagStep h h1)
    (hs2 : FlagStep h1 h2)
    (n1 : (l1.map MarkEvent.ob).Nodup)
    (p1 : ∀ e ∈ l1, marked h e.ob = false ∧ marked h1 e.ob = true)
    (n2 : (l2.map MarkEvent.ob).Nodup)
    (p2 : ∀ e ∈ l2, marked h1 e.ob = false ∧ marked h2 e.ob = true) :
    ((l1 ++ l2).map MarkEvent.ob).Nodup ∧
      ∀ e ∈ l1 ++ l2, marked h e.ob = false ∧ marked h2 e.ob = true := by
  constructor
  · rw [List.map_append, List.nodup_append]
    refine ⟨n1, n2, ?_⟩
    intro x hx1 hx2
    obtain ⟨e1, he1, rfl⟩ := List.mem_map.mp hx1
    obtain ⟨e2, he2, heq⟩ := List.mem_map.mp hx2
    have a1 := (p1 e1 he1).2
    have a2 := (p2 e2 he2).1
    rw [heq, a1] at a2
    cases a2
  · intro e he
    rcases List.mem_append.mp he with h1' | h2'
    · exact ⟨(p1 e h1').1, hs2.marked_mono (p1 e h1').2⟩
    · refine ⟨?_, (p2 e h2').2⟩
      cases hm : marked h e.ob with
      | false => rfl
      | true =>
        have := hs1.marked_mono hm
        rw [(p2 e h2').1] at this
        cases this

theorem Py_MARK_seq_traced_spec {vt : TracedVisit} {v : Visit} (he : Erases vt v)
    (hv : VisitSpec v) (ht : TraceSpec vt) (l : List (Option Addr)) :
    ∀ {h h' : Heap} {log : List MarkEvent}, Py_MARK_seq_traced vt h l = Res.ok (h', log) →
      (log.map MarkEvent.ob).Nodup ∧
        ∀ e ∈ log, marked h e.ob = false ∧ marked h' e.ob = true := by
  induction l with
  | nil =>
    intro h h' log hrun
    simp only [Py_MARK_seq_traced] at hrun
    cases hrun
    exact ⟨List.nodup_nil, fun e hmem => (by simp at hmem)⟩
  | cons ob rest ih =>
    intro h h' log hrun
    simp only [Py_MARK_seq_traced] at hrun
    obtain ⟨p1, hfirst, hrest⟩ := Res.bind_eq_ok hrun
    obtain ⟨p2, hsecond, hres⟩ := Res.bind_eq_ok hrest
    cases hres
    have hs2 := (Py_MARK_seq_spec hv rest (Py_MARK_seq_traced_run he hsecond)).1
    obtain ⟨n2, q2⟩ := ih hsecond
    cases ob with
    | none =>
      simp only [Py_MARK_traced] at hfirst
      cases hfirst
      exact trace_append (FlagStep.flag_refl h) hs2 List.nodup_nil
        (fun e hmem => (by simp at hmem)) n2 q2
    | some a =>
      simp only [Py_MARK_traced] at hfirst
      obtain ⟨p, hp, hres⟩ := Res.bind_eq_ok hfirst
      cases hres
      obtain ⟨n1, q1⟩ := ht h a p.1.1 p.1.2 p.2 hp
      have hs1 := (hv h a p.1.1 p.1.2 (he.run_eq hp)).1
      exact trace_append hs1 hs2 n1 q1 n2 q2

theorem tp_traverse_run_traced_spec {vt : TracedVisit} {v : Visit} (he : Erases vt v)
    (hv : VisitSpec v) (ht : TraceSpec vt) (t : TraverseProc) (l : List Addr) :
    ∀ {h h' : Heap} {r : Int} {log : List MarkEvent},
      tp_traverse_run_traced vt t h l = Res.ok ((h', r), log) →
      (log.map MarkEvent.ob).Nodup ∧
        ∀ e ∈ log, marked h e.ob = false ∧ marked h' e.ob = true := by
  induction l with
  | nil =>
    intro h h' r log hrun
    simp only [tp_traverse_run_traced] at hrun
    cases hrun
    exact ⟨List.nodup_nil, fun e hmem => (by simp at hmem)⟩
  | cons a rest ih =>
    intro h h' r log hrun
    simp only [tp_traverse_run_traced] at hrun
    obtain ⟨p, hp, hres⟩ := Res.bind_eq_ok hrun
    obtain ⟨n1, q1⟩ := ht h a p.1.1 p.1.2 p.2 hp
    have hs1 := (hv h a p.1.1 p.1.2 (he.run_eq hp)).1
    by_cases hz : p.1.2 = 0
    · rw [if_neg (by simpa using hz)] at hres
      obtain ⟨⟨⟨h2, r2⟩, l2⟩, hq, hres2⟩ := Res.bind_eq_ok hres
      cases hres2
      have hs2 := (tp_traverse_run_spec hv t rest (tp_traverse_run_traced_run he hq)).1
      obtain ⟨n2, q2⟩ := ih hq
      exact trace_append hs1 hs2 n1 q1 n2 q2
    · rw [if_pos hz] at hres
      cases hres
      exact ⟨n1, q1⟩

/-- Putting the event of `ob` in front of the trace of the traversal of its
outgoing references. -/
theorem trace_cons {h h2 : Heap} {a : Addr} {o : PyObject} {k : TraverseKind}
    {log : List MarkEvent} (ho : lookup h a = some o) (hm : PyMarkSweep_IsMarked o ≠ true)
    (hs : FlagStep (store h a (PyMarkSweep_SetFlag o Py_MSFLAGS_MARKED)) h2)
    (n : (log.map MarkEvent.ob).Nodup)
    (q : ∀ e ∈ log, marked (store h a (PyMarkSweep_SetFlag o Py_MSFLAGS_MARKED)) e.ob = false ∧
      marked h2 e.ob = true) :
    (((⟨a, k⟩ : MarkEvent) :: log).map MarkEvent.ob).Nodup ∧
      ∀ e ∈ (⟨a, k⟩ : MarkEvent) :: log, marked h e.ob = false ∧ marked h2 e.ob = true := by
  have hs0 : FlagStep h (store h a (PyMarkSweep_SetFlag o Py_MSFLAGS_MARKED)) :=
    FlagStep.store_setFlag ho
  have hma : marked (store h a (PyMarkSweep_SetFlag o Py_MSFLAGS_MARKED)) a = true :=
    marked_iff.mpr ⟨_, lookup_store_eq _ (lookup_lt ho), isMarked_setFlag o⟩
  have hua : marked h a = false := by
    unfold marked
    rw [ho]
    simpa using hm
  have h1 : (([⟨a, k⟩] : List MarkEvent).map MarkEvent.ob).Nodup := by simp
  have := trace_append hs0 hs h1
    (fun e hmem => by
      rw [List.mem_singleton.mp hmem]
      exact ⟨hua, hma⟩) n q
  simpa using this

theorem mark_object_traced_spec : ∀ fuel : Nat, TraceSpec (mark_object_traced fuel) := by
  intro fuel
  induction fuel with
  | zero =>
    intro h a h' r log hrun
    simp [mark_object_traced] at hrun
  | succ fuel ih =>
    intro h a h' r log hrun
    have he := mark_object_traced_erase fuel
    have hv := mark_object_spec fuel
    unfold mark_object_traced at hrun
    cases ho : lookup h a with
    | none => simp [ho] at hrun
    | some o =>
      simp only [ho] at hrun
      by_cases hm : PyMarkSweep_IsMarked o = true
      · rw [if_pos hm] at hrun
        cases hrun
        exact ⟨List.nodup_nil, fun e hmem => (by simp at hmem)⟩
      · rw [if_neg hm] at hrun
        have hs0 : FlagStep h (store h a (PyMarkSweep_SetFlag o Py_MSFLAGS_MARKED)) :=
          FlagStep.store_setFlag ho
        by_cases hcode : o.is_code = true
        · simp only [hcode, if_true] at hrun
          obtain ⟨p, hrun2, hres⟩ := Res.bind_eq_ok hrun
          cases hres
          have hs := (Py_MARK_seq_spec hv _ (Py_MARK_seq_traced_run he hrun2)).1
          obtain ⟨n, q⟩ := Py_MARK_seq_traced_spec he hv ih _ hrun2
          exact trace_cons ho hm hs n q
        · have hcode' : o.is_code = false := by simpa using hcode
          simp only [hcode', Bool.false_eq_true, if_false] at hrun
          by_cases hgc : o.is_gc = true
          · simp only [hgc, Bool.not_true, Bool.false_eq_true, if_false] at hrun
            cases htp : o.tp_traverse with
            | none =>
              simp only [htp] at hrun
              cases hrun
              exact ⟨List.nodup_nil, fun e hmem => (by simp at hmem)⟩
            | some t =>
              simp only [htp] at hrun
              obtain ⟨p, hrun2, hres⟩ := Res.bind_eq_ok hrun
              have hs := (tp_traverse_run_spec hv t _ (tp_traverse_run_traced_run he hrun2)).1
              obtain ⟨n, q⟩ := tp_traverse_run_traced_spec he hv ih t _ hrun2
              by_cases hz : p.1.2 = 0
              · rw [if_neg (by simpa using hz)] at hres
                cases hres
                exact trace_cons ho hm hs n q
              · rw [if_pos hz] at hres
                cases hres
                exact trace_cons ho hm hs n q
          · have hgc' : o.is_gc = false := by simpa using hgc
            simp only [hgc', Bool.not_false, if_true] at hrun
            cases hrun
            exact ⟨List.nodup_nil, fun e hmem => (by simp at hmem)⟩

theorem mark_object_traced_marked (fuel : Nat) {h : Heap} {a : Addr}
    (hm : marked h a = true) :
    mark_object_traced (fuel + 1) h a = Res.ok ((h, 0), []) := by
  obtain ⟨o, ho, hmo⟩ := marked_iff.mp hm
  simp only [mark_object_traced, ho, hmo, if_true]

/-- C16: with more fuel than heap slots, on any heap (cyclic and diamond-shaped
graphs included) `mark_object` ends, and returns when no reference dangles and
`ob` is allocated. The traced marker computes what the marker computes, and in
the trace of one `mark_all()` (and of one `mark_object` call) no object has the
traversal of its outgoing references (`code_traverse` or its `tp_traverse`
callback) started twice: every recorded object was unmarked before and is marked
after. A call on an already-marked object returns 0, changes nothing and starts
no traversal. -/
theorem mark_object_visits_once (fuel : Nat) (s : State) (hfuel : s.heap.length < fuel) :
    (∀ ob, mark_object fuel s.heap ob ≠ Res.timeout) ∧
    (refs_valid s.heap = true →
      ∀ ob, (lookup s.heap ob).isSome = true → ∃ h' r, mark_object fuel s.heap ob = Res.ok (h', r)) ∧
    mark_all fuel s ≠ Res.timeout ∧
    (refs_valid s.heap = true → roots_valid s.heap s.runtime = true →
      ∃ s' log, mark_all_traced fuel s = Res.ok (s', log)) ∧
    (mark_all_traced fuel s).bind (fun p => Res.ok p.1) = mark_all fuel s ∧
    (∀ ob, (mark_object_traced fuel s.heap ob).bind (fun p => Res.ok p.1) =
      mark_object fuel s.heap ob) ∧
    (∀ s' log, mark_all_traced fuel s = Res.ok (s', log) →
      (log.map MarkEvent.ob).Nodup ∧
        ∀ e ∈ log, marked s.heap e.ob = false ∧ marked s'.heap e.ob = true) ∧
    (∀ ob h' r log, mark_object_traced fuel s.heap ob = Res.ok ((h', r), log) →
      (log.map MarkEvent.ob).Nodup ∧
        ∀ e ∈ log, marked s.heap e.ob = false ∧ marked h' e.ob = true) ∧
    (∀ ob, marked s.heap ob = true →
      mark_object fuel s.heap ob = Res.ok (s.heap, 0) ∧
        mark_object_traced fuel s.heap ob = Res.ok ((s.heap, 0), [])) := by
  have hcount : unmarked_count s.heap < fuel :=
    lt_of_le_of_lt (unmarked_count_le_length _) hfuel
  refine ⟨fun ob => mark_object_no_timeout fuel s.heap ob hcount,
    fun hrefs ob hob => mark_object_total fuel s.heap ob hrefs hob hcount,
    (mark_all_outcome fuel s hfuel).1, ?_, mark_all_traced_erase fuel s,
    fun ob => mark_object_traced_erase fuel s.heap ob, ?_,
    fun ob h' r log hrun => mark_object_traced_spec fuel s.heap ob h' r log hrun, ?_⟩
  · intro hrefs hroots
    have hrv : ∀ a, some a ∈ root_slots s.runtime → (lookup s.heap a).isSome = true :=
      fun a ha => List.all_eq_true.mp hroots a (mem_roots.mpr ha)
    obtain ⟨h', hrun⟩ := Py_MARK_seq_total (mark_object_spec fuel) (mark_object_total fuel)
      (root_slots s.runtime) s.heap hrefs hrv hcount
    have herase := Py_MARK_seq_traced_erase (mark_object_traced_erase fuel)
      (root_slots s.runtime) s.heap
    rw [hrun] at herase
    unfold mark_all_traced
    cases hp : Py_MARK_seq_traced (mark_object_traced fuel) s.heap (root_slots s.runtime) with
    | ok p => exact ⟨_, _, rfl⟩
    | segv => rw [hp] at herase; cases herase
    | timeout => rw [hp] at herase; cases herase
  · intro s' log hrun
    unfold mark_all_traced at hrun
    obtain ⟨p, hp, hres⟩ := Res.bind_eq_ok hrun
    cases hres
    exact Py_MARK_seq_traced_spec (mark_object_traced_erase fuel) (mark_object_spec fuel)
      (mark_object_traced_spec fuel) _ hp
  · intro ob hm
    cases fuel with
    | zero => exact absurd hfuel (Nat.not_lt_zero _)
    | succ n => exact ⟨mark_object_marked n hm, mark_object_traced_marked n hm⟩

/-- C16 on a diamond closed into a cycle with residual flags: the hypothesis
holds, hence the statement; concretely `mark_all()` starts the traversals of
0, 1, 3 and 2, each once, and a second call on the marked object 4 starts none. -/
theorem mark_object_visits_once_witness :
    diamond_cycle.heap.length < 6 ∧
    (∀ s' log, mark_all_traced 6 diamond_cycle = Res.ok (s', log) →
      (log.map MarkEvent.ob).Nodup ∧
        ∀ e ∈ log, marked diamond_cycle.heap e.ob = false ∧ marked s'.heap e.ob = true) ∧
    (mark_all_traced 6 diamond_cycle).bind (fun p => Res.ok p.2) =
      Res.ok [⟨0, TraverseKind.tp_traverse⟩, ⟨1, TraverseKind.tp_traverse⟩,
        ⟨3, TraverseKind.tp_traverse⟩, ⟨2, TraverseKind.tp_traverse⟩] ∧
    mark_object_traced 6 diamond_cycle.heap 4 = Res.ok ((diamond_cycle.heap, 0), []) :=
  ⟨by decide, (mark_object_visits_once 6 diamond_cycle (by decide)).2.2.2.2.2.2.1,
    by decide, by decide⟩

/-! ## Dispatch in `mark_object` -/

/-- C17: for an unmarked object `ob`, `mark_object(ob)` first sets the `MARKED`
bit of `ob` and of no other object (heap `h1` below), then: (1) if `ob` is of
the code type, whatever its GC-eligibility and callback, the call is the run of
`code_traverse` on `h1` followed by `return 0`, and the only traversal it starts
for `ob` is `code_traverse`; (2) otherwise, if `ob` is not GC-eligible or its
type has no traversal callback, the call returns 0 with heap `h1` and starts no
traversal; (3) otherwise the call is the run of the type's callback on `h1` with
`mark_object` as the visitor, returning 1 if the callback's result is nonzero
and 0 if not, and the only traversal it starts for `ob` is that callback. -/
theorem mark_object_dispatch (fuel : Nat) (h : Heap) (ob : Addr) (o : PyObject)
    (ho : lookup h ob = some o) (hm : PyMarkSweep_IsMarked o = false) :
    lookup (store h ob (PyMarkSweep_SetFlag o Py_MSFLAGS_MARKED)) ob =
      some (PyMarkSweep_SetFlag o Py_MSFLAGS_MARKED) ∧
    marked (store h ob (PyMarkSweep_SetFlag o Py_MSFLAGS_MARKED)) ob = true ∧
    (∀ a, a ≠ ob →
      lookup (store h ob (PyMarkSweep_SetFlag o Py_MSFLAGS_MARKED)) a = lookup h a) ∧
    (o.is_code = true →
      mark_object (fuel + 1) h ob =
        ((code_traverse (mark_object fuel)
          (store h ob (PyMarkSweep_SetFlag o Py_MSFLAGS_MARKED)) o.code).bind
            fun h2 => Res.ok (h2, 0)) ∧
      mark_object_traced (fuel + 1) h ob =
        ((Py_MARK_seq_traced (mark_object_traced fuel)
          (store h ob (PyMarkSweep_SetFlag o Py_MSFLAGS_MARKED)) (code_fields o.code)).bind
            fun p => Res.ok ((p.1, 0), ⟨ob, TraverseKind.code_traverse⟩ :: p.2)) ∧
      ∀ h' r log, mark_object_traced (fuel + 1) h ob = Res.ok ((h', r), log) →
        r = 0 ∧ ∀ e ∈ log, e.ob = ob → e.kind = TraverseKind.code_traverse) ∧
    (o.is_code = false → (o.is_gc = false ∨ o.tp_traverse = none) →
      mark_object (fuel + 1) h ob =
        Res.ok (store h ob (PyMarkSweep_SetFlag o Py_MSFLAGS_MARKED), 0) ∧
      mark_object_traced (fuel + 1) h ob =
        Res.ok ((store h ob (PyMarkSweep_SetFlag o Py_MSFLAGS_MARKED), 0), [])) ∧
    (∀ t, o.is_code = false → o.is_gc = true → o.tp_traverse = some t →
      mark_object (fuel + 1) h ob =
        ((tp_traverse_run (mark_object fuel) t
          (store h ob (PyMarkSweep_SetFlag o Py_MSFLAGS_MARKED)) t.visits).bind
            fun p => Res.ok (p.1, if p.2 ≠ 0 then 1 else 0)) ∧
      mark_object_traced (fuel + 1) h ob =
        ((tp_traverse_run_traced (mark_object_traced fuel) t
          (store h ob (PyMarkSweep_SetFlag o Py_MSFLAGS_MARKED)) t.visits).bind
            fun p => Res.ok ((p.1.1, if p.1.2 ≠ 0 then 1 else 0),
              ⟨ob, TraverseKind.tp_traverse⟩ :: p.2)) ∧
      ∀ h' r log, mark_object_traced (fuel + 1) h ob = Res.ok ((h', r), log) →
        ∀ e ∈ log, e.ob = ob → e.kind = TraverseKind.tp_traverse) := by
  have hm' : ¬PyMarkSweep_IsMarked o = true := by simp [hm]
  have honly : ∀ (k : TraverseKind) (log : List MarkEvent),
      (((⟨ob, k⟩ : MarkEvent) :: log).map MarkEvent.ob).Nodup →
        ∀ e ∈ (⟨ob, k⟩ : MarkEvent) :: log, e.ob = ob → e.kind = k := by
    intro k log hnd e he heq
    rcases List.mem_cons.mp he with h1 | h1
    · rw [h1]
    · rw [List.map_cons, List.nodup_cons] at hnd
      exact absurd (List.mem_map.mpr ⟨e, h1, heq⟩) hnd.1
  refine ⟨lookup_store_eq _ (lookup_lt ho),
    marked_iff.mpr ⟨_, lookup_store_eq _ (lookup_lt ho), isMarked_setFlag o⟩,
    fun a ha => lookup_store_ne _ _ (Ne.symm ha), ?_, ?_, ?_⟩
  · intro hcode
    have e1 : mark_object_traced (fuel + 1) h ob =
        ((Py_MARK_seq_traced (mark_object_traced fuel)
          (store h ob (PyMarkSweep_SetFlag o Py_MSFLAGS_MARKED)) (code_fields o.code)).bind
            fun p => Res.ok ((p.1, 0), ⟨ob, TraverseKind.code_traverse⟩ :: p.2)) := by
      simp only [mark_object_traced, ho, hm, hcode, if_true, Bool.false_eq_true, if_false]
    refine ⟨?_, e1, ?_⟩
    · simp only [mark_object, ho, hm, hcode, if_true, Bool.false_eq_true, if_false]
    · intro h' r log hrun
      have hspec := mark_object_traced_spec (fuel + 1) h ob h' r log hrun
      rw [e1] at hrun
      obtain ⟨p, -, hres⟩ := Res.bind_eq_ok hrun
      cases hres
      exact ⟨rfl, honly _ _ hspec.1⟩
  · intro hcode hor
    rcases hor with hgc | htp
    · constructor
      · simp only [mark_object, ho, hm, hcode, hgc, Bool.not_false, if_true,
          Bool.false_eq_true, if_false]
      · simp only [mark_object_traced, ho, hm, hcode, hgc, Bool.not_false, if_true,
          Bool.false_eq_true, if_false]
    · constructor
      · simp only [mark_object, ho, hm, hcode, htp, Bool.false_eq_true, if_false]
        split <;> rfl
      · simp only [mark_object_traced, ho, hm, hcode, htp, Bool.false_eq_true, if_false]
        split <;> rfl
  · intro t hcode hgc htp
    have e1 : mark_object_traced (fuel + 1) h ob =
        ((tp_traverse_run_traced (mark_object_traced fuel) t
          (store h ob (PyMarkSweep_SetFlag o Py_MSFLAGS_MARKED)) t.visits).bind
            fun p => Res.ok ((p.1.1, if p.1.2 ≠ 0 then 1 else 0),
              ⟨ob, TraverseKind.tp_traverse⟩ :: p.2)) := by
      simp only [mark_object_traced, ho, hm, hcode, hgc, htp, Bool.not_true,
        Bool.false_eq_true, if_false]
      congr 1
      funext p
      split <;> rfl
    refine ⟨?_, e1, ?_⟩
    · simp only [mark_object, ho, hm, hcode, hgc, htp, Bool.not_true,
        Bool.false_eq_true, if_false]
      congr 1
      funext p
      split <;> rfl
    · intro h' r log hrun
      have hspec := mark_object_traced_spec (fuel + 1) h ob h' r log hrun
      rw [e1] at hrun
      obtain ⟨p, -, hres⟩ := Res.bind_eq_ok hrun
      cases hres
      exact honly _ _ hspec.1

/-- C17 on a code object that is also GC-eligible with a callback: the
hypotheses hold, hence the statement; concretely the call starts `code_traverse`
for 0 and the callback of 1, marks 0 and 1, and leaves 2 (which only the
callback of 0 would have visited) unmarked. -/
theorem mark_object_dispatch_witness :
    lookup gc_code_heap 0 = some gc_code_object ∧
    PyMarkSweep_IsMarked gc_code_object = false ∧
    (∀ h' r log, mark_object_traced (2 + 1) gc_code_heap 0 = Res.ok ((h', r), log) →
      r = 0 ∧ ∀ e ∈ log, e.ob = 0 → e.kind = TraverseKind.code_traverse) ∧
    (mark_object_traced 3 gc_code_heap 0).bind
        (fun p => Res.ok (p.1.2, p.2, (List.range 3).map (marked p.1.1))) =
      Res.ok (0, [⟨0, TraverseKind.code_traverse⟩, ⟨1, TraverseKind.tp_traverse⟩],
        [true, true, false]) :=
  ⟨by decide, by decide,
    ((mark_object_dispatch 2 gc_code_heap 0 gc_code_object (by decide) (by decide)).2.2.2.1
      (by decide)).2.2,
    by decide⟩

end GCPython
